import Mathlib

/-!
Load balancer pool: a shallow embedding of `server-pool.js` and of the router of
`load-balancer.js`.

The registry is a list of server records.  JavaScript hands out servers by
reference, so a selected server is represented by its position in the registry
(a `Nat`); mutating a server is `List.set` at that position.  The `while (true)`
loop of the weighted round robin is modelled with fuel: `none` means the loop did
not return within the given number of iterations.

Counters are natural numbers.  Sums of response times and their quotients are
kept as exact rationals; where a result depends on the double-precision
arithmetic of JavaScript (the scores compared by `LEAST_RESPONSE_TIME`, the
fairness score) every operation is rounded by `double`, round to nearest with
ties to even on 53 bits.
-/

namespace LoadBalancer

/-- Health status of a backend (`'UNKNOWN'`, `'UP'`, `'DOWN'`). -/
inductive Status where
  | UNKNOWN
  | UP
  | DOWN
deriving DecidableEq, Repr

/-- A server record as created by `addServer` (the timestamp `lastHealthCheck` is left out). -/
structure Server where
  url : String
  status : Status
  connections : Nat
  weight : Int
  currentWeight : Int
  totalRequests : Nat
  totalResponseTime : ℚ
  avgResponseTime : ℚ
  failedRequests : Nat
  successfulRequests : Nat
  clients : List String
deriving DecidableEq

/-- One record of `algorithmMetrics` (`lastUsed` is a time stamp, kept as an optional tick). -/
structure AlgorithmMetrics where
  totalRequests : Nat
  totalResponseTime : ℚ
  avgResponseTime : ℚ
  failedRequests : Nat
  successfulRequests : Nat
  loadDistributionScore : ℚ
  lastUsed : Option Nat
deriving DecidableEq

/-- The state of the `ServerPool` singleton (`startTime` and the timer settings are left out). -/
structure Pool where
  servers : List Server
  algorithm : String
  roundRobinIndex : Nat
  weightedRoundRobinIndex : Nat
  requestCount : Nat
  totalResponseTime : ℚ
  clientConnections : List (String × String)
  algorithmMetrics : List (String × AlgorithmMetrics)
deriving DecidableEq

/-- The list `config.loadBalancer.availableAlgorithms`. -/
def availableAlgorithms : List String :=
  ["ROUND_ROBIN", "WEIGHTED_ROUND_ROBIN", "LEAST_CONNECTIONS", "RANDOM", "LEAST_RESPONSE_TIME"]

/-- The value `config.loadBalancer.defaultAlgorithm`. -/
def defaultAlgorithm : String := "LEAST_CONNECTIONS"

/-- The record every algorithm gets in `initializeAlgorithmMetrics`. -/
def emptyMetrics : AlgorithmMetrics :=
  { totalRequests := 0, totalResponseTime := 0, avgResponseTime := 0, failedRequests := 0,
    successfulRequests := 0, loadDistributionScore := 0, lastUsed := none }

/-- The map built by `initializeAlgorithmMetrics`. -/
def initializeAlgorithmMetrics : List (String × AlgorithmMetrics) :=
  ["ROUND_ROBIN", "WEIGHTED_ROUND_ROBIN", "LEAST_CONNECTIONS", "RANDOM",
    "LEAST_RESPONSE_TIME"].map (fun algo => (algo, emptyMetrics))

/-- The pool right after `constructor()`. -/
def initialPool : Pool :=
  { servers := [], algorithm := defaultAlgorithm, roundRobinIndex := 0,
    weightedRoundRobinIndex := 0, requestCount := 0, totalResponseTime := 0,
    clientConnections := [], algorithmMetrics := initializeAlgorithmMetrics }

/-- Rounding to the nearest integer, ties to the even one. -/
def roundHalfEven (x : ℚ) : ℤ :=
  if x - (⌊x⌋ : ℚ) < 1 / 2 then ⌊x⌋
  else if 1 / 2 < x - (⌊x⌋ : ℚ) then ⌊x⌋ + 1
  else if ⌊x⌋ % 2 = 0 then ⌊x⌋ else ⌊x⌋ + 1

/-- The JavaScript Number nearest to the exact value `x`: IEEE 754 binary64 rounding to nearest,
ties to even, with 53 significant bits.  Every arithmetic operation on Numbers returns the
`double` of its exact result.  The exponent range is not bounded here: overflow to `Infinity` and
gradual underflow need magnitudes beyond `1e308` or below `1e-308`. -/
def double (x : ℚ) : ℚ :=
  if x = 0 then 0
  else
    let e := Int.log 2 |x|
    (roundHalfEven (x * 2 ^ (52 - e)) : ℚ) * 2 ^ (e - 52)

/-- Whether the object at position `i` is a server with `status === 'UP'`. -/
def isUpAt (servers : List Server) (i : Nat) : Bool :=
  match servers[i]? with
  | some s => decide (s.status = Status.UP)
  | none => false

/-- The array `this.servers.filter(s => s.status === 'UP')`, as references in registry order. -/
def upRefs (servers : List Server) : List Nat :=
  (List.range servers.length).filter (fun i => isUpAt servers i)

/-- The JavaScript `this.servers.find(s => s.url === url)`, as a reference. -/
def findRef (url : String) : List Server → Option Nat
  | [] => none
  | s :: rest => if s.url = url then some 0 else (findRef url rest).map (fun i => i + 1)

/-- The object literal `addServer` pushes for a new URL. -/
def newServer (url : String) (weight : Int) : Server :=
  { url := url
    status := Status.UNKNOWN
    connections := 0
    weight := weight
    currentWeight := 0
    totalRequests := 0
    totalResponseTime := 0
    avgResponseTime := 0
    failedRequests := 0
    successfulRequests := 0
    clients := [] }

/-- The synchronous part of `addServer(url, weight)`; the probe it starts is a later
`checkServerHealth` event. -/
def addServer (url : String) (weight : Int) (p : Pool) : Pool :=
  match findRef url p.servers with
  | some _ => p
  | none => { p with servers := p.servers ++ [newServer url weight] }

/-- The completion of `checkServerHealth(server)` for the server object `r`: `ok` tells whether
the probe answered in time (`true`) or failed or timed out (`false`). -/
def checkServerHealth (r : Nat) (ok : Bool) (p : Pool) : Pool :=
  match p.servers[r]? with
  | none => p
  | some server =>
    let probed : Server := { server with status := if ok then Status.UP else Status.DOWN }
    { p with servers := p.servers.set r probed }

/-- The method `setAlgorithm(algorithm)`: the returned flag and the new state. -/
def setAlgorithm (algorithm : String) (p : Pool) : Bool × Pool :=
  if availableAlgorithms.contains algorithm then
    (true, { p with algorithm := algorithm })
  else
    (false, p)

/-- The method `getRoundRobinServer()`. -/
def getRoundRobinServer (p : Pool) : Option Nat × Pool :=
  let availableServers := upRefs p.servers
  if availableServers.length = 0 then (none, p)
  else
    (availableServers[p.roundRobinIndex % availableServers.length]?,
      { p with roundRobinIndex := p.roundRobinIndex + 1 })

/-- The `for` loop of `getWeightedRoundRobinServer` computing `(totalWeight, maxWeight)`. -/
def weightTotals (servers : List Server) (availableServers : List Nat) : Int × Int :=
  availableServers.foldl (fun acc r =>
    match servers[r]? with
    | some server =>
      (acc.1 + server.weight, if server.weight > acc.2 then server.weight else acc.2)
    | none => acc) (0, 0)

/-- The `while (true)` loop of `getWeightedRoundRobinServer`, run for at most `fuel` iterations.
The result is the selected reference, the new cursor and the registry after the writes to
`currentWeight`. -/
def wrrLoop (availableServers : List Nat) (totalWeight maxWeight : Int) :
    Nat → Nat → List Server → Option (Nat × Nat × List Server)
  | 0, _, _ => none
  | fuel + 1, index, servers =>
    let index1 := (index + 1) % availableServers.length
    match availableServers[index1]? with
    | none => none
    | some r =>
      match servers[r]? with
      | none => none
      | some server =>
        let cw := server.currentWeight + server.weight
        if cw ≥ maxWeight then
          some (r, index1, servers.set r { server with currentWeight := cw - totalWeight })
        else
          wrrLoop availableServers totalWeight maxWeight fuel index1
            (servers.set r { server with currentWeight := cw })

/-- The method `getWeightedRoundRobinServer()`; `none` when the loop does not return within
`fuel` iterations. -/
def getWeightedRoundRobinServer (fuel : Nat) (p : Pool) : Option (Option Nat × Pool) :=
  let availableServers := upRefs p.servers
  if availableServers.length = 0 then some (none, p)
  else
    let tm := weightTotals p.servers availableServers
    match wrrLoop availableServers tm.1 tm.2 fuel p.weightedRoundRobinIndex p.servers with
    | none => none
    | some (r, index, servers) =>
      some (some r, { p with servers := servers, weightedRoundRobinIndex := index })

/-- The `for` loop of `getLeastConnectionsServer`: the state is `(minConnections, selectedServer)`
with `none` for `Infinity` and for `null`. -/
def leastConnectionsLoop (servers : List Server) (availableServers : List Nat) :
    Option Nat × Option Nat :=
  availableServers.foldl (fun acc r =>
    match servers[r]? with
    | some server =>
      match acc.1 with
      | none => (some server.connections, some r)
      | some minConnections =>
        if server.connections < minConnections then (some server.connections, some r) else acc
    | none => acc) (none, none)

/-- The method `getLeastConnectionsServer()`. -/
def getLeastConnectionsServer (p : Pool) : Option Nat :=
  let availableServers := upRefs p.servers
  if availableServers.length = 0 then none
  else (leastConnectionsLoop p.servers availableServers).2

/-- The method `getRandomServer()`; `rand` is the value of `Math.random()`. -/
def getRandomServer (rand : ℚ) (p : Pool) : Option Nat :=
  let availableServers := upRefs p.servers
  if availableServers.length = 0 then none
  else
    let randomIndex := ⌊rand * (availableServers.length : ℚ)⌋
    if randomIndex < 0 then none else availableServers[randomIndex.toNat]?

/-- The `for` loop of `getLeastResponseTimeServer`: the state is
`(minResponseTime, selectedServer)` with `none` for `Infinity` and for `null`.  The field
`avgResponseTime` holds the quotient written by `updateRequestMetrics`; the source holds the
double of that quotient, which is taken here where the field is read, and the product is a double
again.  On numbers `avgResponseTime || 0` is `avgResponseTime`, and the second disjunct of the
source's test (`adjustedTime === 0 && minResponseTime === Infinity`) is covered by the first. -/
def leastResponseTimeLoop (servers : List Server) (availableServers : List Nat) :
    Option ℚ × Option Nat :=
  availableServers.foldl (fun acc r =>
    match servers[r]? with
    | some server =>
      let responseTime := double server.avgResponseTime
      let adjustedTime := double (responseTime * ((server.connections : ℚ) + 1))
      match acc.1 with
      | none => (some adjustedTime, some r)
      | some minResponseTime =>
        if adjustedTime < minResponseTime then (some adjustedTime, some r) else acc
    | none => acc) (none, none)

/-- The method `getLeastResponseTimeServer()`. -/
def getLeastResponseTimeServer (p : Pool) : Option Nat :=
  let availableServers := upRefs p.servers
  if availableServers.length = 0 then none
  else
    let res := leastResponseTimeLoop p.servers availableServers
    if res.1 = some 0 ∨ res.1 = none then getLeastConnectionsServer p
    else res.2

/-- The method `getNextServer(clientIP)`: the `switch` over `this.algorithm` (the argument
`clientIP` is never read by the source).  `fuel` bounds the loop of the weighted round robin and
`rand` is the draw used by `RANDOM`. -/
def getNextServer (fuel : Nat) (rand : ℚ) (p : Pool) : Option (Option Nat × Pool) :=
  if p.algorithm = "ROUND_ROBIN" then some (getRoundRobinServer p)
  else if p.algorithm = "WEIGHTED_ROUND_ROBIN" then getWeightedRoundRobinServer fuel p
  else if p.algorithm = "LEAST_CONNECTIONS" then some (getLeastConnectionsServer p, p)
  else if p.algorithm = "RANDOM" then some (getRandomServer rand p, p)
  else if p.algorithm = "LEAST_RESPONSE_TIME" then some (getLeastResponseTimeServer p, p)
  else some (getLeastConnectionsServer p, p)

/-- JavaScript truthiness of a `clientIP` argument: the client string when the argument is
truthy, nothing when it is `null` or `''`. -/
def truthyClient (clientIP : Option String) : Option String :=
  match clientIP with
  | some c => if c = "" then none else some c
  | none => none

/-- The call `Map.prototype.set(key, value)` on an insertion-ordered map. -/
def mapSet (key value : String) : List (String × String) → List (String × String)
  | [] => [(key, value)]
  | (k, v) :: rest => if k = key then (k, value) :: rest else (k, v) :: mapSet key value rest

/-- The call `Map.prototype.delete(key)`. -/
def mapDelete (key : String) (m : List (String × String)) : List (String × String) :=
  m.filter (fun kv => decide (kv.1 ≠ key))

/-- The method `incrementConnections(url, clientIP)`. -/
def incrementConnections (url : String) (clientIP : Option String) (p : Pool) : Pool :=
  match findRef url p.servers with
  | none => p
  | some r =>
    match p.servers[r]? with
    | none => p
    | some server =>
      let clients1 :=
        match truthyClient clientIP with
        | some c => if server.clients.contains c then server.clients else server.clients ++ [c]
        | none => server.clients
      let map1 :=
        match truthyClient clientIP with
        | some c => mapSet c url p.clientConnections
        | none => p.clientConnections
      { p with
        servers := p.servers.set r
          { server with connections := server.connections + 1, clients := clients1 }
        clientConnections := map1 }

/-- The method `decrementConnections(url, clientIP)`. -/
def decrementConnections (url : String) (clientIP : Option String) (p : Pool) : Pool :=
  match findRef url p.servers with
  | none => p
  | some r =>
    match p.servers[r]? with
    | none => p
    | some server =>
      if server.connections > 0 then
        let connections1 := server.connections - 1
        let clients1 :=
          match truthyClient clientIP with
          | some c =>
            if connections1 = 0 then server.clients.filter (fun x => decide (x ≠ c))
            else server.clients
          | none => server.clients
        let map1 :=
          match truthyClient clientIP with
          | some c => if connections1 = 0 then mapDelete c p.clientConnections
                      else p.clientConnections
          | none => p.clientConnections
        { p with
          servers := p.servers.set r
            { server with connections := connections1, clients := clients1 }
          clientConnections := map1 }
      else p

/-- The router `dynamicRouter(req)` of `load-balancer.js`, without logging and the event feed:
ask the pool for a server and count the connection on it.  The result is the target URL, or
`null`. -/
def dynamicRouter (fuel : Nat) (rand : ℚ) (clientIP : Option String) (p : Pool) :
    Option (Option String × Pool) :=
  match getNextServer fuel rand p with
  | none => none
  | some (none, p1) => some (none, p1)
  | some (some r, p1) =>
    match p1.servers[r]? with
    | none => none
    | some targetServer =>
      some (some targetServer.url, incrementConnections targetServer.url clientIP p1)

/-- The method `removeServer(url)`. -/
def removeServer (url : String) (p : Pool) : Pool :=
  { p with servers := p.servers.filter (fun s => decide (s.url ≠ url)) }

/-- The handler of `PATCH /admin/servers` in `load-balancer.js`: `server.weight = weight` on the
server found by URL. -/
def patchServerWeight (url : String) (weight : Int) (p : Pool) : Pool :=
  match findRef url p.servers with
  | none => p
  | some r =>
    match p.servers[r]? with
    | none => p
    | some server => { p with servers := p.servers.set r { server with weight := weight } }

/-- The method `updateRequestMetrics(url, responseTime, success)`. -/
def updateRequestMetrics (url : String) (responseTime : ℚ) (success : Bool) (p : Pool) : Pool :=
  let servers1 :=
    match findRef url p.servers with
    | none => p.servers
    | some r =>
      match p.servers[r]? with
      | none => p.servers
      | some server =>
        if success then
          let successfulRequests1 := server.successfulRequests + 1
          let totalResponseTime1 := server.totalResponseTime + responseTime
          p.servers.set r
            { server with
              totalRequests := server.totalRequests + 1
              successfulRequests := successfulRequests1
              totalResponseTime := totalResponseTime1
              avgResponseTime := totalResponseTime1 / (successfulRequests1 : ℚ) }
        else
          p.servers.set r
            { server with
              totalRequests := server.totalRequests + 1
              failedRequests := server.failedRequests + 1 }
  { p with
    servers := servers1
    requestCount := p.requestCount + 1
    totalResponseTime := if success then p.totalResponseTime + responseTime
                         else p.totalResponseTime }

/-- What the `forEach` of `resetMetrics` does to one server. -/
def resetServer (server : Server) : Server :=
  { server with
    connections := 0
    totalRequests := 0
    successfulRequests := 0
    failedRequests := 0
    totalResponseTime := 0
    avgResponseTime := 0
    clients := []
    currentWeight := 0 }

/-- The method `resetMetrics()`. -/
def resetMetrics (p : Pool) : Pool :=
  { p with
    requestCount := 0
    totalResponseTime := 0
    clientConnections := []
    servers := p.servers.map resetServer }

/-- JavaScript `Math.round`: the nearest integer, halves rounded up.  The result is exact for
every Number it is applied to here. -/
def mathRound (x : ℚ) : ℚ := ((⌊x + 1 / 2⌋ : ℤ) : ℚ)

/-- The body of `calculateLoadDistributionScore()`, with the rounding `fl` that every arithmetic
operation on Numbers applies to its exact result as a parameter.  The integer sum `totalLoad` is
exact. -/
def calculateLoadDistributionScoreWith (fl : ℚ → ℚ) (p : Pool) : ℚ :=
  if p.servers.length = 0 then 0
  else
    let activeServers := p.servers.filter (fun s => decide (s.status = Status.UP))
    if activeServers.length = 0 then 0
    else
      let totalLoad : Nat := activeServers.foldl (fun sum s => sum + s.totalRequests) 0
      if totalLoad = 0 then 100
      else
        let idealLoad := fl ((totalLoad : ℚ) / (activeServers.length : ℚ))
        let variance :=
          fl (activeServers.foldl (fun (sum : ℚ) s =>
            let diff := fl ((s.totalRequests : ℚ) - idealLoad)
            fl (sum + fl (diff * diff))) 0 / (activeServers.length : ℚ))
        let maxVariance := fl (idealLoad * idealLoad)
        let score := max 0 (fl (100 - fl (fl (variance / maxVariance) * 100)))
        mathRound score

/-- The method `calculateLoadDistributionScore()`: every operation rounds to a double. -/
def calculateLoadDistributionScore (p : Pool) : ℚ :=
  calculateLoadDistributionScoreWith double p

/-- The call `Map.prototype.get(key)` on the client map. -/
def mapGet (key : String) : List (String × String) → Option String
  | [] => none
  | e :: rest => if e.1 = key then some e.2 else mapGet key rest

/-- The call `this.algorithmMetrics.get(key)`. -/
def metricsGet (key : String) : List (String × AlgorithmMetrics) → Option AlgorithmMetrics
  | [] => none
  | e :: rest => if e.1 = key then some e.2 else metricsGet key rest

/-- Mutating in place the record `this.algorithmMetrics.get(key)`, when there is one. -/
def metricsUpdate (key : String) (f : AlgorithmMetrics → AlgorithmMetrics) :
    List (String × AlgorithmMetrics) → List (String × AlgorithmMetrics)
  | [] => []
  | e :: rest => if e.1 = key then (e.1, f e.2) :: rest else e :: metricsUpdate key f rest

/-- What `updateAlgorithmMetrics` does to the record of the active algorithm; `score` is the
value of `calculateLoadDistributionScore()` and `now` the tick standing for `new Date()`. -/
def recordOutcome (responseTime : ℚ) (success : Bool) (now : Nat) (score : ℚ)
    (metrics : AlgorithmMetrics) : AlgorithmMetrics :=
  let totalRequests1 := metrics.totalRequests + 1
  let totalResponseTime1 := metrics.totalResponseTime + responseTime
  { metrics with
    totalRequests := totalRequests1
    totalResponseTime := totalResponseTime1
    avgResponseTime := totalResponseTime1 / (totalRequests1 : ℚ)
    lastUsed := some now
    successfulRequests := if success then metrics.successfulRequests + 1
                          else metrics.successfulRequests
    failedRequests := if success then metrics.failedRequests
                      else metrics.failedRequests + 1
    loadDistributionScore := score }

/-- The method `updateAlgorithmMetrics(responseTime, success)`. -/
def updateAlgorithmMetrics (responseTime : ℚ) (success : Bool) (now : Nat) (p : Pool) : Pool :=
  { p with
    algorithmMetrics :=
      metricsUpdate p.algorithm
        (recordOutcome responseTime success now (calculateLoadDistributionScore p))
        p.algorithmMetrics }

/-- The operations that change the pool: the methods of `ServerPool`, the completion of a health
probe and the weight patch of the admin API. -/
inductive PoolOp where
  | addServer (url : String) (weight : Int)
  | removeServer (url : String)
  | setAlgorithm (algorithm : String)
  | checkServerHealth (r : Nat) (ok : Bool)
  | getNextServer (fuel : Nat) (rand : ℚ)
  | incrementConnections (url : String) (clientIP : Option String)
  | decrementConnections (url : String) (clientIP : Option String)
  | updateRequestMetrics (url : String) (responseTime : ℚ) (success : Bool)
  | updateAlgorithmMetrics (responseTime : ℚ) (success : Bool) (now : Nat)
  | resetMetrics
  | patchServerWeight (url : String) (weight : Int)

/-- The state after one operation.  A selection that does not return within its fuel leaves no
new state behind, so the pool is kept. -/
def applyOp (op : PoolOp) (p : Pool) : Pool :=
  match op with
  | PoolOp.addServer url weight => addServer url weight p
  | PoolOp.removeServer url => removeServer url p
  | PoolOp.setAlgorithm algorithm => (setAlgorithm algorithm p).2
  | PoolOp.checkServerHealth r ok => checkServerHealth r ok p
  | PoolOp.getNextServer fuel rand =>
    match getNextServer fuel rand p with
    | some res => res.2
    | none => p
  | PoolOp.incrementConnections url clientIP => incrementConnections url clientIP p
  | PoolOp.decrementConnections url clientIP => decrementConnections url clientIP p
  | PoolOp.updateRequestMetrics url responseTime success =>
    updateRequestMetrics url responseTime success p
  | PoolOp.updateAlgorithmMetrics responseTime success now =>
    updateAlgorithmMetrics responseTime success now p
  | PoolOp.resetMetrics => resetMetrics p
  | PoolOp.patchServerWeight url weight => patchServerWeight url weight p

/-- The state after a sequence of operations, from left to right. -/
def runOps (ops : List PoolOp) (p : Pool) : Pool :=
  ops.foldl (fun q op => applyOp op q) p

/-- The states the pool can be in: those reached from the fresh pool by operations. -/
def Reachable (p : Pool) : Prop := ∃ ops, runOps ops initialPool = p

/-- The sub-object `scores` of an entry of `algorithmScores`: the scores after `Math.round`, the
distribution score as stored. -/
structure Scores where
  response : ℚ
  reliability : ℚ
  distribution : ℚ
  composite : ℚ
deriving DecidableEq

/-- One entry of `algorithmScores`.  The sub-object `metrics` is flattened into the entry; its
`avgResponseTime` and `successRate` are kept as the numbers that `toFixed` formats. -/
structure AlgorithmScore where
  algorithm : String
  totalRequests : Nat
  avgResponseTime : ℚ
  successRate : ℚ
  distributionScore : ℚ
  lastUsed : Option Nat
  scores : Scores
  compositeScore : ℚ
deriving DecidableEq

/-- The object `analysis.summary` when more than one algorithm is scored. -/
structure Summary where
  bestAlgorithm : String
  bestScore : ℚ
  currentScore : ℚ
  worstAlgorithm : String
  worstScore : ℚ
deriving DecidableEq

/-- The recommendations `analyzeAlgorithmPerformance` can push, by their `type` (and by their
message where two share the type `'info'`); the message texts are left out. -/
inductive Recommendation where
  /-- Type `'improvement'`: switch to the best algorithm; the message quotes both scores. -/
  | improvement (bestAlgorithm : String) (bestScore currentScore : ℚ)
  /-- Type `'high-load'`: LEAST_CONNECTIONS recommended. -/
  | highLoad
  /-- Type `'performance'`: LEAST_RESPONSE_TIME recommended. -/
  | performance
  /-- Type `'weighted-servers'`: WEIGHTED_ROUND_ROBIN suggested. -/
  | weightedServers
  /-- Type `'info'`, pushed when `requestCount < 50`: limited data. -/
  | limitedData
  /-- Type `'info'`, pushed when at most one algorithm is scored: use different algorithms. -/
  | useDifferentAlgorithms
deriving DecidableEq

/-- The object returned by `analyzeAlgorithmPerformance`. -/
structure Analysis where
  currentAlgorithm : String
  recommendations : List Recommendation
  algorithmComparison : List AlgorithmScore
  summary : Option Summary
deriving DecidableEq

/-- The body of the `forEach` callback of `analyzeAlgorithmPerformance` for a record that is not
skipped (`0.4` and `0.3` as exact rationals). -/
def scoreAlgorithm (algorithm : String) (metrics : AlgorithmMetrics) : AlgorithmScore :=
  let responseScore : ℚ :=
    if metrics.avgResponseTime > 0 then max 0 (100 - metrics.avgResponseTime / 10) else 50
  let reliabilityScore : ℚ :=
    if metrics.totalRequests > 0 then
      (metrics.successfulRequests : ℚ) / (metrics.totalRequests : ℚ) * 100
    else 50
  let distributionScore := metrics.loadDistributionScore
  let compositeScore :=
    responseScore * (4 / 10) + reliabilityScore * (3 / 10) + distributionScore * (3 / 10)
  { algorithm := algorithm
    totalRequests := metrics.totalRequests
    avgResponseTime := metrics.avgResponseTime
    successRate :=
      (metrics.successfulRequests : ℚ) /
        ((if metrics.totalRequests = 0 then 1 else metrics.totalRequests : Nat) : ℚ) * 100
    distributionScore := metrics.loadDistributionScore
    lastUsed := metrics.lastUsed
    scores :=
      { response := mathRound responseScore
        reliability := mathRound reliabilityScore
        distribution := distributionScore
        composite := mathRound compositeScore }
    compositeScore := compositeScore }

/-- The array `algorithmScores` after the `forEach` over the map of Algorithm Metrics, in the
insertion order of the map: a record without requests is skipped unless it is the record of the
active algorithm. -/
def collectScores (p : Pool) : List AlgorithmScore :=
  p.algorithmMetrics.filterMap (fun kv =>
    if kv.2.totalRequests = 0 ∧ kv.1 ≠ p.algorithm then none
    else some (scoreAlgorithm kv.1 kv.2))

/-- The call `algorithmScores.sort((a, b) => b.compositeScore - a.compositeScore)`: a stable sort
by descending composite score. -/
def sortScores (algorithmScores : List AlgorithmScore) : List AlgorithmScore :=
  algorithmScores.insertionSort (fun a b => b.compositeScore ≤ a.compositeScore)

/-- The method `analyzeAlgorithmPerformance()`.  With an empty registry `avgConnections` is
`0 / 0`, which fails the test `> 5` here as `NaN` does in the source.  Inside the branch
`algorithmScores.length > 1` the first and the last entry exist, so the second arm of the `match`
is never reached. -/
def analyzeAlgorithmPerformance (p : Pool) : Analysis :=
  let currentMetrics := metricsGet p.algorithm p.algorithmMetrics
  let algorithmScores := sortScores (collectScores p)
  if algorithmScores.length > 1 then
    match algorithmScores.head?, algorithmScores.getLast? with
    | some best, some worst =>
      let current := algorithmScores.find? (fun a => decide (a.algorithm = p.algorithm))
      let currentScore : ℚ :=
        match current with
        | some c => c.compositeScore
        | none => 0
      let totalRequests := p.requestCount
      let avgConnections : ℚ :=
        ((p.servers.foldl (fun sum s => sum + s.connections) 0 : Nat) : ℚ) /
          (p.servers.length : ℚ)
      let r1 :=
        if best.algorithm ≠ p.algorithm ∧ best.compositeScore > currentScore + 10 then
          [Recommendation.improvement best.algorithm best.compositeScore currentScore]
        else []
      let r2 := if avgConnections > 5 then [Recommendation.highLoad] else []
      let r3 :=
        match currentMetrics with
        | some m => if m.avgResponseTime > 5 then [Recommendation.performance] else []
        | none => []
      let r4 :=
        if p.servers.any (fun s => decide (s.weight ≠ 1)) then [Recommendation.weightedServers]
        else []
      let r5 := if totalRequests < 50 then [Recommendation.limitedData] else []
      { currentAlgorithm := p.algorithm
        recommendations := r1 ++ r2 ++ r3 ++ r4 ++ r5
        algorithmComparison := algorithmScores
        summary := some
          { bestAlgorithm := best.algorithm
            bestScore := best.compositeScore
            currentScore := currentScore
            worstAlgorithm := worst.algorithm
            worstScore := worst.compositeScore } }
    | _, _ =>
      { currentAlgorithm := p.algorithm
        recommendations := []
        algorithmComparison := algorithmScores
        summary := none }
  else
    { currentAlgorithm := p.algorithm
      recommendations := [Recommendation.useDifferentAlgorithms]
      algorithmComparison := algorithmScores
      summary := none }

/-! ## Runs, columns and ledgers used in the statements and proofs -/

/-- The connection count read through a reference. -/
def connAt (servers : List Server) (r : Nat) : Nat :=
  match servers[r]? with
  | some s => s.connections
  | none => 0

/-- One iteration of the `for` loop of `getLeastConnectionsServer`. -/
def lcStep (servers : List Server) (acc : Option Nat × Option Nat) (r : Nat) :
    Option Nat × Option Nat :=
  match servers[r]? with
  | some server =>
    match acc.1 with
    | none => (some server.connections, some r)
    | some minConnections =>
      if server.connections < minConnections then (some server.connections, some r) else acc
  | none => acc

/-- The results of `k` consecutive calls of `getRoundRobinServer`, in call order, and the state
after them. -/
def rrCalls : Nat → Pool → List (Option Nat) × Pool
  | 0, p => ([], p)
  | k + 1, p =>
    let res := getRoundRobinServer p
    let rest := rrCalls k res.2
    (res.1 :: rest.1, rest.2)

/-- The static weight read through a reference. -/
def weightAt (servers : List Server) (r : Nat) : Int :=
  match servers[r]? with
  | some s => s.weight
  | none => 0

/-- The field `currentWeight` read through a reference. -/
def currentWeightAt (servers : List Server) (r : Nat) : Int :=
  match servers[r]? with
  | some s => s.currentWeight
  | none => 0

/-- The value `maxWeight` computed by the `for` loop, on a column of weights. -/
def maxWeightOf (ws : List Int) : Int :=
  ws.foldl (fun m w => if w > m then w else m) 0

/-- The `while (true)` loop of `getWeightedRoundRobinServer` on the column `ws` of the weights of
the UP servers and the column `cws` of their current weights.  The result is the selected position
(the new cursor) and the new column of current weights. -/
def cwLoop (ws : List Int) (totalWeight maxWeight : Int) :
    Nat → Nat → List Int → Option (Nat × List Int)
  | 0, _, _ => none
  | fuel + 1, index, cws =>
    let index1 := (index + 1) % ws.length
    match ws[index1]?, cws[index1]? with
    | some w, some c =>
      if c + w ≥ maxWeight then some (index1, cws.set index1 (c + w - totalWeight))
      else cwLoop ws totalWeight maxWeight fuel index1 (cws.set index1 (c + w))
    | _, _ => none

/-- A server record with its `currentWeight` blanked: two registries with the same image differ
at most in the current weights. -/
def clearCurrentWeight (s : Server) : Server := { s with currentWeight := 0 }

/-- The measure that decreases along the iterations of the loop that do not return. -/
def wrrPotential (maxWeight : Int) (cws : List Int) : Nat :=
  (cws.map (fun c => (maxWeight - c).toNat)).sum

/-- The column of the static weights of the UP servers, in registry order. -/
def weightsOf (p : Pool) : List Int := (upRefs p.servers).map (weightAt p.servers)

/-- The column of the current weights of the UP servers, in registry order. -/
def currentWeightsOf (p : Pool) : List Int := (upRefs p.servers).map (currentWeightAt p.servers)

/-- One call on the columns: the loop with `totalWeight` and `maxWeight` computed from `ws`. -/
def cwCall (ws : List Int) (fuel index : Nat) (cws : List Int) : Option (Nat × List Int) :=
  cwLoop ws ws.sum (maxWeightOf ws) fuel index cws

/-- One iteration of the `for` loop of `getLeastResponseTimeServer`. -/
def lrtStep (servers : List Server) (acc : Option ℚ × Option Nat) (r : Nat) :
    Option ℚ × Option Nat :=
  match servers[r]? with
  | some server =>
    let responseTime := double server.avgResponseTime
    let adjustedTime := double (responseTime * ((server.connections : ℚ) + 1))
    match acc.1 with
    | none => (some adjustedTime, some r)
    | some minResponseTime =>
      if adjustedTime < minResponseTime then (some adjustedTime, some r) else acc
  | none => acc

/-- The sum of the weights at the positions `1 .. index`: what the current round has already
added when the cursor stands at `index`. -/
def roundSum (ws : List Int) (index : Nat) : Int :=
  (ws.take (index + 1)).sum - (ws.take 1).sum

/-- Whether position `j` was already visited in the current round (positions `1 .. index`). -/
def visited (index j : Nat) : Int := if 1 ≤ j ∧ j ≤ index then 1 else 0

/-- The bookkeeping behind the loop: `v` full rounds are complete, `k` selections were made, `S j`
of them at position `j`; every current weight is what the visits added minus what the selections
took away. -/
def WrrCore (ws : List Int) (S : Nat → Int) (k v : Int) (index : Nat) (cws : List Int) : Prop :=
  cws.length = ws.length ∧ index < ws.length ∧
  cws.sum = (v - k) * ws.sum + roundSum ws index ∧
  ∀ j w c, ws[j]? = some w → cws[j]? = some c →
    c = (v + visited index j) * w - S j * ws.sum

/-- The invariant of the weighted round robin between calls, after the selections `hist`
(positions among the UP servers, oldest first). -/
def WrrInv (ws : List Int) (hist : List Nat) (index : Nat) (cws : List Int) : Prop :=
  (∃ v : Int, WrrCore ws (fun j => (hist.count j : Int)) (hist.length : Int) v index cws) ∧
  ∀ c ∈ cws, maxWeightOf ws - ws.sum ≤ c ∧ c < maxWeightOf ws

/-- The selections of `k` consecutive calls on the columns (positions, in call order), the final
cursor and the final column of current weights. -/
def cwCalls (ws : List Int) (fuel : Nat) : Nat → Nat → List Int → Option (List Nat × Nat × List Int)
  | 0, index, cws => some ([], index, cws)
  | k + 1, index, cws =>
    match cwCall ws fuel index cws with
    | none => none
    | some (i1, cws1) =>
      match cwCalls ws fuel k i1 cws1 with
      | none => none
      | some (rest, i2, cws2) => some (i1 :: rest, i2, cws2)

/-- The results of `k` consecutive calls of `getWeightedRoundRobinServer`, in call order, and the
state after them; `none` when some call does not return within `fuel` iterations. -/
def wrrCalls (fuel : Nat) : Nat → Pool → Option (List (Option Nat) × Pool)
  | 0, p => some ([], p)
  | k + 1, p =>
    match getWeightedRoundRobinServer fuel p with
    | none => none
    | some (res, p1) =>
      match wrrCalls fuel k p1 with
      | none => none
      | some (rest, p2) => some (res :: rest, p2)

/-- The bound of the frequency claim, a function of the weights only:
`(n + 1) * totalWeight`. -/
def wrrBound (ws : List Int) : Int := ((ws.length : Int) + 1) * ws.sum

/-- The pool after `addServer(a, 2)`, `addServer(b, 1)` on a fresh pool and one successful probe
of each of the two servers. -/
def registeredTwo (a b : String) : Pool :=
  checkServerHealth 1 true (checkServerHealth 0 true (addServer b 1 (addServer a 2 initialPool)))

/-- The five states (cursor, current weights) the weights `[2, 1, 1]` run through: the initial
state and the four states of the cycle. -/
def OnCycle211 (index : Nat) (cws : List Int) : Prop :=
  (index = 0 ∧ cws = [0, 0, 0]) ∨ (index = 0 ∧ cws = [-2, 1, 1]) ∨
  (index = 1 ∧ cws = [-2, -2, 1]) ∨ (index = 2 ∧ cws = [-2, -2, -2]) ∨
  (index = 0 ∧ cws = [-2, -1, -1])

/-- The pool after the start-up of `load-balancer.js` with `config.initialServers` and one
successful probe of each of the three servers. -/
def startupPool : Pool :=
  checkServerHealth 2 true (checkServerHealth 1 true (checkServerHealth 0 true
    (addServer "http://localhost:5003" 1 (addServer "http://localhost:5002" 1
      (addServer "http://localhost:5001" 2 initialPool)))))

/-- The requests of a run: for each one the draw `Math.random()` would give and the client
address.  The result lists the targets `dynamicRouter` returned, in call order. -/
def routeCalls (fuel : Nat) : List (ℚ × Option String) → Pool → Option (List (Option String) × Pool)
  | [], p => some ([], p)
  | req :: rest, p =>
    match dynamicRouter fuel req.1 req.2 p with
    | none => none
    | some (target, p1) =>
      match routeCalls fuel rest p1 with
      | none => none
      | some (targets, p2) => some (target :: targets, p2)

/-- The URL read through a reference. -/
def urlAt (servers : List Server) (r : Nat) : Option String :=
  (servers[r]?).map Server.url

/-- The URL `onProxyRes` builds from the outgoing request `proxyRes.req`:
`http://${host}:${port || 80}`, where an absent port and the port 0 are falsy. -/
def proxyTargetUrl (host : String) (port : Option Nat) : String :=
  "http://" ++ host ++ ":" ++
    toString (match port with
      | some (n + 1) => n + 1
      | _ => 80)

/-- The handler `onProxyRes(proxyRes, req, res)` of `load-balancer.js`, without the response
headers and the event feed.  `host` and `port` are the fields read from `proxyRes.req`,
`targetUrl` and `clientIP` the fields `_targetUrl` and `_clientIP` that `dynamicRouter` left on
the request, `responseTime` is `Date.now() - req._startTime` and `now` the tick standing for
`new Date()`.  The count is decremented on the rebuilt URL; the metrics go to `req._targetUrl`,
when it is truthy (`req._startTime`, a clock reading, is). -/
def onProxyRes (host : String) (port : Option Nat) (targetUrl : String)
    (clientIP : Option String) (responseTime : ℚ) (statusCode : Nat) (now : Nat) (p : Pool) :
    Pool :=
  let p1 := decrementConnections (proxyTargetUrl host port) clientIP p
  if targetUrl ≠ "" then
    let success := decide (statusCode < 500)
    updateAlgorithmMetrics responseTime success now
      (updateRequestMetrics targetUrl responseTime success p1)
  else p1

/-- The handler `onError(err, req, res)` of `load-balancer.js`, without logging and the reply:
when `req._targetUrl` is truthy a failure is recorded on it, and when `req._clientIP` is truthy
too the count is decremented on `req._targetUrl`. -/
def onError (targetUrl : String) (clientIP : Option String) (now : Nat) (p : Pool) : Pool :=
  if targetUrl ≠ "" then
    let p1 := updateAlgorithmMetrics 0 false now (updateRequestMetrics targetUrl 0 false p)
    if (truthyClient clientIP).isSome then decrementConnections targetUrl clientIP p1
    else p1
  else p

/-- An operation of the routing facade: a request arrives (with the draw `Math.random()` would
give and its client address); the response to the request at position `i` of the list of
requests in flight arrives (`onProxyRes`, with the host and port of the outgoing request, the
response time, the status code and the tick of the clock); or the request at position `i`
fails (`onError`). -/
inductive Op where
  | route (rand : ℚ) (clientIP : Option String)
  | proxyRes (i : Nat) (host : String) (port : Option Nat) (responseTime : ℚ)
      (statusCode : Nat) (now : Nat)
  | error (i : Nat) (now : Nat)

/-- One operation on the pool and the list of requests in flight (target URL and client of each
routed, not yet completed request).  A request is recorded when `dynamicRouter` returns a target;
it leaves the list when its response arrives or when it fails, and the handler of the event runs
on the pool.  An event naming no request in flight does nothing. -/
def step (fuel : Nat) (op : Op) (st : Pool × List (String × Option String)) :
    Option (Pool × List (String × Option String)) :=
  match op with
  | Op.route rand clientIP =>
    match dynamicRouter fuel rand clientIP st.1 with
    | none => none
    | some (none, p1) => some (p1, st.2)
    | some (some url, p1) => some (p1, st.2 ++ [(url, clientIP)])
  | Op.proxyRes i host port responseTime statusCode now =>
    match st.2[i]? with
    | none => some st
    | some req =>
      some (onProxyRes host port req.1 req.2 responseTime statusCode now st.1, st.2.eraseIdx i)
  | Op.error i now =>
    match st.2[i]? with
    | none => some st
    | some req => some (onError req.1 req.2 now st.1, st.2.eraseIdx i)

/-- A sequence of operations, from left to right. -/
def run (fuel : Nat) : List Op → Pool × List (String × Option String) →
    Option (Pool × List (String × Option String))
  | [], st => some st
  | op :: ops, st =>
    match step fuel op st with
    | none => none
    | some st1 => run fuel ops st1

/-- The sum of the connection counts of all servers (`totalConnections` in `getMetrics`). -/
def totalConnections (p : Pool) : Nat := (p.servers.map Server.connections).sum

/-- The URL and the connection count of every server, in registry order. -/
def ledger (servers : List Server) : List (String × Nat) :=
  servers.map (fun s => (s.url, s.connections))

/-- Apply `f` to the count of the first entry with URL `u`. -/
def ledgerUpdate (u : String) (f : Nat → Nat) : List (String × Nat) → List (String × Nat)
  | [] => []
  | e :: rest => if e.1 = u then (e.1, f e.2) :: rest else e :: ledgerUpdate u f rest

/-- The count of the first entry with URL `u`, or 0. -/
def ledgerGet (u : String) : List (String × Nat) → Nat
  | [] => 0
  | e :: rest => if e.1 = u then e.2 else ledgerGet u rest

/-- The sum of the counts. -/
def ledgerTotal (v : List (String × Nat)) : Nat := (v.map Prod.snd).sum

/-- The number of requests in flight whose target is `u`. -/
def pending (u : String) (out : List (String × Option String)) : Nat :=
  (out.filter (fun q => decide (q.1 = u))).length

/-- The invariant of routing: the counts add up to the number of requests in flight, and the
first server of every URL carries at least the requests in flight that target this URL. -/
def LedgerInv (v : List (String × Nat)) (out : List (String × Option String)) : Prop :=
  ledgerTotal v = out.length ∧ ∀ u, pending u out ≤ ledgerGet u v

/-- An event that settles the request it names on the server the request was counted on: a
response whose rebuilt URL is the recorded target, or a failure of a request whose recorded
target and client are truthy. -/
def OpAligned (st : Pool × List (String × Option String)) (op : Op) : Prop :=
  match op with
  | Op.route _ _ => True
  | Op.proxyRes i host port _ _ _ =>
    ∀ req, st.2[i]? = some req → proxyTargetUrl host port = req.1
  | Op.error i _ =>
    ∀ req, st.2[i]? = some req → req.1 ≠ "" ∧ (truthyClient req.2).isSome = true

/-- Every event of the run is aligned in the state it occurs in. -/
def RunAligned (fuel : Nat) : List Op → Pool × List (String × Option String) → Prop
  | [], _ => True
  | op :: ops, st =>
    OpAligned st op ∧ ∀ st1, step fuel op st = some st1 → RunAligned fuel ops st1

/-! ## Further definitions used in the statements -/

/-- The writes an operation can make to one registered server: a new status, a new weight, one
more connection, one connection less (only from a positive count), a recorded success or a
recorded failure.  The client list may change with the connection count only. -/
def ServerStep (s s1 : Server) : Prop :=
  (∃ st, s1 = { s with status := st }) ∨
  (∃ w, s1 = { s with weight := w }) ∨
  (∃ cl, s1 = { s with connections := s.connections + 1, clients := cl }) ∨
  (0 < s.connections ∧ ∃ cl, s1 = { s with connections := s.connections - 1, clients := cl }) ∨
  (∃ rt, s1 =
    { s with
      totalRequests := s.totalRequests + 1
      successfulRequests := s.successfulRequests + 1
      totalResponseTime := s.totalResponseTime + rt
      avgResponseTime := (s.totalResponseTime + rt) / ((s.successfulRequests + 1 : Nat) : ℚ) }) ∨
  s1 = { s with totalRequests := s.totalRequests + 1, failedRequests := s.failedRequests + 1 }

/-- The request counts of the UP servers, in registry order. -/
def activeRequestCounts (p : Pool) : List ℚ :=
  (p.servers.filter (fun s => decide (s.status = Status.UP))).map
    (fun s => (s.totalRequests : ℚ))

/-- The ideal load of the fairness formula: total UP-server requests divided by the number of UP
servers. -/
def idealLoad (p : Pool) : ℚ :=
  (activeRequestCounts p).sum / ((activeRequestCounts p).length : ℚ)

/-- The population variance of the request counts of the UP servers. -/
def populationVariance (p : Pool) : ℚ :=
  ((activeRequestCounts p).map (fun x => (x - idealLoad p) ^ 2)).sum /
    ((activeRequestCounts p).length : ℚ)

/-- The fairness formula as the specification words it:
`100 * max(0, 1 - variance / idealLoad²)`. -/
def fairnessFormula (p : Pool) : ℚ :=
  100 * max 0 (1 - populationVariance p / idealLoad p ^ 2)

/-- A pool with two UP servers that have served 1 and 2 requests. -/
def unevenPool : Pool :=
  { initialPool with
    servers :=
      [{ newServer "a" 1 with status := Status.UP, totalRequests := 1, successfulRequests := 1 },
       { newServer "b" 1 with status := Status.UP, totalRequests := 2, successfulRequests := 2 }] }

/-- Three UP servers that have served 0, 1 and 3 requests. -/
def skewedPool : Pool :=
  { initialPool with
    servers :=
      [{ newServer "a" 1 with status := Status.UP },
       { newServer "b" 1 with status := Status.UP, totalRequests := 1, successfulRequests := 1 },
       { newServer "c" 1 with status := Status.UP, totalRequests := 3, successfulRequests := 3 }] }

/-- The consistency the specification asks of the client map and the client lists: a client is
in the client list of a registered server exactly when the map points that client to that
server. -/
def ClientConsistent (p : Pool) : Prop :=
  ∀ s ∈ p.servers, ∀ c, c ∈ s.clients ↔ mapGet c p.clientConnections = some s.url

/-- Whether an operation is a deregistration. -/
def isRemoveServer : PoolOp → Bool
  | PoolOp.removeServer _ => true
  | _ => false

/-- One client routed to two servers in turn. -/
def sharedClientOps : List PoolOp :=
  [PoolOp.addServer "A" 1, PoolOp.addServer "B" 1,
   PoolOp.incrementConnections "A" (some "c"), PoolOp.incrementConnections "B" (some "c")]

/-- A server deregistered while a client is connected to it, and registered again. -/
def readdOps : List PoolOp :=
  [PoolOp.addServer "A" 1, PoolOp.incrementConnections "A" (some "c"),
   PoolOp.removeServer "A", PoolOp.addServer "A" 1]

/-- Every entry of the client map names a registered server that lists the client. -/
def MapBacked (p : Pool) : Prop :=
  ∀ c u, mapGet c p.clientConnections = some u → ∃ s ∈ p.servers, s.url = u ∧ c ∈ s.clients

/-- Whether the operation is a successful probe of the server registered under `u`. -/
def revives (u : String) (op : PoolOp) (p : Pool) : Bool :=
  match op with
  | PoolOp.checkServerHealth r true => decide (urlAt p.servers r = some u)
  | _ => false

/-- Whether no operation of the run from `p` is a successful probe of the server registered
under `u`. -/
def noRevival (u : String) : List PoolOp → Pool → Bool
  | [], _ => true
  | op :: ops, p => !revives u op p && noRevival u ops (applyOp op p)

/-- No server registered under `u` is UP. -/
def DownAt (u : String) (p : Pool) : Prop :=
  ∀ s ∈ p.servers, s.url = u → s.status ≠ Status.UP

/-- The value `adjustedTime` of the server behind a reference. -/
def adjustedTimeAt (servers : List Server) (r : Nat) : ℚ :=
  match servers[r]? with
  | some s => double (double s.avgResponseTime * ((s.connections : ℚ) + 1))
  | none => 0

/-- The composite score as the specification words it: the response and reliability scores take
their default 50 when the record has no samples (`totalRequests = 0`). -/
def specCompositeScore (m : AlgorithmMetrics) : ℚ :=
  4 / 10 * (if 0 < m.totalRequests then max 0 (100 - m.avgResponseTime / 10) else 50) +
  3 / 10 * (if 0 < m.totalRequests then
    100 * (m.successfulRequests : ℚ) / (m.totalRequests : ℚ) else 50) +
  3 / 10 * m.loadDistributionScore

/-- The fresh pool after one successful request that took 0 ms. -/
def instantPool : Pool := updateAlgorithmMetrics 0 true 0 initialPool

/-- The fresh pool with one server of weight 2. -/
def weightedPool : Pool := addServer "A" 2 initialPool

/-- A pool with one server of weight 2 and two scored algorithms: one request recorded under the
default algorithm, then a switch to round robin. -/
def comparedPool : Pool :=
  runOps [PoolOp.addServer "A" 2, PoolOp.updateAlgorithmMetrics 10 true 0,
    PoolOp.setAlgorithm "ROUND_ROBIN"] initialPool

/-- What one iteration of the `while (true)` loop writes before its test: the cursor moves to the
next position among the UP servers (wrapping) and the weight of the server there is added to its
`currentWeight`. -/
def wrrVisit (availableServers : List Nat) (st : Nat × List Server) : Nat × List Server :=
  let index1 := (st.1 + 1) % availableServers.length
  match availableServers[index1]? with
  | none => (index1, st.2)
  | some r =>
    match st.2[r]? with
    | none => (index1, st.2)
    | some server =>
      (index1, st.2.set r { server with currentWeight := server.currentWeight + server.weight })

/-- The cursor and the registry after the writes of the first `j` iterations of a call on `p`. -/
def wrrVisits (p : Pool) (j : Nat) : Nat × List Server :=
  (wrrVisit (upRefs p.servers))^[j] (p.weightedRoundRobinIndex, p.servers)

/-- The operations of a start-up with `config.initialServers`, a switch to the weighted round
robin and three selections. -/
def fourthCallOps : List PoolOp :=
  [PoolOp.addServer "http://localhost:5001" 2, PoolOp.addServer "http://localhost:5002" 1,
   PoolOp.addServer "http://localhost:5003" 1, PoolOp.checkServerHealth 0 true,
   PoolOp.checkServerHealth 1 true, PoolOp.checkServerHealth 2 true,
   PoolOp.setAlgorithm "WEIGHTED_ROUND_ROBIN", PoolOp.getNextServer 8 0,
   PoolOp.getNextServer 8 0, PoolOp.getNextServer 8 0]

/-- Two servers are registered and probed; `a` answers three requests in 5, 0 and 0 ms, `b`
answers three requests in 1, 0 and 0 ms and holds four open connections. -/
def tieOps : List PoolOp :=
  [PoolOp.addServer "a" 1, PoolOp.addServer "b" 1,
   PoolOp.checkServerHealth 0 true, PoolOp.checkServerHealth 1 true,
   PoolOp.updateRequestMetrics "a" 5 true, PoolOp.updateRequestMetrics "a" 0 true,
   PoolOp.updateRequestMetrics "a" 0 true,
   PoolOp.updateRequestMetrics "b" 1 true, PoolOp.updateRequestMetrics "b" 0 true,
   PoolOp.updateRequestMetrics "b" 0 true,
   PoolOp.incrementConnections "b" (some "c"), PoolOp.incrementConnections "b" (some "c"),
   PoolOp.incrementConnections "b" (some "c"), PoolOp.incrementConnections "b" (some "c")]

/-- The state after `tieOps`. -/
def tiePool : Pool := runOps tieOps initialPool

/-- The value `adjustedTime` the loop of `getLeastResponseTimeServer` computes for a server: the
double of the product of the average response time, read as a double, and `connections + 1`. -/
def adjustedTime (s : Server) : ℚ :=
  double (double s.avgResponseTime * ((s.connections : ℚ) + 1))

/-! ## Theorems -/

/-! ## Rounding to doubles -/

theorem roundHalfEven_eq_of {x : ℚ} {m : ℤ} (h : |x - (m : ℚ)| < 1 / 2) :
    roundHalfEven x = m := by
  rw [abs_lt] at h
  unfold roundHalfEven
  by_cases hm : (m : ℚ) ≤ x
  · have hf : ⌊x⌋ = m := by
      rw [Int.floor_eq_iff]
      constructor
      · exact hm
      · linarith
    rw [hf, if_pos (by linarith)]
  · have hf : ⌊x⌋ = m - 1 := by
      rw [Int.floor_eq_iff]
      push_cast
      constructor <;> linarith
    rw [hf]
    push_cast
    rw [if_neg (by linarith), if_pos (by linarith)]
    ring

theorem roundHalfEven_le {x : ℚ} {n : ℤ} (h : x ≤ (n : ℚ)) : roundHalfEven x ≤ n := by
  have hfl : ⌊x⌋ ≤ n := Int.floor_le_iff.mpr (by linarith)  
  have hx := Int.floor_le x
  have hcase : ⌊x⌋ = n ∨ ⌊x⌋ + 1 ≤ n := by omega
  unfold roundHalfEven
  rcases hcase with hc | hc
  · have : x - (⌊x⌋ : ℚ) ≤ 0 := by rw [hc]; linarith
    rw [if_pos (by linarith)]
    exact hfl
  · split_ifs <;> omega

theorem roundHalfEven_ge {x : ℚ} {n : ℤ} (h : (n : ℚ) ≤ x) : n ≤ roundHalfEven x := by
  have hfl : n ≤ ⌊x⌋ := Int.le_floor.mpr h
  unfold roundHalfEven
  split_ifs <;> omega

theorem roundHalfEven_intCast (m : ℤ) : roundHalfEven (m : ℚ) = m :=
  roundHalfEven_eq_of (by simp)

theorem log_two_eq_of {x : ℚ} {z : ℤ} (h1 : (2 : ℚ) ^ z ≤ x) (h2 : x < (2 : ℚ) ^ (z + 1)) :
    Int.log 2 x = z := by
  have hx : 0 < x := lt_of_lt_of_le (zpow_pos (by norm_num) z) h1
  have ha : z ≤ Int.log 2 x := by
    rw [← Int.zpow_le_iff_le_log (by norm_num) hx]
    simpa using h1
  have hb : Int.log 2 x < z + 1 := by
    rw [← Int.lt_zpow_iff_log_lt (by norm_num) hx]
    simpa using h2
  omega

theorem zpow_log_two_le {x : ℚ} (hx : 0 < x) : (2 : ℚ) ^ Int.log 2 x ≤ x := by
  have := Int.zpow_log_le_self (show (1 : ℕ) < 2 by norm_num) hx
  simpa using this

theorem lt_zpow_log_two_succ (x : ℚ) : x < (2 : ℚ) ^ (Int.log 2 x + 1) := by
  have := Int.lt_zpow_succ_log_self (show (1 : ℕ) < 2 by norm_num) x
  simpa using this

/-- Evaluation of `double` at a positive value: `m` is the integer nearest to `x * 2 ^ k`, which
lies in the binade `[2 ^ 52, 2 ^ 53)`. -/
theorem double_eq_of_nat (x : ℚ) (k : ℕ) (m : ℤ) (hlo : (2 : ℚ) ^ 52 ≤ x * 2 ^ k)
    (hhi : x * 2 ^ k < (2 : ℚ) ^ 53) (hm : |x * 2 ^ k - (m : ℚ)| < 1 / 2) :
    double x = (m : ℚ) / 2 ^ k := by
  have hk : (0 : ℚ) < 2 ^ k := pow_pos (by norm_num) k
  have hx : 0 < x := by
    by_contra hneg
    have : x * 2 ^ k ≤ 0 := mul_nonpos_of_nonpos_of_nonneg (le_of_not_gt hneg) hk.le
    have h52 : (0 : ℚ) < 2 ^ 52 := by norm_num
    linarith
  have hlog : Int.log 2 |x| = 52 - (k : ℤ) := by
    rw [abs_of_pos hx]
    apply log_two_eq_of
    · rw [zpow_sub₀ (by norm_num), zpow_natCast, div_le_iff₀ hk]
      exact_mod_cast hlo
    · rw [show (52 : ℤ) - k + 1 = 53 - k by ring, zpow_sub₀ (by norm_num), zpow_natCast,
        lt_div_iff₀ hk]
      exact_mod_cast hhi
  unfold double
  rw [if_neg (ne_of_gt hx)]
  simp only [hlog]
  rw [show (52 : ℤ) - (52 - (k : ℤ)) = (k : ℤ) by ring,
    show (52 : ℤ) - (k : ℤ) - 52 = -(k : ℤ) by ring, zpow_natCast, zpow_neg, zpow_natCast,
    roundHalfEven_eq_of hm]
  rfl

theorem double_nonneg {x : ℚ} (h : 0 ≤ x) : 0 ≤ double x := by
  unfold double
  split_ifs
  · exact le_refl _
  · apply mul_nonneg
    · have : (0 : ℤ) ≤ roundHalfEven (x * 2 ^ (52 - Int.log 2 |x|)) :=
        roundHalfEven_ge (by
          push_cast
          exact mul_nonneg h (zpow_nonneg (by norm_num) _))
      exact_mod_cast this
    · exact zpow_nonneg (by norm_num) _

theorem double_nonpos {x : ℚ} (h : x ≤ 0) : double x ≤ 0 := by
  unfold double
  split_ifs
  · exact le_refl _
  · apply mul_nonpos_of_nonpos_of_nonneg
    · have : roundHalfEven (x * 2 ^ (52 - Int.log 2 |x|)) ≤ (0 : ℤ) :=
        roundHalfEven_le (by
          push_cast
          exact mul_nonpos_of_nonpos_of_nonneg h (zpow_nonneg (by norm_num) _))
      exact_mod_cast this
    · exact zpow_nonneg (by norm_num) _

/-- Rounding does not cross a natural number below `2 ^ 53`. -/
theorem double_le_natCast {x : ℚ} {n : ℕ} (hn : (n : ℚ) < 2 ^ 53) (h : x ≤ (n : ℚ)) :
    double x ≤ (n : ℚ) := by
  by_cases hx : x ≤ 0
  · exact le_trans (double_nonpos hx) (Nat.cast_nonneg n)
  · have hpos : 0 < x := lt_of_not_ge hx
    have he : Int.log 2 x < 53 := by
      have h1 := zpow_log_two_le hpos
      have h2 : (2 : ℚ) ^ Int.log 2 x < (2 : ℚ) ^ (53 : ℤ) := by
        have : (2 : ℚ) ^ (53 : ℤ) = 2 ^ 53 := by norm_num
        rw [this]
        linarith
      exact (zpow_lt_zpow_iff_right₀ (by norm_num : (1 : ℚ) < 2)).mp h2
    obtain ⟨j, hj⟩ : ∃ j : ℕ, (52 : ℤ) - Int.log 2 x = (j : ℤ) :=
      ⟨(52 - Int.log 2 x).toNat, by omega⟩
    unfold double
    rw [if_neg (ne_of_gt hpos), abs_of_pos hpos]
    simp only
    rw [hj, show Int.log 2 x - 52 = -(j : ℤ) by omega, zpow_natCast, zpow_neg, zpow_natCast]
    have hjp : (0 : ℚ) < 2 ^ j := pow_pos (by norm_num) j
    have hr : roundHalfEven (x * 2 ^ j) ≤ ((n * 2 ^ j : ℕ) : ℤ) :=
      roundHalfEven_le (by
        push_cast
        exact mul_le_mul_of_nonneg_right h hjp.le)
    have hr2 : ((roundHalfEven (x * 2 ^ j) : ℤ) : ℚ) ≤ (n : ℚ) * 2 ^ j := by
      exact_mod_cast hr
    calc ((roundHalfEven (x * 2 ^ j) : ℤ) : ℚ) * (2 ^ j)⁻¹
        ≤ (n : ℚ) * 2 ^ j * (2 ^ j)⁻¹ :=
          mul_le_mul_of_nonneg_right hr2 (inv_nonneg.mpr hjp.le)
      _ = n := by field_simp

theorem roundHalfEven_neg (x : ℚ) : roundHalfEven (-x) = -roundHalfEven x := by
  by_cases hint : (⌊x⌋ : ℚ) = x
  · rw [← hint, ← Int.cast_neg, roundHalfEven_intCast, roundHalfEven_intCast]
  · have hlt : (⌊x⌋ : ℚ) < x := lt_of_le_of_ne (Int.floor_le x) hint
    have hlt2 := Int.lt_floor_add_one x
    have hf : ⌊-x⌋ = -⌊x⌋ - 1 := by
      rw [Int.floor_eq_iff]
      push_cast
      constructor <;> linarith
    unfold roundHalfEven
    rw [hf]
    push_cast
    by_cases h1 : x - (⌊x⌋ : ℚ) < 1 / 2
    · rw [if_pos h1, if_neg (by linarith), if_pos (by linarith)]
      ring
    · by_cases h2 : 1 / 2 < x - (⌊x⌋ : ℚ)
      · rw [if_neg h1, if_pos h2, if_pos (by linarith)]
        ring
      · rw [if_neg h1, if_neg h2, if_neg (by linarith), if_neg (by linarith)]
        split_ifs <;> omega

theorem double_neg (x : ℚ) : double (-x) = -double x := by
  unfold double
  by_cases hx : x = 0
  · simp [hx]
  · rw [if_neg hx, if_neg (neg_ne_zero.mpr hx)]
    simp only [abs_neg, neg_mul, roundHalfEven_neg, Int.cast_neg]

/-! ## References to UP servers -/

theorem mem_upRefs {servers : List Server} {r : Nat} :
    r ∈ upRefs servers ↔ ∃ s, servers[r]? = some s ∧ s.status = Status.UP := by
  unfold upRefs isUpAt
  simp only [List.mem_filter, List.mem_range]
  constructor
  · rintro ⟨hlt, h⟩
    rw [List.getElem?_eq_getElem hlt] at h
    exact ⟨servers[r], List.getElem?_eq_getElem hlt, by simpa using h⟩
  · rintro ⟨s, hs, hup⟩
    obtain ⟨hlt, _⟩ := List.getElem?_eq_some.mp hs
    refine ⟨hlt, ?_⟩
    rw [hs]
    simp [hup]

theorem upRefs_lt {servers : List Server} {r : Nat} (h : r ∈ upRefs servers) :
    r < servers.length := by
  obtain ⟨s, hs, _⟩ := mem_upRefs.mp h
  exact (List.getElem?_eq_some.mp hs).1

theorem upRefs_nodup (servers : List Server) : (upRefs servers).Nodup :=
  (List.nodup_range _).filter _

theorem upRefs_sorted (servers : List Server) : (upRefs servers).Pairwise (fun a b => a < b) :=
  List.Pairwise.filter _ (List.pairwise_lt_range _)

theorem upRefs_length_eq_zero {servers : List Server} :
    (upRefs servers).length = 0 ↔ ∀ s ∈ servers, s.status ≠ Status.UP := by
  rw [List.length_eq_zero, List.eq_nil_iff_forall_not_mem]
  constructor
  · intro h s hs hup
    obtain ⟨r, hr⟩ := List.mem_iff_getElem?.mp hs
    exact h r (mem_upRefs.mpr ⟨s, hr, hup⟩)
  · intro h r hr
    obtain ⟨s, hs, hup⟩ := mem_upRefs.mp hr
    exact h s (List.mem_iff_getElem?.mpr ⟨r, hs⟩) hup

/-- Writing a record with the same status leaves the list of UP references unchanged. -/
theorem upRefs_set {servers : List Server} {r : Nat} {s s1 : Server}
    (hs : servers[r]? = some s) (hst : s1.status = s.status) :
    upRefs (servers.set r s1) = upRefs servers := by
  unfold upRefs
  rw [List.length_set]
  apply List.filter_congr
  intro i _
  unfold isUpAt
  rw [List.getElem?_set]
  by_cases hri : r = i
  · subst hri
    have hlt := (List.getElem?_eq_some.mp hs).1
    simp [hlt, hs, hst]
  · simp [hri]

/-! ## The scan of `getLeastConnectionsServer` -/

theorem leastConnectionsLoop_eq (servers : List Server) (refs : List Nat) :
    leastConnectionsLoop servers refs = refs.foldl (lcStep servers) (none, none) := rfl

/-- The scan started from a finite minimum `m` held by `r0` ends either unchanged or at the first
reference whose count is the strict minimum. -/
theorem lcStep_foldl_some (servers : List Server) :
    ∀ (refs : List Nat), (∀ r ∈ refs, r < servers.length) → ∀ (m : Nat) (r0 : Nat),
      ∃ m1 r1, refs.foldl (lcStep servers) (some m, some r0) = (some m1, some r1) ∧
        (∀ r ∈ refs, m1 ≤ connAt servers r) ∧
        ((m1 = m ∧ r1 = r0) ∨
          (m1 < m ∧ connAt servers r1 = m1 ∧
            ∃ l1 l2, refs = l1 ++ r1 :: l2 ∧ ∀ x ∈ l1, m1 < connAt servers x)) := by
  intro refs
  induction refs with
  | nil => intro _ m r0; exact ⟨m, r0, rfl, by simp, Or.inl ⟨rfl, rfl⟩⟩
  | cons r rest ih =>
    intro hv m r0
    have hr : r < servers.length := hv r (List.mem_cons_self _ _)
    have hrest : ∀ x ∈ rest, x < servers.length := fun x hx => hv x (List.mem_cons_of_mem _ hx)
    have hget : servers[r]? = some servers[r] := List.getElem?_eq_getElem hr
    have hconn : connAt servers r = servers[r].connections := by simp [connAt, hget]
    by_cases hlt : servers[r].connections < m
    · have hstep : lcStep servers (some m, some r0) r = (some servers[r].connections, some r) := by
        simp [lcStep, hget, hlt]
      obtain ⟨m1, r1, hf, hall, hcase⟩ := ih hrest servers[r].connections r
      refine ⟨m1, r1, by rw [List.foldl_cons, hstep, hf], ?_, Or.inr ?_⟩
      · intro x hx
        rcases List.mem_cons.mp hx with rfl | hx
        · rcases hcase with ⟨h1, _⟩ | ⟨h1, _⟩ <;> omega
        · exact hall x hx
      · rcases hcase with ⟨h1, h2⟩ | ⟨h1, h2, l1, l2, h3, h4⟩
        · subst h2
          exact ⟨by omega, by omega, [], rest, rfl, by simp⟩
        · refine ⟨by omega, h2, r :: l1, l2, by rw [h3]; rfl, ?_⟩
          intro x hx
          rcases List.mem_cons.mp hx with rfl | hx
          · omega
          · exact h4 x hx
    · have hstep : lcStep servers (some m, some r0) r = (some m, some r0) := by
        simp [lcStep, hget, hlt]
      obtain ⟨m1, r1, hf, hall, hcase⟩ := ih hrest m r0
      refine ⟨m1, r1, by rw [List.foldl_cons, hstep, hf], ?_, ?_⟩
      · intro x hx
        rcases List.mem_cons.mp hx with rfl | hx
        · rcases hcase with ⟨h1, _⟩ | ⟨h1, _⟩ <;> omega
        · exact hall x hx
      · rcases hcase with ⟨h1, h2⟩ | ⟨h1, h2, l1, l2, h3, h4⟩
        · exact Or.inl ⟨h1, h2⟩
        · refine Or.inr ⟨h1, h2, r :: l1, l2, by rw [h3]; rfl, ?_⟩
          intro x hx
          rcases List.mem_cons.mp hx with rfl | hx
          · omega
          · exact h4 x hx

/-- The whole scan over a non-empty list of valid references ends at the first reference with
the minimal count. -/
theorem leastConnectionsLoop_spec (servers : List Server) (refs : List Nat)
    (hv : ∀ r ∈ refs, r < servers.length) (hne : refs ≠ []) :
    ∃ r1, leastConnectionsLoop servers refs = (some (connAt servers r1), some r1) ∧
      (∀ r ∈ refs, connAt servers r1 ≤ connAt servers r) ∧
      ∃ l1 l2, refs = l1 ++ r1 :: l2 ∧ ∀ x ∈ l1, connAt servers r1 < connAt servers x := by
  cases refs with
  | nil => exact absurd rfl hne
  | cons r rest =>
    have hr : r < servers.length := hv r (List.mem_cons_self _ _)
    have hrest : ∀ x ∈ rest, x < servers.length := fun x hx => hv x (List.mem_cons_of_mem _ hx)
    have hget : servers[r]? = some servers[r] := List.getElem?_eq_getElem hr
    have hconn : connAt servers r = servers[r].connections := by simp [connAt, hget]
    have hstep : lcStep servers (none, none) r = (some servers[r].connections, some r) := by
      simp [lcStep, hget]
    obtain ⟨m1, r1, hf, hall, hcase⟩ := lcStep_foldl_some servers rest hrest servers[r].connections r
    rw [leastConnectionsLoop_eq, List.foldl_cons, hstep, hf]
    rcases hcase with ⟨h1, h2⟩ | ⟨h1, h2, l1, l2, h3, h4⟩
    · subst h2
      refine ⟨r1, by rw [hconn, h1], ?_, [], rest, rfl, by simp⟩
      intro x hx
      rcases List.mem_cons.mp hx with rfl | hx
      · exact le_refl _
      · have := hall x hx
        omega
    · refine ⟨r1, by rw [h2], ?_, r :: l1, l2, by rw [h3]; rfl, ?_⟩
      · intro x hx
        rcases List.mem_cons.mp hx with rfl | hx
        · omega
        · have := hall x hx
          omega
      · intro x hx
        rcases List.mem_cons.mp hx with rfl | hx
        · omega
        · have := h4 x hx
          omega

theorem connAt_eq {servers : List Server} {r : Nat} {s : Server} (h : servers[r]? = some s) :
    connAt servers r = s.connections := by
  simp [connAt, h]

theorem upRefs_ne_nil {servers : List Server} (hup : ∃ s ∈ servers, s.status = Status.UP) :
    upRefs servers ≠ [] := by
  intro h
  obtain ⟨s, hs, hst⟩ := hup
  exact upRefs_length_eq_zero.mp (by rw [h]; rfl) s hs hst

theorem upRefs_length_ne_zero {servers : List Server}
    (hup : ∃ s ∈ servers, s.status = Status.UP) : ¬ (upRefs servers).length = 0 := by
  intro h
  exact upRefs_ne_nil hup (List.length_eq_zero.mp h)

/-- C4. With at least one UP server, `getLeastConnectionsServer` returns an UP server whose
connection count is at most that of every UP server, and among the UP servers with that minimal
count it is the first in registry order. -/
theorem getLeastConnectionsServer_min_first (p : Pool)
    (hup : ∃ s ∈ p.servers, s.status = Status.UP) :
    ∃ r s, getLeastConnectionsServer p = some r ∧ p.servers[r]? = some s ∧
      s.status = Status.UP ∧
      ∀ r1 s1, p.servers[r1]? = some s1 → s1.status = Status.UP →
        s.connections ≤ s1.connections ∧ (s1.connections = s.connections → r ≤ r1) := by
  obtain ⟨r, hloop, hmin, l1, l2, hsplit, hfirst⟩ :=
    leastConnectionsLoop_spec p.servers (upRefs p.servers) (fun r hr => upRefs_lt hr)
      (upRefs_ne_nil hup)
  have hrmem : r ∈ upRefs p.servers := by rw [hsplit]; simp
  obtain ⟨s, hs, hst⟩ := mem_upRefs.mp hrmem
  refine ⟨r, s, ?_, hs, hst, ?_⟩
  · unfold getLeastConnectionsServer
    simp only [upRefs_length_ne_zero hup, if_false, hloop]
  · intro r1 s1 hs1 hst1
    have hmem1 : r1 ∈ upRefs p.servers := mem_upRefs.mpr ⟨s1, hs1, hst1⟩
    have hle := hmin r1 hmem1
    rw [connAt_eq hs, connAt_eq hs1] at hle
    refine ⟨hle, fun heq => ?_⟩
    have hsorted := upRefs_sorted p.servers
    rw [hsplit] at hsorted hmem1
    rcases List.mem_append.mp hmem1 with h1 | h1
    · have := hfirst r1 h1
      rw [connAt_eq hs, connAt_eq hs1] at this
      exact absurd this (by rw [heq]; exact lt_irrefl _)
    · rcases List.mem_cons.mp h1 with h2 | h2
      · exact le_of_eq h2.symm
      · have h3 := (List.pairwise_append.mp hsorted).2.1
        exact le_of_lt ((List.pairwise_cons.mp h3).1 r1 h2)

/-- An instance of C4: with counts 2, 1, 1 on three UP servers the second server is chosen. -/
theorem getLeastConnectionsServer_min_first_witness :
    ∃ r s, getLeastConnectionsServer
        { initialPool with servers :=
            [{ newServer "a" 1 with status := Status.UP, connections := 2 },
             { newServer "b" 1 with status := Status.UP, connections := 1 },
             { newServer "c" 1 with status := Status.UP, connections := 1 }] } = some r ∧
      ({ initialPool with servers :=
            [{ newServer "a" 1 with status := Status.UP, connections := 2 },
             { newServer "b" 1 with status := Status.UP, connections := 1 },
             { newServer "c" 1 with status := Status.UP, connections := 1 }] } : Pool).servers[r]?
        = some s ∧
      s.status = Status.UP ∧
      ∀ r1 s1, ({ initialPool with servers :=
            [{ newServer "a" 1 with status := Status.UP, connections := 2 },
             { newServer "b" 1 with status := Status.UP, connections := 1 },
             { newServer "c" 1 with status := Status.UP, connections := 1 }] } : Pool).servers[r1]?
          = some s1 → s1.status = Status.UP →
        s.connections ≤ s1.connections ∧ (s1.connections = s.connections → r ≤ r1) :=
  getLeastConnectionsServer_min_first _
    ⟨{ newServer "a" 1 with status := Status.UP, connections := 2 }, by simp, rfl⟩

/-- C10. `setAlgorithm` with a name outside the fixed set returns `false` and leaves the whole
pool state unchanged; with a name of the fixed set it returns `true`, the active algorithm becomes
that name and nothing else changes. -/
theorem setAlgorithm_valid_iff (name : String) (p : Pool) :
    (name ∉ availableAlgorithms → setAlgorithm name p = (false, p)) ∧
    (name ∈ availableAlgorithms →
      setAlgorithm name p = (true, { p with algorithm := name }) ∧
      (setAlgorithm name p).2.algorithm = name) := by
  constructor
  · intro h
    simp [setAlgorithm, h]
  · intro h
    simp [setAlgorithm, h]

/-- An instance of C10: `"BOGUS"` is rejected and `"RANDOM"` is accepted. -/
theorem setAlgorithm_valid_iff_witness :
    setAlgorithm "BOGUS" initialPool = (false, initialPool) ∧
    (setAlgorithm "RANDOM" initialPool).2.algorithm = "RANDOM" :=
  ⟨(setAlgorithm_valid_iff "BOGUS" initialPool).1 (by decide),
   ((setAlgorithm_valid_iff "RANDOM" initialPool).2 (by decide)).2⟩

/-! ## Round robin -/

theorem getRoundRobinServer_eq (p : Pool) (hne : upRefs p.servers ≠ []) :
    getRoundRobinServer p =
      ((upRefs p.servers)[p.roundRobinIndex % (upRefs p.servers).length]?,
        { p with roundRobinIndex := p.roundRobinIndex + 1 }) := by
  unfold getRoundRobinServer
  have : ¬ (upRefs p.servers).length = 0 := fun h => hne (List.length_eq_zero.mp h)
  simp only [this, if_false]

theorem rrCalls_eq (m : Nat) : ∀ (p : Pool), upRefs p.servers ≠ [] →
    rrCalls m p =
      ((List.range m).map (fun i =>
          (upRefs p.servers)[(p.roundRobinIndex + i) % (upRefs p.servers).length]?),
        { p with roundRobinIndex := p.roundRobinIndex + m }) := by
  induction m with
  | zero => intro p _; rfl
  | succ m ih =>
    intro p hne
    have h1 := getRoundRobinServer_eq p hne
    have h2 := ih { p with roundRobinIndex := p.roundRobinIndex + 1 } hne
    simp only [rrCalls, h1, h2, List.range_succ_eq_map, List.map_cons, List.map_map]
    refine Prod.ext ?_ ?_
    · simp only [Nat.add_zero, List.cons.injEq, true_and]
      apply List.map_congr_left
      intro i _
      simp only [Function.comp, Nat.succ_eq_add_one]
      rw [show p.roundRobinIndex + 1 + i = p.roundRobinIndex + (i + 1) by omega]
    · simp only [Nat.add_assoc, Nat.add_comm 1 m]

theorem map_range_rotate (avail : List Nat) (k : Nat) :
    (List.range avail.length).map (fun i => avail[(k + i) % avail.length]?) =
      (avail.rotate (k % avail.length)).map some := by
  apply List.ext_getElem?
  intro i
  rw [List.getElem?_map, List.getElem?_map]
  by_cases hi : i < avail.length
  · rw [List.getElem?_range hi, List.getElem?_rotate hi]
    have hlt : (i + k % avail.length) % avail.length < avail.length :=
      Nat.mod_lt _ (by omega)
    have hmod : (k + i) % avail.length = (i + k % avail.length) % avail.length := by
      rw [Nat.add_comm k i, Nat.add_mod_mod]
    simp only [Option.map_some', hmod, List.getElem?_eq_getElem hlt]
  · have h1 : (List.range avail.length)[i]? = none :=
      List.getElem?_eq_none (by rw [List.length_range]; omega)
    have h2 : (avail.rotate (k % avail.length))[i]? = none :=
      List.getElem?_eq_none (by rw [List.length_rotate]; omega)
    rw [h1, h2]
    rfl

/-- C3. With at least one UP server and the cursor at 0, after any `k` calls of
`getRoundRobinServer` the next call returns the UP server at position `k mod N` of the registry
order and moves the cursor from `k` to `k + 1`, the registry being untouched; and the `N` calls
that follow any `k` calls return the UP servers in cyclic registry order, each exactly once. -/
theorem getRoundRobinServer_cycle (p : Pool) (hup : ∃ s ∈ p.servers, s.status = Status.UP)
    (h0 : p.roundRobinIndex = 0) (k : Nat) :
    (∃ r, (upRefs p.servers)[k % (upRefs p.servers).length]? = some r ∧
      (getRoundRobinServer (rrCalls k p).2).1 = some r) ∧
    (rrCalls k p).2.roundRobinIndex = k ∧
    (getRoundRobinServer (rrCalls k p).2).2.roundRobinIndex = k + 1 ∧
    (getRoundRobinServer (rrCalls k p).2).2.servers = p.servers ∧
    (rrCalls (upRefs p.servers).length (rrCalls k p).2).1 =
      ((upRefs p.servers).rotate (k % (upRefs p.servers).length)).map some ∧
    ((rrCalls (upRefs p.servers).length (rrCalls k p).2).1).Perm ((upRefs p.servers).map some) ∧
    ((rrCalls (upRefs p.servers).length (rrCalls k p).2).1).Nodup := by
  have hne := upRefs_ne_nil hup
  have hpos : 0 < (upRefs p.servers).length := List.length_pos.mpr hne
  have hk := rrCalls_eq k p hne
  have hne2 : upRefs (rrCalls k p).2.servers ≠ [] := by rw [hk]; exact hne
  have hnext := getRoundRobinServer_eq (rrCalls k p).2 hne2
  have hwin := rrCalls_eq (upRefs p.servers).length (rrCalls k p).2 hne2
  have hs : (rrCalls k p).2.servers = p.servers := by rw [hk]
  have hi : (rrCalls k p).2.roundRobinIndex = k := by rw [hk]; simp [h0]
  have htrace : (rrCalls (upRefs p.servers).length (rrCalls k p).2).1 =
      ((upRefs p.servers).rotate (k % (upRefs p.servers).length)).map some := by
    rw [hwin, hs, hi]
    exact map_range_rotate (upRefs p.servers) k
  refine ⟨?_, hi, ?_, ?_, htrace, ?_, ?_⟩
  · have hlt : k % (upRefs p.servers).length < (upRefs p.servers).length := Nat.mod_lt _ hpos
    refine ⟨(upRefs p.servers)[k % (upRefs p.servers).length], List.getElem?_eq_getElem hlt, ?_⟩
    rw [hnext, hs, hi]
    exact List.getElem?_eq_getElem hlt
  · rw [hnext, hi]
  · rw [hnext, hs]
  · rw [htrace]
    exact (List.rotate_perm _ _).map some
  · rw [htrace]
    exact ((List.nodup_rotate).mpr (upRefs_nodup p.servers)).map (Option.some_injective _)

/-! ## Weighted round robin: the loop seen on the columns of weights -/

theorem weightAt_eq {servers : List Server} {r : Nat} {s : Server} (h : servers[r]? = some s) :
    weightAt servers r = s.weight := by
  simp [weightAt, h]

theorem currentWeightAt_eq {servers : List Server} {r : Nat} {s : Server}
    (h : servers[r]? = some s) : currentWeightAt servers r = s.currentWeight := by
  simp [currentWeightAt, h]

theorem map_clearCurrentWeight_set {servers : List Server} {r : Nat} {s : Server}
    (hs : servers[r]? = some s) (x : Int) :
    (servers.set r { s with currentWeight := x }).map clearCurrentWeight =
      servers.map clearCurrentWeight := by
  apply List.ext_getElem?
  intro i
  rw [List.getElem?_map, List.getElem?_map, List.getElem?_set]
  by_cases hri : r = i
  · subst hri
    have hlt := (List.getElem?_eq_some.mp hs).1
    simp [hlt, hs, clearCurrentWeight]
  · simp [hri]

/-- What two registries that differ only in current weights share at every position. -/
theorem frame_getElem? {l1 l2 : List Server}
    (h : l1.map clearCurrentWeight = l2.map clearCurrentWeight) (i : Nat) :
    (l1[i]?).map clearCurrentWeight = (l2[i]?).map clearCurrentWeight := by
  rw [← List.getElem?_map, ← List.getElem?_map, h]

theorem frame_length {l1 l2 : List Server}
    (h : l1.map clearCurrentWeight = l2.map clearCurrentWeight) : l1.length = l2.length := by
  have := congrArg List.length h
  simpa using this

theorem frame_some {l1 l2 : List Server}
    (h : l1.map clearCurrentWeight = l2.map clearCurrentWeight) {i : Nat} {s1 : Server}
    (h1 : l1[i]? = some s1) :
    ∃ s2, l2[i]? = some s2 ∧ clearCurrentWeight s1 = clearCurrentWeight s2 := by
  have := frame_getElem? h i
  rw [h1] at this
  cases h2 : l2[i]? with
  | none => rw [h2] at this; simp at this
  | some s2 =>
    rw [h2] at this
    exact ⟨s2, rfl, by simpa using this⟩

theorem clearCurrentWeight_fields {s1 s2 : Server}
    (h : clearCurrentWeight s1 = clearCurrentWeight s2) :
    s1.url = s2.url ∧ s1.status = s2.status ∧ s1.connections = s2.connections ∧
      s1.weight = s2.weight := by
  have h1 := congrArg Server.url h
  have h2 := congrArg Server.status h
  have h3 := congrArg Server.connections h
  have h4 := congrArg Server.weight h
  exact ⟨h1, h2, h3, h4⟩

theorem frame_isUpAt {l1 l2 : List Server}
    (h : l1.map clearCurrentWeight = l2.map clearCurrentWeight) (i : Nat) :
    isUpAt l1 i = isUpAt l2 i := by
  unfold isUpAt
  cases h1 : l1[i]? with
  | none =>
    have : l2[i]? = none := by
      have hlen := frame_length h
      rw [List.getElem?_eq_none_iff] at h1 ⊢
      omega
    rw [this]
  | some s1 =>
    obtain ⟨s2, h2, heq⟩ := frame_some h h1
    simp only [h2, (clearCurrentWeight_fields heq).2.1]

theorem frame_upRefs {l1 l2 : List Server}
    (h : l1.map clearCurrentWeight = l2.map clearCurrentWeight) : upRefs l1 = upRefs l2 := by
  unfold upRefs
  rw [frame_length h]
  exact List.filter_congr (fun i _ => frame_isUpAt h i)

theorem frame_weightAt {l1 l2 : List Server}
    (h : l1.map clearCurrentWeight = l2.map clearCurrentWeight) (i : Nat) :
    weightAt l1 i = weightAt l2 i := by
  unfold weightAt
  cases h1 : l1[i]? with
  | none =>
    have : l2[i]? = none := by
      have hlen := frame_length h
      rw [List.getElem?_eq_none_iff] at h1 ⊢
      omega
    rw [this]
  | some s1 =>
    obtain ⟨s2, h2, heq⟩ := frame_some h h1
    rw [h2]
    exact (clearCurrentWeight_fields heq).2.2.2

theorem nodup_getElem?_inj {l : List Nat} (hnd : l.Nodup) {i j a : Nat}
    (hi : l[i]? = some a) (hj : l[j]? = some a) : i = j := by
  obtain ⟨hil, hia⟩ := List.getElem?_eq_some.mp hi
  obtain ⟨hjl, hja⟩ := List.getElem?_eq_some.mp hj
  exact (hnd.getElem_inj_iff).mp (hia.trans hja.symm)

theorem map_weightAt_set (avail : List Nat) {servers : List Server} {r : Nat} {s : Server}
    (hs : servers[r]? = some s) (x : Int) :
    avail.map (weightAt (servers.set r { s with currentWeight := x })) =
      avail.map (weightAt servers) :=
  List.map_congr_left (fun i _ => frame_weightAt (map_clearCurrentWeight_set hs x) i)

theorem map_currentWeightAt_set {avail : List Nat} (hnd : avail.Nodup) {servers : List Server}
    {j r : Nat} {s : Server} (hj : avail[j]? = some r) (hs : servers[r]? = some s) (x : Int) :
    avail.map (currentWeightAt (servers.set r { s with currentWeight := x })) =
      (avail.map (currentWeightAt servers)).set j x := by
  have hrlt := (List.getElem?_eq_some.mp hs).1
  have hjlt := (List.getElem?_eq_some.mp hj).1
  apply List.ext_getElem?
  intro i
  rw [List.getElem?_map, List.getElem?_set]
  by_cases hji : j = i
  · subst hji
    have h1 : (servers.set r { s with currentWeight := x })[r]? =
        some { s with currentWeight := x } := by
      rw [List.getElem?_set]; simp [hrlt]
    simp [hj, hjlt, currentWeightAt_eq h1]
  · rw [if_neg hji, List.getElem?_map]
    cases hi : avail[i]? with
    | none => rfl
    | some r2 =>
      have hne : r ≠ r2 := by
        intro h
        subst h
        exact hji (nodup_getElem?_inj hnd hj hi)
      simp only [Option.map_some', currentWeightAt, List.getElem?_set_ne hne]

/-- The loop on the registry and the loop on the columns run in lock step. -/
theorem wrrLoop_sim (avail : List Nat) (T M : Int) (hnd : avail.Nodup) :
    ∀ (fuel index : Nat) (servers : List Server), (∀ r ∈ avail, r < servers.length) →
      (wrrLoop avail T M fuel index servers).map
          (fun x => (x.2.1, avail.map (currentWeightAt x.2.2))) =
        cwLoop (avail.map (weightAt servers)) T M fuel index
          (avail.map (currentWeightAt servers)) := by
  intro fuel
  induction fuel with
  | zero => intro index servers _; rfl
  | succ fuel ih =>
    intro index servers hv
    unfold wrrLoop cwLoop
    simp only [List.length_map, List.getElem?_map]
    cases hj : avail[(index + 1) % avail.length]? with
    | none => rfl
    | some r =>
      have hr : r < servers.length := hv r (List.mem_iff_getElem?.mpr ⟨_, hj⟩)
      have hs : servers[r]? = some servers[r] := List.getElem?_eq_getElem hr
      simp only [Option.map_some', hs, weightAt_eq hs, currentWeightAt_eq hs]
      by_cases hge : servers[r].currentWeight + servers[r].weight ≥ M
      · simp only [hge, if_true, Option.map_some']
        rw [map_currentWeightAt_set hnd hj hs]
      · simp only [hge, if_false]
        have hv2 : ∀ r2 ∈ avail, r2 < (servers.set r
            { servers[r] with
              currentWeight := servers[r].currentWeight + servers[r].weight }).length := by
          intro r2 h2
          rw [List.length_set]
          exact hv r2 h2
        have := ih ((index + 1) % avail.length) _ hv2
        rw [map_weightAt_set avail hs, map_currentWeightAt_set hnd hj hs] at this
        exact this

/-- What a returning run of the loop on the registry leaves behind. -/
theorem wrrLoop_frame (avail : List Nat) (T M : Int) :
    ∀ (fuel index : Nat) (servers : List Server) (r i1 : Nat) (servers1 : List Server),
      wrrLoop avail T M fuel index servers = some (r, i1, servers1) →
        avail[i1]? = some r ∧
          servers1.map clearCurrentWeight = servers.map clearCurrentWeight := by
  intro fuel
  induction fuel with
  | zero => intro index servers r i1 servers1 h; simp [wrrLoop] at h
  | succ fuel ih =>
    intro index servers r i1 servers1 h
    unfold wrrLoop at h
    simp only at h
    cases hj : avail[(index + 1) % avail.length]? with
    | none => rw [hj] at h; simp at h
    | some r0 =>
      rw [hj] at h
      simp only at h
      cases hs : servers[r0]? with
      | none => rw [hs] at h; simp at h
      | some s =>
        rw [hs] at h
        simp only at h
        by_cases hge : s.currentWeight + s.weight ≥ M
        · simp only [hge, if_true, Option.some.injEq, Prod.mk.injEq] at h
          obtain ⟨h1, h2, h3⟩ := h
          subst h1 h2 h3
          exact ⟨hj, map_clearCurrentWeight_set hs _⟩
        · simp only [hge, if_false] at h
          obtain ⟨h1, h2⟩ := ih _ _ _ _ _ h
          exact ⟨h1, h2.trans (map_clearCurrentWeight_set hs _)⟩

theorem weightTotals_foldl (servers : List Server) :
    ∀ (avail : List Nat), (∀ r ∈ avail, r < servers.length) → ∀ (a b : Int),
      avail.foldl (fun acc r =>
        match servers[r]? with
        | some server =>
          (acc.1 + server.weight, if server.weight > acc.2 then server.weight else acc.2)
        | none => acc) (a, b) =
      (a + (avail.map (weightAt servers)).sum,
        (avail.map (weightAt servers)).foldl (fun m w => if w > m then w else m) b) := by
  intro avail
  induction avail with
  | nil => intro _ a b; simp
  | cons r rest ih =>
    intro hv a b
    have hr : r < servers.length := hv r (List.mem_cons_self _ _)
    have hs : servers[r]? = some servers[r] := List.getElem?_eq_getElem hr
    rw [List.foldl_cons, List.map_cons, List.sum_cons, List.foldl_cons]
    simp only [hs, weightAt_eq hs]
    rw [ih (fun x hx => hv x (List.mem_cons_of_mem _ hx))]
    rw [add_assoc]

theorem weightTotals_eq (servers : List Server) (avail : List Nat)
    (hv : ∀ r ∈ avail, r < servers.length) :
    weightTotals servers avail =
      ((avail.map (weightAt servers)).sum, maxWeightOf (avail.map (weightAt servers))) := by
  have h := weightTotals_foldl servers avail hv 0 0
  rw [zero_add] at h
  exact h

theorem sum_map_set_nat (f : Int → Nat) :
    ∀ (l : List Int) (i : Nat) (c x : Int), l[i]? = some c →
      ((l.set i x).map f).sum + f c = (l.map f).sum + f x := by
  intro l
  induction l with
  | nil => intro i c x h; simp at h
  | cons a l ih =>
    intro i c x h
    cases i with
    | zero =>
      simp only [List.getElem?_cons_zero, Option.some.injEq] at h
      subst h
      simp only [List.set_cons_zero, List.map_cons, List.sum_cons]
      omega
    | succ i =>
      simp only [List.getElem?_cons_succ] at h
      have := ih i c x h
      simp only [List.set_cons_succ, List.map_cons, List.sum_cons]
      omega

/-- Termination of the loop: with positive weights it returns within `wrrPotential + 1`
iterations, whatever the current weights and the cursor are. -/
theorem cwLoop_terminates (ws : List Int) (T M : Int) (hpos : ∀ w ∈ ws, 0 < w)
    (hne : ws ≠ []) :
    ∀ (fuel index : Nat) (cws : List Int), cws.length = ws.length →
      wrrPotential M cws < fuel → ∃ res, cwLoop ws T M fuel index cws = some res := by
  have hlen : 0 < ws.length := List.length_pos.mpr hne
  intro fuel
  induction fuel with
  | zero => intro index cws _ h; omega
  | succ fuel ih =>
    intro index cws hl hpot
    have hi : (index + 1) % ws.length < ws.length := Nat.mod_lt _ hlen
    have hw : ws[(index + 1) % ws.length]? = some ws[(index + 1) % ws.length] :=
      List.getElem?_eq_getElem hi
    have hic : (index + 1) % ws.length < cws.length := by omega
    have hc : cws[(index + 1) % ws.length]? = some cws[(index + 1) % ws.length] :=
      List.getElem?_eq_getElem hic
    have hwpos : 0 < ws[(index + 1) % ws.length] := hpos _ (List.getElem_mem _)
    unfold cwLoop
    simp only [hw, hc]
    split
    · exact ⟨_, rfl⟩
    · rename_i hlt
      apply ih
      · rw [List.length_set]; exact hl
      · have := sum_map_set_nat (fun c => (M - c).toNat) cws _ _
          (cws[(index + 1) % ws.length] + ws[(index + 1) % ws.length]) hc
        beta_reduce at this
        unfold wrrPotential at hpot ⊢
        omega

theorem cwLoop_fuel_mono (ws : List Int) (T M : Int) :
    ∀ (fuel index : Nat) (cws : List Int) (res : Nat × List Int),
      cwLoop ws T M fuel index cws = some res →
        ∀ extra, cwLoop ws T M (fuel + extra) index cws = some res := by
  intro fuel
  induction fuel with
  | zero => intro index cws res h; simp [cwLoop] at h
  | succ fuel ih =>
    intro index cws res h extra
    rw [show fuel + 1 + extra = (fuel + extra) + 1 by omega]
    unfold cwLoop at h ⊢
    simp only at h ⊢
    split
    · rename_i w c hw hc
      rw [hw, hc] at h
      simp only at h
      split
      · rename_i hge
        rw [if_pos hge] at h
        exact h
      · rename_i hge
        rw [if_neg hge] at h
        exact ih _ _ _ h extra
    · rename_i hnone
      split at h
      · rename_i w c hw hc
        exact absurd hc (by intro hc2; exact hnone w c hw hc2)
      · exact absurd h (by simp)

theorem weightsOf_pos {p : Pool} (hpos : ∀ s ∈ p.servers, s.status = Status.UP → 0 < s.weight) :
    ∀ w ∈ weightsOf p, 0 < w := by
  intro w hw
  obtain ⟨r, hr, rfl⟩ := List.mem_map.mp hw
  obtain ⟨s, hs, hst⟩ := mem_upRefs.mp hr
  rw [weightAt_eq hs]
  exact hpos s (List.mem_iff_getElem?.mpr ⟨r, hs⟩) hst

/-- A returning call on the columns is a returning call on the pool, with the same cursor and
the same new column; the registry changes in current weights only. -/
theorem getWeightedRoundRobinServer_of_cwCall (fuel : Nat) (p : Pool)
    (hne : upRefs p.servers ≠ []) (i1 : Nat) (cws1 : List Int)
    (h : cwCall (weightsOf p) fuel p.weightedRoundRobinIndex (currentWeightsOf p)
      = some (i1, cws1)) :
    ∃ r p1, getWeightedRoundRobinServer fuel p = some (some r, p1) ∧
      (upRefs p.servers)[i1]? = some r ∧
      p1.weightedRoundRobinIndex = i1 ∧
      p1 = { p with servers := p1.servers, weightedRoundRobinIndex := i1 } ∧
      p1.servers.map clearCurrentWeight = p.servers.map clearCurrentWeight ∧
      upRefs p1.servers = upRefs p.servers ∧
      weightsOf p1 = weightsOf p ∧
      currentWeightsOf p1 = cws1 := by
  have hsim := wrrLoop_sim (upRefs p.servers) (weightsOf p).sum (maxWeightOf (weightsOf p))
    (upRefs_nodup p.servers) fuel p.weightedRoundRobinIndex p.servers (fun r hr => upRefs_lt hr)
  unfold cwCall at h
  rw [show (upRefs p.servers).map (weightAt p.servers) = weightsOf p from rfl,
    show (upRefs p.servers).map (currentWeightAt p.servers) = currentWeightsOf p from rfl,
    h] at hsim
  cases hloop : wrrLoop (upRefs p.servers) (weightsOf p).sum (maxWeightOf (weightsOf p)) fuel
      p.weightedRoundRobinIndex p.servers with
  | none => rw [hloop] at hsim; simp at hsim
  | some res =>
    obtain ⟨r, i2, servers1⟩ := res
    rw [hloop] at hsim
    simp only [Option.map_some', Option.some.injEq, Prod.mk.injEq] at hsim
    obtain ⟨hi, hcw⟩ := hsim
    subst hi
    obtain ⟨hr, hframe⟩ := wrrLoop_frame _ _ _ _ _ _ _ _ _ hloop
    have hlen : ¬ (upRefs p.servers).length = 0 := fun h0 => hne (List.length_eq_zero.mp h0)
    have hup := frame_upRefs hframe
    refine ⟨r, { p with servers := servers1, weightedRoundRobinIndex := i2 }, ?_, hr, rfl, rfl,
      hframe, hup, ?_, ?_⟩
    · unfold getWeightedRoundRobinServer
      simp only [hlen, if_false]
      rw [weightTotals_eq p.servers (upRefs p.servers) (fun r hr => upRefs_lt hr)]
      simp only []
      rw [show (upRefs p.servers).map (weightAt p.servers) = weightsOf p from rfl, hloop]
    · unfold weightsOf
      simp only [hup]
      exact List.map_congr_left (fun i _ => frame_weightAt hframe i)
    · unfold currentWeightsOf
      simp only [hup]
      exact hcw

/-- With a UP server and positive weights on the UP servers, a call with enough fuel
returns an UP server and changes current weights and the cursor only. -/
theorem getWeightedRoundRobinServer_returns (p : Pool)
    (hup : ∃ s ∈ p.servers, s.status = Status.UP)
    (hpos : ∀ s ∈ p.servers, s.status = Status.UP → 0 < s.weight) (fuel : Nat)
    (hfuel : wrrPotential (maxWeightOf (weightsOf p)) (currentWeightsOf p) < fuel) :
    ∃ r p1, getWeightedRoundRobinServer fuel p = some (some r, p1) ∧
      r ∈ upRefs p.servers ∧
      p1.servers.map clearCurrentWeight = p.servers.map clearCurrentWeight ∧
      upRefs p1.servers = upRefs p.servers := by
  have hne := upRefs_ne_nil hup
  have hwne : weightsOf p ≠ [] := by
    unfold weightsOf
    simpa using hne
  obtain ⟨⟨i1, cws1⟩, hres⟩ := cwLoop_terminates (weightsOf p) (weightsOf p).sum
    (maxWeightOf (weightsOf p)) (weightsOf_pos hpos) hwne fuel p.weightedRoundRobinIndex
    (currentWeightsOf p) (by simp [weightsOf, currentWeightsOf]) hfuel
  obtain ⟨r, p1, h1, h2, _, _, h5, h6, _, _⟩ :=
    getWeightedRoundRobinServer_of_cwCall fuel p hne i1 cws1 hres
  exact ⟨r, p1, h1, List.mem_iff_getElem?.mpr ⟨i1, h2⟩, h5, h6⟩

/-! ## Every algorithm selects among the UP servers -/

theorem getLeastConnectionsServer_mem (p : Pool) (hne : upRefs p.servers ≠ []) :
    ∃ r, getLeastConnectionsServer p = some r ∧ r ∈ upRefs p.servers := by
  obtain ⟨r, hloop, _, l1, l2, hsplit, _⟩ :=
    leastConnectionsLoop_spec p.servers (upRefs p.servers) (fun r hr => upRefs_lt hr) hne
  refine ⟨r, ?_, by rw [hsplit]; simp⟩
  unfold getLeastConnectionsServer
  have : ¬ (upRefs p.servers).length = 0 := fun h => hne (List.length_eq_zero.mp h)
  simp only [this, if_false, hloop]

theorem leastResponseTimeLoop_eq (servers : List Server) (refs : List Nat) :
    leastResponseTimeLoop servers refs = refs.foldl (lrtStep servers) (none, none) := rfl

theorem lrtStep_foldl_some (servers : List Server) :
    ∀ (refs : List Nat), (∀ r ∈ refs, r < servers.length) → ∀ (m : ℚ) (r0 : Nat),
      ∃ m1 r1, refs.foldl (lrtStep servers) (some m, some r0) = (some m1, some r1) ∧
        (r1 = r0 ∨ r1 ∈ refs) := by
  intro refs
  induction refs with
  | nil => intro _ m r0; exact ⟨m, r0, rfl, Or.inl rfl⟩
  | cons r rest ih =>
    intro hv m r0
    have hr : r < servers.length := hv r (List.mem_cons_self _ _)
    have hrest : ∀ x ∈ rest, x < servers.length := fun x hx => hv x (List.mem_cons_of_mem _ hx)
    have hget : servers[r]? = some servers[r] := List.getElem?_eq_getElem hr
    rw [List.foldl_cons]
    by_cases hlt :
        double (double servers[r].avgResponseTime * ((servers[r].connections : ℚ) + 1)) < m
    · have : lrtStep servers (some m, some r0) r =
          (some (double (double servers[r].avgResponseTime *
            ((servers[r].connections : ℚ) + 1))), some r) := by
        simp [lrtStep, hget, hlt]
      rw [this]
      obtain ⟨m1, r1, hf, hcase⟩ := ih hrest _ r
      refine ⟨m1, r1, hf, Or.inr ?_⟩
      rcases hcase with h | h
      · rw [h]; exact List.mem_cons_self _ _
      · exact List.mem_cons_of_mem _ h
    · have : lrtStep servers (some m, some r0) r = (some m, some r0) := by
        simp [lrtStep, hget, hlt]
      rw [this]
      obtain ⟨m1, r1, hf, hcase⟩ := ih hrest m r0
      refine ⟨m1, r1, hf, ?_⟩
      rcases hcase with h | h
      · exact Or.inl h
      · exact Or.inr (List.mem_cons_of_mem _ h)

theorem leastResponseTimeLoop_mem (servers : List Server) (refs : List Nat)
    (hv : ∀ r ∈ refs, r < servers.length) (hne : refs ≠ []) :
    ∃ m1 r1, leastResponseTimeLoop servers refs = (some m1, some r1) ∧ r1 ∈ refs := by
  cases refs with
  | nil => exact absurd rfl hne
  | cons r rest =>
    have hr : r < servers.length := hv r (List.mem_cons_self _ _)
    have hrest : ∀ x ∈ rest, x < servers.length := fun x hx => hv x (List.mem_cons_of_mem _ hx)
    have hget : servers[r]? = some servers[r] := List.getElem?_eq_getElem hr
    have hstep : lrtStep servers (none, none) r =
        (some (double (double servers[r].avgResponseTime *
          ((servers[r].connections : ℚ) + 1))), some r) := by
      simp [lrtStep, hget]
    obtain ⟨m1, r1, hf, hcase⟩ := lrtStep_foldl_some servers rest hrest
      (double (double servers[r].avgResponseTime * ((servers[r].connections : ℚ) + 1))) r
    rw [leastResponseTimeLoop_eq, List.foldl_cons, hstep, hf]
    refine ⟨m1, r1, rfl, ?_⟩
    rcases hcase with h | h
    · rw [h]; exact List.mem_cons_self _ _
    · exact List.mem_cons_of_mem _ h

theorem getLeastResponseTimeServer_mem (p : Pool) (hne : upRefs p.servers ≠ []) :
    ∃ r, getLeastResponseTimeServer p = some r ∧ r ∈ upRefs p.servers := by
  obtain ⟨m1, r1, hloop, hmem⟩ :=
    leastResponseTimeLoop_mem p.servers (upRefs p.servers) (fun r hr => upRefs_lt hr) hne
  have hlen : ¬ (upRefs p.servers).length = 0 := fun h => hne (List.length_eq_zero.mp h)
  unfold getLeastResponseTimeServer
  simp only [hlen, if_false, hloop]
  split
  · exact getLeastConnectionsServer_mem p hne
  · exact ⟨r1, rfl, hmem⟩

theorem getRandomServer_mem (p : Pool) (hne : upRefs p.servers ≠ []) (rand : ℚ)
    (h0 : 0 ≤ rand) (h1 : rand < 1) :
    ∃ r, getRandomServer rand p = some r ∧ r ∈ upRefs p.servers := by
  have hlen : ¬ (upRefs p.servers).length = 0 := fun h => hne (List.length_eq_zero.mp h)
  have hpos : (0 : ℚ) < ((upRefs p.servers).length : ℚ) := by
    have : 0 < (upRefs p.servers).length := Nat.pos_of_ne_zero hlen
    exact_mod_cast this
  have hfl0 : 0 ≤ ⌊rand * ((upRefs p.servers).length : ℚ)⌋ :=
    Int.floor_nonneg.mpr (mul_nonneg h0 (le_of_lt hpos))
  have hfl1 : ⌊rand * ((upRefs p.servers).length : ℚ)⌋ < ((upRefs p.servers).length : ℤ) := by
    rw [Int.floor_lt]
    have : rand * ((upRefs p.servers).length : ℚ) < 1 * ((upRefs p.servers).length : ℚ) :=
      mul_lt_mul_of_pos_right h1 hpos
    simpa using this
  have hidx : ⌊rand * ((upRefs p.servers).length : ℚ)⌋.toNat < (upRefs p.servers).length := by
    omega
  refine ⟨(upRefs p.servers)[⌊rand * ((upRefs p.servers).length : ℚ)⌋.toNat], ?_,
    List.getElem_mem _⟩
  unfold getRandomServer
  simp only [hlen, if_false, not_lt.mpr hfl0]
  exact List.getElem?_eq_getElem hidx

theorem getRandomServer_some_mem (p : Pool) (rand : ℚ) (r : Nat)
    (h : getRandomServer rand p = some r) : r ∈ upRefs p.servers := by
  unfold getRandomServer at h
  simp only at h
  split at h
  · simp at h
  · split at h
    · simp at h
    · exact List.mem_iff_getElem?.mpr ⟨_, h⟩

theorem getNextServer_empty (fuel : Nat) (rand : ℚ) (p : Pool)
    (h : (upRefs p.servers).length = 0) : getNextServer fuel rand p = some (none, p) := by
  unfold getNextServer getRoundRobinServer getWeightedRoundRobinServer getLeastConnectionsServer
    getRandomServer getLeastResponseTimeServer
  simp only [h, if_true]
  split_ifs <;> rfl

/-- C1. For a pool whose weights are all positive, under each of the five algorithm names (and
under any other value of `algorithm` as well) and for every draw in `[0, 1)`, `getNextServer`
returns, given enough fuel for the loop of the weighted round robin, and its result is `null`
exactly when no registered server is UP. -/
theorem getNextServer_null_iff (p : Pool) (hpos : ∀ s ∈ p.servers, 0 < s.weight)
    (rand : ℚ) (h0 : 0 ≤ rand) (h1 : rand < 1) :
    ∃ fuel0, ∀ fuel, fuel0 ≤ fuel →
      ∃ res p1, getNextServer fuel rand p = some (res, p1) ∧
        (res = none ↔ ∀ s ∈ p.servers, s.status ≠ Status.UP) := by
  refine ⟨wrrPotential (maxWeightOf (weightsOf p)) (currentWeightsOf p) + 1, ?_⟩
  intro fuel hfuel
  by_cases hlen : (upRefs p.servers).length = 0
  · exact ⟨none, p, getNextServer_empty fuel rand p hlen,
      ⟨fun _ => upRefs_length_eq_zero.mp hlen, fun _ => rfl⟩⟩
  · have hne : upRefs p.servers ≠ [] := fun h => hlen (by rw [h]; rfl)
    have hnot : ¬ ∀ s ∈ p.servers, s.status ≠ Status.UP :=
      fun h => hlen (upRefs_length_eq_zero.mpr h)
    have hup : ∃ s ∈ p.servers, s.status = Status.UP := by
      by_contra hcon
      exact hnot (fun s hs hst => hcon ⟨s, hs, hst⟩)
    have key : ∃ r p1, getNextServer fuel rand p = some (some r, p1) := by
      unfold getNextServer
      split_ifs
      · rw [getRoundRobinServer_eq p hne]
        have hlt : p.roundRobinIndex % (upRefs p.servers).length < (upRefs p.servers).length :=
          Nat.mod_lt _ (Nat.pos_of_ne_zero hlen)
        rw [List.getElem?_eq_getElem hlt]
        exact ⟨_, _, rfl⟩
      · obtain ⟨r, p1, h, _⟩ := getWeightedRoundRobinServer_returns p hup
          (fun s hs _ => hpos s hs) fuel (by omega)
        exact ⟨r, p1, h⟩
      · obtain ⟨r, h, _⟩ := getLeastConnectionsServer_mem p hne
        exact ⟨r, p, by rw [h]⟩
      · obtain ⟨r, h, _⟩ := getRandomServer_mem p hne rand h0 h1
        exact ⟨r, p, by rw [h]⟩
      · obtain ⟨r, h, _⟩ := getLeastResponseTimeServer_mem p hne
        exact ⟨r, p, by rw [h]⟩
      · obtain ⟨r, h, _⟩ := getLeastConnectionsServer_mem p hne
        exact ⟨r, p, by rw [h]⟩
    obtain ⟨r, p1, h⟩ := key
    exact ⟨some r, p1, h, ⟨fun hn => by simp at hn, fun hall => absurd hall hnot⟩⟩

/-- A returned reference is one of the references to UP servers, and the call keeps these. -/
theorem getNextServer_some_mem_upRefs (fuel : Nat) (rand : ℚ) (p p1 : Pool) (r : Nat)
    (h : getNextServer fuel rand p = some (some r, p1)) :
    r ∈ upRefs p.servers ∧ upRefs p1.servers = upRefs p.servers := by
  unfold getNextServer at h
  split_ifs at h
  · unfold getRoundRobinServer at h
    simp only at h
    split_ifs at h
    · simp at h
    · simp only [Option.some.injEq, Prod.mk.injEq] at h
      obtain ⟨h1, h2⟩ := h
      subst h2
      exact ⟨List.mem_iff_getElem?.mpr ⟨_, h1⟩, rfl⟩
  · unfold getWeightedRoundRobinServer at h
    simp only at h
    split_ifs at h
    · simp at h
    · split at h
      · simp at h
      · rename_i r0 i0 servers0 hloop
        simp only [Option.some.injEq, Prod.mk.injEq] at h
        obtain ⟨h1, h2⟩ := h
        subst h1 h2
        obtain ⟨hr, hframe⟩ := wrrLoop_frame _ _ _ _ _ _ _ _ _ hloop
        exact ⟨List.mem_iff_getElem?.mpr ⟨_, hr⟩, frame_upRefs hframe⟩
  · simp only [Option.some.injEq, Prod.mk.injEq] at h
    obtain ⟨h1, h2⟩ := h
    subst h2
    have hne : upRefs p.servers ≠ [] := by
      intro hnil
      simp [getLeastConnectionsServer, hnil] at h1
    obtain ⟨r1, h3, h4⟩ := getLeastConnectionsServer_mem p hne
    rw [h3] at h1
    exact ⟨by rw [← Option.some.inj h1]; exact h4, rfl⟩
  · simp only [Option.some.injEq, Prod.mk.injEq] at h
    obtain ⟨h1, h2⟩ := h
    subst h2
    exact ⟨getRandomServer_some_mem p rand r h1, rfl⟩
  · simp only [Option.some.injEq, Prod.mk.injEq] at h
    obtain ⟨h1, h2⟩ := h
    subst h2
    have hne : upRefs p.servers ≠ [] := by
      intro hnil
      simp [getLeastResponseTimeServer, hnil] at h1
    obtain ⟨r1, h3, h4⟩ := getLeastResponseTimeServer_mem p hne
    rw [h3] at h1
    exact ⟨by rw [← Option.some.inj h1]; exact h4, rfl⟩
  · simp only [Option.some.injEq, Prod.mk.injEq] at h
    obtain ⟨h1, h2⟩ := h
    subst h2
    have hne : upRefs p.servers ≠ [] := by
      intro hnil
      simp [getLeastConnectionsServer, hnil] at h1
    obtain ⟨r1, h3, h4⟩ := getLeastConnectionsServer_mem p hne
    rw [h3] at h1
    exact ⟨by rw [← Option.some.inj h1]; exact h4, rfl⟩

/-- C2. Whenever `getNextServer` returns a server, under any algorithm and in any pool state,
the returned reference denotes a registered server whose status is UP, both in the state before
the call and in the state the call leaves. -/
theorem getNextServer_returns_up (fuel : Nat) (rand : ℚ) (p p1 : Pool) (r : Nat)
    (h : getNextServer fuel rand p = some (some r, p1)) :
    (∃ s, p.servers[r]? = some s ∧ s.status = Status.UP) ∧
    (∃ s1, p1.servers[r]? = some s1 ∧ s1.status = Status.UP) := by
  have key := getNextServer_some_mem_upRefs fuel rand p p1 r h
  exact ⟨mem_upRefs.mp key.1, mem_upRefs.mp (key.2 ▸ key.1)⟩

/-! ## Weighted round robin: the counting invariant -/

theorem sum_set_int : ∀ (l : List Int) (i : Nat) (c x : Int), l[i]? = some c →
    (l.set i x).sum = l.sum - c + x := by
  intro l
  induction l with
  | nil => intro i c x h; simp at h
  | cons a l ih =>
    intro i c x h
    cases i with
    | zero =>
      simp only [List.getElem?_cons_zero, Option.some.injEq] at h
      subst h
      simp only [List.set_cons_zero, List.sum_cons]
      omega
    | succ i =>
      simp only [List.getElem?_cons_succ] at h
      have := ih i c x h
      simp only [List.set_cons_succ, List.sum_cons]
      omega

theorem sum_take_succ_int : ∀ (l : List Int) (i : Nat) (w : Int), l[i]? = some w →
    (l.take (i + 1)).sum = (l.take i).sum + w := by
  intro l
  induction l with
  | nil => intro i w h; simp at h
  | cons a l ih =>
    intro i w h
    cases i with
    | zero =>
      simp only [List.getElem?_cons_zero, Option.some.injEq] at h
      subst h
      simp
    | succ i =>
      simp only [List.getElem?_cons_succ] at h
      have := ih i w h
      simp only [List.take_succ_cons, List.sum_cons]
      omega

theorem roundSum_zero (ws : List Int) : roundSum ws 0 = 0 := by
  simp [roundSum]

theorem roundSum_succ (ws : List Int) (index : Nat) (w : Int) (h : ws[index + 1]? = some w) :
    roundSum ws (index + 1) = roundSum ws index + w := by
  unfold roundSum
  rw [sum_take_succ_int ws (index + 1) w h]
  omega

theorem roundSum_last (ws : List Int) (index : Nat) (w : Int) (h0 : ws[0]? = some w)
    (hlast : index + 1 = ws.length) : roundSum ws index + w = ws.sum := by
  unfold roundSum
  rw [hlast, List.take_length]
  have := sum_take_succ_int ws 0 w h0
  simp only [List.take_zero, List.sum_nil, zero_add] at this
  rw [this]
  omega

theorem sum_take_le (ws : List Int) (hnn : ∀ w ∈ ws, 0 ≤ w) :
    ∀ a, (ws.take a).sum ≤ (ws.take (a + 1)).sum := by
  intro a
  cases h : ws[a]? with
  | none =>
    have hlen : ws.length ≤ a := List.getElem?_eq_none_iff.mp h
    rw [List.take_of_length_le hlen, List.take_of_length_le (by omega)]
  | some w =>
    rw [sum_take_succ_int ws a w h]
    have := hnn w (List.mem_iff_getElem?.mpr ⟨a, h⟩)
    omega

theorem sum_take_mono (ws : List Int) (hnn : ∀ w ∈ ws, 0 ≤ w) :
    ∀ a b, a ≤ b → (ws.take a).sum ≤ (ws.take b).sum := by
  intro a b hab
  induction b with
  | zero =>
    have : a = 0 := by omega
    rw [this]
  | succ b ih =>
    by_cases h : a = b + 1
    · rw [h]
    · exact le_trans (ih (by omega)) (sum_take_le ws hnn b)

theorem sum_take_le_sum (ws : List Int) (hnn : ∀ w ∈ ws, 0 ≤ w) (a : Nat) :
    (ws.take a).sum ≤ ws.sum := by
  have := sum_take_mono ws hnn a (a + ws.length) (by omega)
  rwa [List.take_of_length_le (show ws.length ≤ a + ws.length by omega)] at this

theorem roundSum_bounds (ws : List Int) (hnn : ∀ w ∈ ws, 0 ≤ w) (index : Nat) :
    0 ≤ roundSum ws index ∧ roundSum ws index ≤ ws.sum := by
  unfold roundSum
  have h1 := sum_take_mono ws hnn 1 (index + 1) (by omega)
  have h2 := sum_take_le_sum ws hnn (index + 1)
  have h3 := sum_take_mono ws hnn 0 1 (by omega)
  simp only [List.take_zero, List.sum_nil] at h3
  omega

/-- One iteration of the loop keeps the bookkeeping: `e = 0` for an iteration that goes on,
`e = 1` for the iteration that selects. -/
theorem WrrCore_visit (ws : List Int) (S : Nat → Int) (k v : Int) (index : Nat)
    (cws : List Int) (h : WrrCore ws S k v index cws) (w c : Int)
    (hw : ws[(index + 1) % ws.length]? = some w) (hc : cws[(index + 1) % ws.length]? = some c)
    (e : Int) (S1 : Nat → Int)
    (hS : ∀ j, S1 j = S j + if j = (index + 1) % ws.length then e else 0) :
    WrrCore ws S1 (k + e) (if index + 1 = ws.length then v + 1 else v)
      ((index + 1) % ws.length) (cws.set ((index + 1) % ws.length) (c + w - e * ws.sum)) := by
  obtain ⟨hlen, hidx, hsum, hpt⟩ := h
  have hold := hpt _ w c hw hc
  by_cases hwrap : index + 1 = ws.length
  · have hi1 : (index + 1) % ws.length = 0 := by rw [hwrap, Nat.mod_self]
    rw [hi1] at hw hc hold hS ⊢
    rw [if_pos hwrap]
    have hv0 : visited index 0 = 0 := by unfold visited; rw [if_neg]; omega
    rw [hv0] at hold
    refine ⟨by rw [List.length_set]; exact hlen, by omega, ?_, ?_⟩
    · rw [sum_set_int cws 0 c _ hc, roundSum_zero]
      have hlast := roundSum_last ws index w hw hwrap
      linear_combination hsum + hlast
    · intro j w1 c1 hw1 hc1
      have hjlt : j < ws.length := (List.getElem?_eq_some.mp hw1).1
      by_cases hj : j = 0
      · subst hj
        rw [List.getElem?_set] at hc1
        simp only [if_true, show 0 < cws.length by omega, Option.some.injEq] at hc1
        rw [hw] at hw1
        have hww : w = w1 := Option.some.inj hw1
        have hv00 : visited 0 0 = 0 := by unfold visited; rw [if_neg]; omega
        rw [hS 0, if_pos rfl, hv00, ← hc1, ← hww]
        linear_combination hold
      · rw [List.getElem?_set_ne (Ne.symm hj)] at hc1
        have h1 := hpt j w1 c1 hw1 hc1
        have hv1 : visited index j = 1 := by unfold visited; rw [if_pos]; omega
        have hv2 : visited 0 j = 0 := by unfold visited; rw [if_neg]; omega
        rw [hS j, if_neg hj, hv2]
        rw [hv1] at h1
        linear_combination h1
  · have hi1 : (index + 1) % ws.length = index + 1 := Nat.mod_eq_of_lt (by omega)
    rw [hi1] at hw hc hold hS ⊢
    rw [if_neg hwrap]
    have hv0 : visited index (index + 1) = 0 := by unfold visited; rw [if_neg]; omega
    rw [hv0] at hold
    refine ⟨by rw [List.length_set]; exact hlen, by omega, ?_, ?_⟩
    · rw [sum_set_int cws (index + 1) c _ hc, roundSum_succ ws index w hw]
      linear_combination hsum
    · intro j w1 c1 hw1 hc1
      by_cases hj : j = index + 1
      · subst hj
        rw [List.getElem?_set] at hc1
        simp only [if_true, show index + 1 < cws.length by omega, Option.some.injEq] at hc1
        rw [hw] at hw1
        have hww : w = w1 := Option.some.inj hw1
        have hv00 : visited (index + 1) (index + 1) = 1 := by
          unfold visited; rw [if_pos]; omega
        rw [hS (index + 1), if_pos rfl, hv00, ← hc1, ← hww]
        linear_combination hold
      · rw [List.getElem?_set_ne (Ne.symm hj)] at hc1
        have h1 := hpt j w1 c1 hw1 hc1
        have hv : visited (index + 1) j = visited index j := by
          unfold visited
          by_cases hc : 1 ≤ j ∧ j ≤ index
          · rw [if_pos hc, if_pos]; omega
          · rw [if_neg hc, if_neg]; omega
        rw [hS j, if_neg hj, hv]
        linear_combination h1

theorem foldl_max_ge (ws : List Int) : ∀ b : Int,
    b ≤ ws.foldl (fun m w => if w > m then w else m) b ∧
    ∀ w ∈ ws, w ≤ ws.foldl (fun m w => if w > m then w else m) b := by
  induction ws with
  | nil => intro b; simp
  | cons a ws ih =>
    intro b
    rw [List.foldl_cons]
    obtain ⟨h1, h2⟩ := ih (if a > b then a else b)
    refine ⟨le_trans (by split_ifs <;> omega) h1, ?_⟩
    intro w hw
    rcases List.mem_cons.mp hw with rfl | hw
    · exact le_trans (by split_ifs <;> omega) h1
    · exact h2 w hw

theorem foldl_max_mem (ws : List Int) : ∀ b : Int,
    ws.foldl (fun m w => if w > m then w else m) b = b ∨
    ws.foldl (fun m w => if w > m then w else m) b ∈ ws := by
  induction ws with
  | nil => intro b; simp
  | cons a ws ih =>
    intro b
    rw [List.foldl_cons]
    rcases ih (if a > b then a else b) with h | h
    · rw [h]
      split_ifs
      · exact Or.inr (List.mem_cons_self _ _)
      · exact Or.inl rfl
    · exact Or.inr (List.mem_cons_of_mem _ h)

theorem le_maxWeightOf (ws : List Int) : ∀ w ∈ ws, w ≤ maxWeightOf ws :=
  (foldl_max_ge ws 0).2

theorem le_sum_of_mem_nonneg : ∀ (ws : List Int), (∀ w ∈ ws, 0 ≤ w) → ∀ w ∈ ws, w ≤ ws.sum := by
  intro ws
  induction ws with
  | nil => intro _ w hw; simp at hw
  | cons a ws ih =>
    intro hnn w hw
    have ha : 0 ≤ a := hnn a (List.mem_cons_self _ _)
    have hrest : ∀ x ∈ ws, 0 ≤ x := fun x hx => hnn x (List.mem_cons_of_mem _ hx)
    have hsum : 0 ≤ ws.sum := List.sum_nonneg hrest
    rw [List.sum_cons]
    rcases List.mem_cons.mp hw with rfl | hw
    · omega
    · have := ih hrest w hw
      omega

/-- With positive weights on a non-empty column, `1 ≤ maxWeight ≤ totalWeight`. -/
theorem maxWeightOf_bounds (ws : List Int) (hpos : ∀ w ∈ ws, 0 < w) (hne : ws ≠ []) :
    1 ≤ maxWeightOf ws ∧ maxWeightOf ws ≤ ws.sum := by
  obtain ⟨a, ha⟩ := List.exists_mem_of_ne_nil ws hne
  have h1 : 1 ≤ maxWeightOf ws := by
    have := le_maxWeightOf ws a ha
    have := hpos a ha
    omega
  refine ⟨h1, ?_⟩
  rcases foldl_max_mem ws 0 with h | h
  · unfold maxWeightOf at h1
    omega
  · exact le_sum_of_mem_nonneg ws (fun w hw => le_of_lt (hpos w hw)) _ h

/-- A returning run of the loop started in the invariant ends in the invariant, with the selected
position appended to the history. -/
theorem cwLoop_inv (ws : List Int) (hpos : ∀ w ∈ ws, 0 < w) (hist : List Nat) :
    ∀ (fuel index : Nat) (cws : List Int), WrrInv ws hist index cws →
      ∀ (i1 : Nat) (cws1 : List Int),
        cwLoop ws ws.sum (maxWeightOf ws) fuel index cws = some (i1, cws1) →
          WrrInv ws (hist ++ [i1]) i1 cws1 := by
  intro fuel
  induction fuel with
  | zero => intro index cws _ i1 cws1 h; simp [cwLoop] at h
  | succ fuel ih =>
    intro index cws hinv i1 cws1 h
    obtain ⟨⟨v, hcore⟩, hb⟩ := hinv
    unfold cwLoop at h
    simp only at h
    split at h
    · rename_i w c hw hc
      have hwmem : w ∈ ws := List.mem_iff_getElem?.mpr ⟨_, hw⟩
      have hcmem : c ∈ cws := List.mem_iff_getElem?.mpr ⟨_, hc⟩
      have hwpos := hpos w hwmem
      have hwle := le_sum_of_mem_nonneg ws (fun w hw => le_of_lt (hpos w hw)) w hwmem
      obtain ⟨hc1, hc2⟩ := hb c hcmem
      split at h
      · rename_i hge
        simp only [Option.some.injEq, Prod.mk.injEq] at h
        obtain ⟨h1, h2⟩ := h
        subst h1 h2
        refine ⟨⟨if index + 1 = ws.length then v + 1 else v, ?_⟩, ?_⟩
        · have := WrrCore_visit ws _ _ v index cws hcore w c hw hc 1
            (fun j => ((hist ++ [(index + 1) % ws.length]).count j : Int)) (by
              intro j
              beta_reduce
              rw [List.count_append, List.count_singleton]
              by_cases hj : j = (index + 1) % ws.length
              · subst hj; simp
              · have : ¬ ((index + 1) % ws.length == j) = true := by
                  simp only [beq_iff_eq]; exact fun h => hj h.symm
                simp [hj, this])
          simp only [one_mul] at this
          have hl : ((hist ++ [(index + 1) % ws.length]).length : Int) = (hist.length : Int) + 1 := by
            simp
          rw [hl]
          exact this
        · intro c1 hc1mem
          rcases List.mem_or_eq_of_mem_set hc1mem with hm | hm
          · exact hb c1 hm
          · subst hm
            constructor <;> omega
      · rename_i hge
        apply ih _ _ _ _ _ h
        refine ⟨⟨if index + 1 = ws.length then v + 1 else v, ?_⟩, ?_⟩
        · have := WrrCore_visit ws _ _ v index cws hcore w c hw hc 0
            (fun j => (hist.count j : Int)) (by intro j; simp)
          simp only [zero_mul, sub_zero, add_zero] at this
          exact this
        · intro c1 hc1mem
          rcases List.mem_or_eq_of_mem_set hc1mem with hm | hm
          · exact hb c1 hm
          · subst hm
            constructor <;> omega
    · simp at h

theorem sum_map_le_of_le (f : Int → Nat) (b : Nat) :
    ∀ (l : List Int), (∀ c ∈ l, f c ≤ b) → (l.map f).sum ≤ l.length * b := by
  intro l
  induction l with
  | nil => intro _; simp
  | cons a l ih =>
    intro h
    have h1 := h a (List.mem_cons_self _ _)
    have h2 := ih (fun c hc => h c (List.mem_cons_of_mem _ hc))
    simp only [List.map_cons, List.sum_cons, List.length_cons]
    rw [Nat.add_mul, Nat.one_mul]
    omega

/-- In the invariant the loop needs at most `n * totalWeight + 1` iterations. -/
theorem WrrInv_potential (ws : List Int) (hist : List Nat) (index : Nat) (cws : List Int)
    (h : WrrInv ws hist index cws) :
    wrrPotential (maxWeightOf ws) cws ≤ ws.length * ws.sum.toNat := by
  obtain ⟨⟨v, hlen, _⟩, hb⟩ := h
  unfold wrrPotential
  rw [← hlen]
  apply sum_map_le_of_le
  intro c hc
  have := hb c hc
  omega

/-- From the invariant, any number of calls with fuel above `n * totalWeight` all return, and the
invariant holds again with the selections appended to the history. -/
theorem cwCalls_inv (ws : List Int) (hpos : ∀ w ∈ ws, 0 < w) (hne : ws ≠ []) (fuel : Nat)
    (hfuel : ws.length * ws.sum.toNat < fuel) :
    ∀ (k : Nat) (hist : List Nat) (index : Nat) (cws : List Int), WrrInv ws hist index cws →
      ∃ trace i2 cws2, cwCalls ws fuel k index cws = some (trace, i2, cws2) ∧
        trace.length = k ∧ WrrInv ws (hist ++ trace) i2 cws2 := by
  intro k
  induction k with
  | zero =>
    intro hist index cws h
    exact ⟨[], index, cws, rfl, rfl, by simpa using h⟩
  | succ k ih =>
    intro hist index cws h
    have hpot := WrrInv_potential ws hist index cws h
    obtain ⟨⟨i1, cws1⟩, hres⟩ := cwLoop_terminates ws ws.sum (maxWeightOf ws) hpos hne fuel index
      cws h.1.choose_spec.1 (by omega)
    have h1 := cwLoop_inv ws hpos hist fuel index cws h i1 cws1 hres
    obtain ⟨trace, i2, cws2, h2, h3, h4⟩ := ih (hist ++ [i1]) i1 cws1 h1
    refine ⟨i1 :: trace, i2, cws2, ?_, by simp [h3], by simpa using h4⟩
    simp only [cwCalls, cwCall, hres, h2]

theorem sum_bounds_of_forall (lo hi : Int) :
    ∀ (l : List Int), (∀ c ∈ l, lo ≤ c ∧ c ≤ hi) →
      (l.length : Int) * lo ≤ l.sum ∧ l.sum ≤ (l.length : Int) * hi := by
  intro l
  induction l with
  | nil => intro _; simp
  | cons a l ih =>
    intro h
    have h1 := h a (List.mem_cons_self _ _)
    have h2 := ih (fun c hc => h c (List.mem_cons_of_mem _ hc))
    simp only [List.sum_cons, List.length_cons]
    push_cast
    constructor <;> nlinarith [h1.1, h1.2, h2.1, h2.2]

/-- In the invariant, every position was selected proportionally to its weight, up to the bound. -/
theorem WrrInv_frequency (ws : List Int) (hpos : ∀ w ∈ ws, 0 < w) (hne : ws ≠ [])
    (hist : List Nat) (index : Nat) (cws : List Int) (h : WrrInv ws hist index cws)
    (j : Nat) (w : Int) (hw : ws[j]? = some w) :
    |ws.sum * (hist.count j : Int) - (hist.length : Int) * w| ≤ wrrBound ws := by
  obtain ⟨⟨v, hlen, hidx, hsum, hpt⟩, hb⟩ := h
  obtain ⟨hM1, hMT⟩ := maxWeightOf_bounds ws hpos hne
  have hnn : ∀ w ∈ ws, 0 ≤ w := fun w hw => le_of_lt (hpos w hw)
  obtain ⟨hr0, hr1⟩ := roundSum_bounds ws hnn index
  have hjlt : j < ws.length := (List.getElem?_eq_some.mp hw).1
  have hjc : j < cws.length := by omega
  have hc : cws[j]? = some cws[j] := List.getElem?_eq_getElem hjc
  have hceq := hpt j w _ hw hc
  beta_reduce at hceq
  obtain ⟨hcb1, hcb2⟩ := hb _ (List.mem_iff_getElem?.mpr ⟨j, hc⟩)
  have hwmem : w ∈ ws := List.mem_iff_getElem?.mpr ⟨j, hw⟩
  have hwpos := hpos w hwmem
  have hwle := le_sum_of_mem_nonneg ws hnn w hwmem
  obtain ⟨hs1, hs2⟩ := sum_bounds_of_forall (maxWeightOf ws - ws.sum) (maxWeightOf ws - 1) cws
    (fun c hc => by have := hb c hc; omega)
  rw [hlen] at hs1 hs2
  have hnpos : (0 : Int) < (ws.length : Int) := by
    have := List.length_pos.mpr hne
    exact_mod_cast this
  have hTpos : 0 < ws.sum := by omega
  unfold wrrBound
  set T := ws.sum with hT
  set n : Int := (ws.length : Int) with hn
  set M := maxWeightOf ws with hM
  set d : Int := v - (hist.length : Int) with hd
  have hv01 : 0 ≤ visited index j ∧ visited index j ≤ 1 := by
    unfold visited; split_ifs <;> omega
  have hnM : n * M ≤ n * T := mul_le_mul_of_nonneg_left hMT (le_of_lt hnpos)
  have hdlt : d < n := by
    have h1 : d * T < n * T := by
      have : n * (M - 1) = n * M - n := by ring
      linarith
    exact lt_of_mul_lt_mul_right h1 (le_of_lt hTpos)
  have hdge : -n - 1 < d := by
    have h1 : (-n - 1) * T < d * T := by
      have e1 : n * (M - T) = n * M - n * T := by ring
      have e2 : (-n - 1) * T = -(n * T) - T := by ring
      have hnMpos : 0 < n * M := mul_pos hnpos (by omega)
      linarith
    exact lt_of_mul_lt_mul_right h1 (le_of_lt hTpos)
  have hkey : T * (hist.count j : Int) - (hist.length : Int) * w
      = (d + visited index j) * w - cws[j] := by
    rw [hceq, hd]; ring
  have hup : (d + visited index j) * w ≤ n * T := by
    have h1 : (d + visited index j) * w ≤ n * w :=
      mul_le_mul_of_nonneg_right (by omega) (le_of_lt hwpos)
    have h2 : n * w ≤ n * T := mul_le_mul_of_nonneg_left hwle (le_of_lt hnpos)
    linarith
  have hlo : -(n * T) ≤ (d + visited index j) * w := by
    have h1 : (-n) * w ≤ (d + visited index j) * w :=
      mul_le_mul_of_nonneg_right (by omega) (le_of_lt hwpos)
    have h2 : n * w ≤ n * T := mul_le_mul_of_nonneg_left hwle (le_of_lt hnpos)
    have e : (-n) * w = -(n * w) := by ring
    linarith
  rw [hkey, abs_le]
  have e3 : (n + 1) * T = n * T + T := by ring
  constructor <;> linarith

/-- Calls on the columns that all return are calls on the pool that all return, selecting the
references at the same positions. -/
theorem wrrCalls_of_cwCalls (fuel : Nat) :
    ∀ (k : Nat) (p : Pool), upRefs p.servers ≠ [] →
      ∀ (trace : List Nat) (i2 : Nat) (cws2 : List Int),
        cwCalls (weightsOf p) fuel k p.weightedRoundRobinIndex (currentWeightsOf p)
          = some (trace, i2, cws2) →
        ∃ p2, wrrCalls fuel k p = some (trace.map (fun j => (upRefs p.servers)[j]?), p2) ∧
          p2.weightedRoundRobinIndex = i2 ∧ currentWeightsOf p2 = cws2 ∧
          upRefs p2.servers = upRefs p.servers ∧ weightsOf p2 = weightsOf p ∧
          p2.servers.map clearCurrentWeight = p.servers.map clearCurrentWeight := by
  intro k
  induction k with
  | zero =>
    intro p _ trace i2 cws2 h
    simp only [cwCalls, Option.some.injEq, Prod.mk.injEq] at h
    obtain ⟨h1, h2, h3⟩ := h
    subst h1
    exact ⟨p, rfl, h2, h3, rfl, rfl, rfl⟩
  | succ k ih =>
    intro p hne trace i2 cws2 h
    unfold cwCalls at h
    cases hcall : cwCall (weightsOf p) fuel p.weightedRoundRobinIndex (currentWeightsOf p) with
    | none => rw [hcall] at h; simp at h
    | some res =>
      obtain ⟨i1, cws1⟩ := res
      rw [hcall] at h
      simp only at h
      cases hrest : cwCalls (weightsOf p) fuel k i1 cws1 with
      | none => rw [hrest] at h; simp at h
      | some res2 =>
        obtain ⟨rest, i3, cws3⟩ := res2
        rw [hrest] at h
        simp only [Option.some.injEq, Prod.mk.injEq] at h
        obtain ⟨h1, h2, h3⟩ := h
        subst h1 h2 h3
        obtain ⟨r, p1, hg, hr, hi1, _, hframe1, hup1, hws1, hcws1⟩ :=
          getWeightedRoundRobinServer_of_cwCall fuel p hne i1 cws1 hcall
        have hne1 : upRefs p1.servers ≠ [] := by rw [hup1]; exact hne
        have hrest1 : cwCalls (weightsOf p1) fuel k p1.weightedRoundRobinIndex
            (currentWeightsOf p1) = some (rest, i3, cws3) := by
          rw [hws1, hi1, hcws1]; exact hrest
        obtain ⟨p2, hc2, hi2, hcws2, hup2, hws2, hframe2⟩ := ih p1 hne1 rest i3 cws3 hrest1
        refine ⟨p2, ?_, hi2, hcws2, hup2.trans hup1, hws2.trans hws1, hframe2.trans hframe1⟩
        simp only [wrrCalls, hg, hc2, List.map_cons, hr, hup1]

theorem count_map_getElem? (avail : List Nat) (hnd : avail.Nodup) (j r : Nat)
    (hj : avail[j]? = some r) :
    ∀ (trace : List Nat), (trace.map (fun i => avail[i]?)).count (some r) = trace.count j := by
  intro trace
  induction trace with
  | nil => rfl
  | cons i rest ih =>
    rw [List.map_cons, List.count_cons, List.count_cons, ih]
    by_cases hij : i = j
    · subst hij
      simp [hj]
    · have hne : avail[i]? ≠ some r := fun h => hij (nodup_getElem?_inj hnd h hj)
      simp [hij, hne]

theorem WrrInv_initial (ws cws : List Int) (hpos : ∀ w ∈ ws, 0 < w) (hne : ws ≠ [])
    (hlen : cws.length = ws.length) (hzero : ∀ c ∈ cws, c = 0) : WrrInv ws [] 0 cws := by
  obtain ⟨hM1, hMT⟩ := maxWeightOf_bounds ws hpos hne
  have hsum : cws.sum = 0 := List.sum_eq_zero hzero
  refine ⟨⟨0, hlen, List.length_pos.mpr hne, ?_, ?_⟩, ?_⟩
  · rw [hsum, roundSum_zero]; simp
  · intro j w c _ hc
    have := hzero c (List.mem_iff_getElem?.mpr ⟨j, hc⟩)
    have hv : visited 0 j = 0 := by unfold visited; rw [if_neg]; omega
    rw [this, hv]; simp
  · intro c hc
    rw [hzero c hc]
    constructor <;> omega

/-- C5. For a pool with a UP server, positive weights on the UP servers, the cursor at 0 and every
`currentWeight` at 0: with fuel above a fixed threshold every run of `k` calls of
`getWeightedRoundRobinServer` returns `k` servers, and for every UP server the number `s_i` of
times it was returned satisfies `|T * s_i - k * w_i| ≤ B`, where `T` is the total weight of the UP
servers and `B = (n + 1) * T` depends on the weights only. -/
theorem wrr_frequency_proportional (p : Pool) (hup : ∃ s ∈ p.servers, s.status = Status.UP)
    (hpos : ∀ s ∈ p.servers, s.status = Status.UP → 0 < s.weight)
    (hidx : p.weightedRoundRobinIndex = 0) (hcw : ∀ s ∈ p.servers, s.currentWeight = 0) :
    ∃ fuel0, ∀ fuel, fuel0 ≤ fuel → ∀ k, ∃ trace p2,
      wrrCalls fuel k p = some (trace, p2) ∧ trace.length = k ∧
      ∀ r s, p.servers[r]? = some s → s.status = Status.UP →
        |(weightsOf p).sum * (trace.count (some r) : Int) - (k : Int) * s.weight|
          ≤ wrrBound (weightsOf p) := by
  have hne := upRefs_ne_nil hup
  have hwne : weightsOf p ≠ [] := by
    unfold weightsOf
    simpa using hne
  have hwpos := weightsOf_pos hpos
  have hinit : WrrInv (weightsOf p) [] 0 (currentWeightsOf p) := by
    apply WrrInv_initial _ _ hwpos hwne (by simp [weightsOf, currentWeightsOf])
    intro c hc
    obtain ⟨r, hr, rfl⟩ := List.mem_map.mp hc
    obtain ⟨s, hs, _⟩ := mem_upRefs.mp hr
    rw [currentWeightAt_eq hs]
    exact hcw s (List.mem_iff_getElem?.mpr ⟨r, hs⟩)
  refine ⟨(weightsOf p).length * (weightsOf p).sum.toNat + 1, ?_⟩
  intro fuel hfuel k
  obtain ⟨trace, i2, cws2, hcalls, hlen, hinv⟩ :=
    cwCalls_inv (weightsOf p) hwpos hwne fuel (by omega) k [] 0 (currentWeightsOf p) hinit
  rw [← hidx] at hcalls
  obtain ⟨p2, hp2, _⟩ := wrrCalls_of_cwCalls fuel k p hne trace i2 cws2 hcalls
  refine ⟨_, p2, hp2, by simp [hlen], ?_⟩
  intro r s hs hst
  obtain ⟨j, hj⟩ := List.mem_iff_getElem?.mp (mem_upRefs.mpr ⟨s, hs, hst⟩)
  rw [count_map_getElem? (upRefs p.servers) (upRefs_nodup p.servers) j r hj trace]
  have hw : (weightsOf p)[j]? = some s.weight := by
    unfold weightsOf
    rw [List.getElem?_map, hj, Option.map_some', weightAt_eq hs]
  have := WrrInv_frequency (weightsOf p) hwpos hwne ([] ++ trace) i2 cws2 hinv j s.weight hw
  simpa [hlen] using this

/-! ## Weighted round robin: runs of calls on the columns -/

theorem cwCalls_fuel_mono (ws : List Int) (fuel extra : Nat) :
    ∀ (k index : Nat) (cws : List Int) (res : List Nat × Nat × List Int),
      cwCalls ws fuel k index cws = some res →
        cwCalls ws (fuel + extra) k index cws = some res := by
  intro k
  induction k with
  | zero => intro index cws res h; exact h
  | succ k ih =>
    intro index cws res h
    unfold cwCalls at h ⊢
    cases hcall : cwCall ws fuel index cws with
    | none => rw [hcall] at h; simp at h
    | some r1 =>
      obtain ⟨i1, cws1⟩ := r1
      have hcall2 : cwCall ws (fuel + extra) index cws = some (i1, cws1) :=
        cwLoop_fuel_mono ws _ _ fuel index cws _ hcall extra
      rw [hcall] at h
      rw [hcall2]
      simp only at h ⊢
      cases hrest : cwCalls ws fuel k i1 cws1 with
      | none => rw [hrest] at h; simp at h
      | some r2 =>
        rw [hrest] at h
        rw [ih i1 cws1 r2 hrest]
        exact h

theorem cwCalls_append (ws : List Int) (fuel : Nat) :
    ∀ (a b index : Nat) (cws : List Int) (t1 t2 : List Nat) (i1 i2 : Nat) (c1 c2 : List Int),
      cwCalls ws fuel a index cws = some (t1, i1, c1) →
      cwCalls ws fuel b i1 c1 = some (t2, i2, c2) →
        cwCalls ws fuel (a + b) index cws = some (t1 ++ t2, i2, c2) := by
  intro a
  induction a with
  | zero =>
    intro b index cws t1 t2 i1 i2 c1 c2 h1 h2
    simp only [cwCalls, Option.some.injEq, Prod.mk.injEq] at h1
    obtain ⟨e1, e2, e3⟩ := h1
    subst e1 e2 e3
    simpa using h2
  | succ a ih =>
    intro b index cws t1 t2 i1 i2 c1 c2 h1 h2
    rw [show a + 1 + b = (a + b) + 1 by omega]
    unfold cwCalls at h1 ⊢
    cases hcall : cwCall ws fuel index cws with
    | none => rw [hcall] at h1; simp at h1
    | some r1 =>
      obtain ⟨j1, d1⟩ := r1
      rw [hcall] at h1
      simp only at h1 ⊢
      cases hrest : cwCalls ws fuel a j1 d1 with
      | none => rw [hrest] at h1; simp at h1
      | some r2 =>
        obtain ⟨rest, j2, d2⟩ := r2
        rw [hrest] at h1
        simp only [Option.some.injEq, Prod.mk.injEq] at h1
        obtain ⟨e1, e2, e3⟩ := h1
        subst e1 e2 e3
        rw [ih b j1 d1 rest t2 j2 i2 d2 c2 hrest h2]
        rfl

/-- A run of `m` calls that comes back to its starting state repeats: `q * m` calls come back
too, and select every position `q` times as often. -/
theorem cwCalls_period (ws : List Int) (fuel m index : Nat) (cws : List Int) (t : List Nat)
    (h : cwCalls ws fuel m index cws = some (t, index, cws)) :
    ∀ q, ∃ trace, cwCalls ws fuel (q * m) index cws = some (trace, index, cws) ∧
      ∀ j, trace.count j = q * t.count j := by
  intro q
  induction q with
  | zero => exact ⟨[], by simp [cwCalls], by simp⟩
  | succ q ih =>
    obtain ⟨trace, h1, h2⟩ := ih
    refine ⟨trace ++ t, ?_, ?_⟩
    · rw [show (q + 1) * m = q * m + m by ring]
      exact cwCalls_append ws fuel _ _ _ _ _ _ _ _ _ _ h1 h
    · intro j
      rw [List.count_append, h2 j]
      ring

/-- Weights `[2, 1]`: three calls from the initial state select positions 0, 1, 0 and restore
the initial state. -/
theorem cwCalls_two_one_period :
    cwCalls [2, 1] 8 3 0 [0, 0] = some ([0, 1, 0], 0, [0, 0]) := by decide

/-- Weights `[2, 1]`: 300 calls from the initial state select position 0 exactly 200 times and
position 1 exactly 100 times. -/
theorem cwCalls_two_one (fuel : Nat) (hfuel : 8 ≤ fuel) :
    ∃ trace i2 cws2, cwCalls [2, 1] fuel 300 0 [0, 0] = some (trace, i2, cws2) ∧
      trace.count 0 = 200 ∧ trace.count 1 = 100 := by
  obtain ⟨trace, h1, h2⟩ := cwCalls_period [2, 1] 8 3 0 [0, 0] [0, 1, 0] cwCalls_two_one_period 100
  have h3 := cwCalls_fuel_mono [2, 1] 8 (fuel - 8) _ _ _ _ h1
  rw [show 8 + (fuel - 8) = fuel by omega] at h3
  exact ⟨trace, 0, [0, 0], h3, by rw [h2 0]; decide, by rw [h2 1]; decide⟩

theorem registeredTwo_eq (a b : String) (hab : a ≠ b) :
    registeredTwo a b =
      { initialPool with
        servers := [{ newServer a 2 with status := Status.UP },
          { newServer b 1 with status := Status.UP }] } := by
  have h1 : addServer a 2 initialPool = { initialPool with servers := [newServer a 2] } := rfl
  have h2 : addServer b 1 { initialPool with servers := [newServer a 2] } =
      { initialPool with servers := [newServer a 2, newServer b 1] } := by
    have : findRef b [newServer a 2] = none := by simp [findRef, newServer, hab]
    simp only [addServer, this]
    rfl
  unfold registeredTwo
  rw [h1, h2]
  rfl

theorem registeredTwo_servers (a b : String) (hab : a ≠ b) :
    (registeredTwo a b).servers =
      [{ newServer a 2 with status := Status.UP }, { newServer b 1 with status := Status.UP }] := by
  rw [registeredTwo_eq a b hab]

theorem registeredTwo_columns (a b : String) (hab : a ≠ b) :
    upRefs (registeredTwo a b).servers = [0, 1] ∧
    weightsOf (registeredTwo a b) = [2, 1] ∧
    currentWeightsOf (registeredTwo a b) = [0, 0] ∧
    (registeredTwo a b).weightedRoundRobinIndex = 0 := by
  have hs := registeredTwo_servers a b hab
  have hup : upRefs (registeredTwo a b).servers = [0, 1] := by
    rw [hs]
    rfl
  refine ⟨hup, ?_, ?_, ?_⟩
  · unfold weightsOf
    rw [hup, hs]
    rfl
  · unfold currentWeightsOf
    rw [hup, hs]
    rfl
  · rw [registeredTwo_eq a b hab]
    rfl

/-- C7. After registering `a` with weight 2 and `b` with weight 1, both probed UP, the first 300
calls of `getWeightedRoundRobinServer` all return (given at least 8 units of fuel), return `a`
between 185 and 215 times and `b` between 85 and 115 times. -/
theorem wrr_two_one_300 (a b : String) (hab : a ≠ b) (fuel : Nat) (hfuel : 8 ≤ fuel) :
    ∃ trace p2, wrrCalls fuel 300 (registeredTwo a b) = some (trace, p2) ∧
      (∃ sa, (registeredTwo a b).servers[0]? = some sa ∧ sa.url = a ∧ sa.weight = 2) ∧
      (∃ sb, (registeredTwo a b).servers[1]? = some sb ∧ sb.url = b ∧ sb.weight = 1) ∧
      185 ≤ trace.count (some 0) ∧ trace.count (some 0) ≤ 215 ∧
      85 ≤ trace.count (some 1) ∧ trace.count (some 1) ≤ 115 := by
  obtain ⟨hup, hws, hcws, hidx⟩ := registeredTwo_columns a b hab
  obtain ⟨trace, i2, cws2, hcalls, hc0, hc1⟩ := cwCalls_two_one fuel hfuel
  have hne : upRefs (registeredTwo a b).servers ≠ [] := by rw [hup]; simp
  obtain ⟨p2, hp2, _⟩ := wrrCalls_of_cwCalls fuel 300 (registeredTwo a b) hne trace i2 cws2
    (by rw [hws, hcws, hidx]; exact hcalls)
  have hnd := upRefs_nodup (registeredTwo a b).servers
  have h0 := count_map_getElem? _ hnd 0 0 (by rw [hup]; rfl) trace
  have h1 := count_map_getElem? _ hnd 1 1 (by rw [hup]; rfl) trace
  refine ⟨_, p2, hp2, ?_, ?_, ?_⟩
  · rw [registeredTwo_servers a b hab]
    exact ⟨_, rfl, rfl, rfl⟩
  · rw [registeredTwo_servers a b hab]
    exact ⟨_, rfl, rfl, rfl⟩
  · rw [h0, h1, hc0, hc1]
    omega

/-- An instance of C7 with the URLs `"A"` and `"B"`. -/
theorem wrr_two_one_300_witness :
    ∃ trace p2, wrrCalls 8 300 (registeredTwo "A" "B") = some (trace, p2) ∧
      (∃ sa, (registeredTwo "A" "B").servers[0]? = some sa ∧ sa.url = "A" ∧ sa.weight = 2) ∧
      (∃ sb, (registeredTwo "A" "B").servers[1]? = some sb ∧ sb.url = "B" ∧ sb.weight = 1) ∧
      185 ≤ trace.count (some 0) ∧ trace.count (some 0) ≤ 215 ∧
      85 ≤ trace.count (some 1) ∧ trace.count (some 1) ≤ 115 :=
  wrr_two_one_300 "A" "B" (by decide) 8 (le_refl 8)

/-! ## Weights `[2, 1, 1]` -/

theorem cwCalls_211_step (index : Nat) (cws : List Int) (h : OnCycle211 index cws) :
    ∃ o i1 c1, cwCalls [2, 1, 1] 8 1 index cws = some ([o], i1, c1) ∧ OnCycle211 i1 c1 := by
  rcases h with ⟨rfl, rfl⟩ | ⟨rfl, rfl⟩ | ⟨rfl, rfl⟩ | ⟨rfl, rfl⟩ | ⟨rfl, rfl⟩
  · exact ⟨0, 0, [-2, 1, 1], by decide, Or.inr (Or.inl ⟨rfl, rfl⟩)⟩
  · exact ⟨1, 1, [-2, -2, 1], by decide, Or.inr (Or.inr (Or.inl ⟨rfl, rfl⟩))⟩
  · exact ⟨2, 2, [-2, -2, -2], by decide, Or.inr (Or.inr (Or.inr (Or.inl ⟨rfl, rfl⟩)))⟩
  · exact ⟨0, 0, [-2, -1, -1], by decide, Or.inr (Or.inr (Or.inr (Or.inr ⟨rfl, rfl⟩)))⟩
  · exact ⟨0, 0, [-2, 1, 1], by decide, Or.inr (Or.inl ⟨rfl, rfl⟩)⟩

/-- Any number of calls from the initial state ends in one of the five states. -/
theorem cwCalls_211_reach (s : Nat) :
    ∃ t i c, cwCalls [2, 1, 1] 8 s 0 [0, 0, 0] = some (t, i, c) ∧ OnCycle211 i c := by
  induction s with
  | zero => exact ⟨[], 0, [0, 0, 0], rfl, Or.inl ⟨rfl, rfl⟩⟩
  | succ s ih =>
    obtain ⟨t, i, c, h1, h2⟩ := ih
    obtain ⟨o, i1, c1, h3, h4⟩ := cwCalls_211_step i c h2
    exact ⟨t ++ [o], i1, c1, cwCalls_append _ _ _ _ _ _ _ _ _ _ _ _ h1 h3, h4⟩

theorem cwCalls_211_cycle (index : Nat) (cws : List Int) (t : List Nat)
    (h : cwCalls [2, 1, 1] 8 4 index cws = some (t, index, cws))
    (h0 : t.count 0 = 2) (h1 : t.count 1 = 1) (h2 : t.count 2 = 1) :
    ∃ trace i2 c2, cwCalls [2, 1, 1] 8 400 index cws = some (trace, i2, c2) ∧
      trace.count 0 = 200 ∧ trace.count 1 = 100 ∧ trace.count 2 = 100 := by
  obtain ⟨trace, h3, h4⟩ := cwCalls_period [2, 1, 1] 8 4 index cws t h 100
  exact ⟨trace, index, cws, h3, by rw [h4 0, h0], by rw [h4 1, h1], by rw [h4 2, h2]⟩

/-- From each of the five states, the next 400 calls select position 0 exactly 200 times and
positions 1 and 2 exactly 100 times each. -/
theorem cwCalls_211_window (index : Nat) (cws : List Int) (h : OnCycle211 index cws) :
    ∃ trace i2 c2, cwCalls [2, 1, 1] 8 400 index cws = some (trace, i2, c2) ∧
      trace.count 0 = 200 ∧ trace.count 1 = 100 ∧ trace.count 2 = 100 := by
  rcases h with ⟨rfl, rfl⟩ | ⟨rfl, rfl⟩ | ⟨rfl, rfl⟩ | ⟨rfl, rfl⟩ | ⟨rfl, rfl⟩
  · have e1 : cwCalls [2, 1, 1] 8 1 0 [0, 0, 0] = some ([0], 0, [-2, 1, 1]) := by decide
    have e2 : cwCalls [2, 1, 1] 8 4 0 [-2, 1, 1] = some ([1, 2, 0, 0], 0, [-2, 1, 1]) := by
      decide
    have e3 : cwCalls [2, 1, 1] 8 3 0 [-2, 1, 1] = some ([1, 2, 0], 0, [-2, -1, -1]) := by
      decide
    obtain ⟨trace, h3, h4⟩ := cwCalls_period [2, 1, 1] 8 4 0 [-2, 1, 1] [1, 2, 0, 0] e2 99
    have h5 := cwCalls_append _ _ _ _ _ _ _ _ _ _ _ _ h3 e3
    have h6 := cwCalls_append _ _ _ _ _ _ _ _ _ _ _ _ e1 h5
    refine ⟨_, _, _, h6, ?_, ?_, ?_⟩
    · simp only [List.count_append, h4]; decide
    · simp only [List.count_append, h4]; decide
    · simp only [List.count_append, h4]; decide
  · exact cwCalls_211_cycle 0 [-2, 1, 1] [1, 2, 0, 0] (by decide) (by decide) (by decide)
      (by decide)
  · exact cwCalls_211_cycle 1 [-2, -2, 1] [2, 0, 0, 1] (by decide) (by decide) (by decide)
      (by decide)
  · exact cwCalls_211_cycle 2 [-2, -2, -2] [0, 0, 1, 2] (by decide) (by decide) (by decide)
      (by decide)
  · exact cwCalls_211_cycle 0 [-2, -1, -1] [0, 1, 2, 0] (by decide) (by decide) (by decide)
      (by decide)

/-- C6. With exactly three UP servers, of weights 2, 1, 1 in registry order, the cursor at 0 and
their current weights at 0: after any number `s` of calls of `getWeightedRoundRobinServer`, the
next 400 calls all return (given at least 8 units of fuel), return the server of weight 2 between
190 and 210 times and each server of weight 1 between 90 and 110 times. -/
theorem wrr_211_window (p : Pool) (hws : weightsOf p = [2, 1, 1])
    (hcws : currentWeightsOf p = [0, 0, 0]) (hidx : p.weightedRoundRobinIndex = 0)
    (fuel : Nat) (hfuel : 8 ≤ fuel) (s : Nat) :
    ∃ t1 p1 t2 p2, wrrCalls fuel s p = some (t1, p1) ∧ wrrCalls fuel 400 p1 = some (t2, p2) ∧
      ∀ r sv, p.servers[r]? = some sv → sv.status = Status.UP →
        (sv.weight = 2 → 190 ≤ t2.count (some r) ∧ t2.count (some r) ≤ 210) ∧
        (sv.weight = 1 → 90 ≤ t2.count (some r) ∧ t2.count (some r) ≤ 110) := by
  have hne : upRefs p.servers ≠ [] := by
    intro h
    have : weightsOf p = [] := by unfold weightsOf; rw [h]; rfl
    rw [hws] at this
    simp at this
  have hlift : ∀ k i c res, cwCalls [2, 1, 1] 8 k i c = some res →
      cwCalls [2, 1, 1] fuel k i c = some res := by
    intro k i c res h
    have := cwCalls_fuel_mono [2, 1, 1] 8 (fuel - 8) k i c res h
    rwa [show 8 + (fuel - 8) = fuel by omega] at this
  obtain ⟨t, i, c, h1, hcyc⟩ := cwCalls_211_reach s
  obtain ⟨trace, i2, c2, h2, hc0, hc1, hc2⟩ := cwCalls_211_window i c hcyc
  obtain ⟨p1, hp1, hi1, hcw1, hup1, hws1, _⟩ := wrrCalls_of_cwCalls fuel s p hne t i c
    (by rw [hws, hcws, hidx]; exact hlift _ _ _ _ h1)
  have hne1 : upRefs p1.servers ≠ [] := by rw [hup1]; exact hne
  obtain ⟨p2, hp2, _⟩ := wrrCalls_of_cwCalls fuel 400 p1 hne1 trace i2 c2
    (by rw [hws1, hws, hcw1, hi1]; exact hlift _ _ _ _ h2)
  refine ⟨_, p1, _, p2, hp1, hp2, ?_⟩
  intro r sv hsv hst
  obtain ⟨j, hj⟩ := List.mem_iff_getElem?.mp (mem_upRefs.mpr ⟨sv, hsv, hst⟩)
  rw [hup1, count_map_getElem? (upRefs p.servers) (upRefs_nodup p.servers) j r hj trace]
  have hw : (weightsOf p)[j]? = some sv.weight := by
    unfold weightsOf
    rw [List.getElem?_map, hj, Option.map_some', weightAt_eq hsv]
  rw [hws] at hw
  have hj3 : j < 3 := by
    have := (List.getElem?_eq_some.mp hw).1
    simpa using this
  interval_cases j
  · simp only [List.getElem?_cons_zero, Option.some.injEq] at hw
    rw [hc0]
    omega
  · simp only [List.getElem?_cons_succ, List.getElem?_cons_zero, Option.some.injEq] at hw
    rw [hc1]
    omega
  · simp only [List.getElem?_cons_succ, List.getElem?_cons_zero, Option.some.injEq] at hw
    rw [hc2]
    omega

/-! ## The pool of the shipped configuration, used for instances -/

theorem startupPool_servers :
    startupPool.servers =
      [{ newServer "http://localhost:5001" 2 with status := Status.UP },
       { newServer "http://localhost:5002" 1 with status := Status.UP },
       { newServer "http://localhost:5003" 1 with status := Status.UP }] := by
  decide

theorem startupPool_up : ∃ s ∈ startupPool.servers, s.status = Status.UP :=
  ⟨{ newServer "http://localhost:5001" 2 with status := Status.UP },
    by rw [startupPool_servers]; exact List.mem_cons_self _ _, rfl⟩

theorem startupPool_pos : ∀ s ∈ startupPool.servers, 0 < s.weight := by
  rw [startupPool_servers]
  intro s hs
  simp only [List.mem_cons, List.mem_singleton, List.not_mem_nil, or_false] at hs
  rcases hs with rfl | rfl | rfl <;> decide

theorem startupPool_zero : ∀ s ∈ startupPool.servers, s.currentWeight = 0 := by
  rw [startupPool_servers]
  intro s hs
  simp only [List.mem_cons, List.mem_singleton, List.not_mem_nil, or_false] at hs
  rcases hs with rfl | rfl | rfl <;> rfl

/-- An instance of C1 on the start-up pool with the draw 1/2. -/
theorem getNextServer_null_iff_witness :
    ∃ fuel0, ∀ fuel, fuel0 ≤ fuel →
      ∃ res p1, getNextServer fuel (1 / 2) startupPool = some (res, p1) ∧
        (res = none ↔ ∀ s ∈ startupPool.servers, s.status ≠ Status.UP) :=
  getNextServer_null_iff startupPool startupPool_pos (1 / 2) (by norm_num) (by norm_num)

/-- An instance of C2: the first selection on the start-up pool. -/
theorem getNextServer_returns_up_witness :
    (∃ s, startupPool.servers[0]? = some s ∧ s.status = Status.UP) ∧
    (∃ s1, startupPool.servers[0]? = some s1 ∧ s1.status = Status.UP) :=
  getNextServer_returns_up 0 0 startupPool startupPool 0 (by rfl)

/-- An instance of C3: the fifth call on the start-up pool. -/
theorem getRoundRobinServer_cycle_witness :
    (getRoundRobinServer (rrCalls 4 startupPool).2).1 = some 1 ∧
    (getRoundRobinServer (rrCalls 4 startupPool).2).2.roundRobinIndex = 5 := by
  have h := getRoundRobinServer_cycle startupPool startupPool_up rfl 4
  obtain ⟨⟨r, h1, h2⟩, _, h3, _⟩ := h
  refine ⟨?_, h3⟩
  rw [h2, ← h1]
  rfl

/-- An instance of C5 on the start-up pool (weights 2, 1, 1). -/
theorem wrr_frequency_proportional_witness :
    ∃ fuel0, ∀ fuel, fuel0 ≤ fuel → ∀ k, ∃ trace p2,
      wrrCalls fuel k startupPool = some (trace, p2) ∧ trace.length = k ∧
      ∀ r s, startupPool.servers[r]? = some s → s.status = Status.UP →
        |(weightsOf startupPool).sum * (trace.count (some r) : Int) - (k : Int) * s.weight|
          ≤ wrrBound (weightsOf startupPool) :=
  wrr_frequency_proportional startupPool startupPool_up (fun s hs _ => startupPool_pos s hs) rfl
    startupPool_zero

/-- An instance of C6 on the start-up pool: the window after 7 calls. -/
theorem wrr_211_window_witness :
    ∃ t1 p1 t2 p2, wrrCalls 8 7 startupPool = some (t1, p1) ∧
      wrrCalls 8 400 p1 = some (t2, p2) ∧
      ∀ r sv, startupPool.servers[r]? = some sv → sv.status = Status.UP →
        (sv.weight = 2 → 190 ≤ t2.count (some r) ∧ t2.count (some r) ≤ 210) ∧
        (sv.weight = 1 → 90 ≤ t2.count (some r) ∧ t2.count (some r) ≤ 110) :=
  wrr_211_window startupPool (by decide) (by decide) rfl 8 (le_refl 8) 7

/-! ## Routing with least connections -/

theorem findRef_of_nodup : ∀ (l : List Server) (r : Nat) (s : Server),
    (l.map Server.url).Nodup → l[r]? = some s → findRef s.url l = some r := by
  intro l
  induction l with
  | nil => intro r s _ h; simp at h
  | cons a l ih =>
    intro r s hnd h
    rw [List.map_cons, List.nodup_cons] at hnd
    cases r with
    | zero =>
      simp only [List.getElem?_cons_zero, Option.some.injEq] at h
      subst h
      simp [findRef]
    | succ r =>
      simp only [List.getElem?_cons_succ] at h
      have hmem : s.url ∈ l.map Server.url :=
        List.mem_map.mpr ⟨s, List.mem_iff_getElem?.mpr ⟨r, h⟩, rfl⟩
      have hne : a.url ≠ s.url := fun e => hnd.1 (e ▸ hmem)
      simp [findRef, hne, ih r s hnd.2 h]

/-- What `incrementConnections` does to the registry when the URL is found at `r`. -/
theorem incrementConnections_servers (url : String) (clientIP : Option String) (p : Pool)
    (r : Nat) (s : Server) (hf : findRef url p.servers = some r) (hs : p.servers[r]? = some s) :
    ∃ s1, (incrementConnections url clientIP p).servers = p.servers.set r s1 ∧
      s1.connections = s.connections + 1 ∧ s1.url = s.url ∧ s1.status = s.status ∧
      s1.weight = s.weight ∧ s1.currentWeight = s.currentWeight ∧
      (incrementConnections url clientIP p).algorithm = p.algorithm ∧
      (incrementConnections url clientIP p).roundRobinIndex = p.roundRobinIndex ∧
      (incrementConnections url clientIP p).weightedRoundRobinIndex
        = p.weightedRoundRobinIndex := by
  have key : ∀ q, q = incrementConnections url clientIP p →
      ∃ s1, q.servers = p.servers.set r s1 ∧
        s1.connections = s.connections + 1 ∧ s1.url = s.url ∧ s1.status = s.status ∧
        s1.weight = s.weight ∧ s1.currentWeight = s.currentWeight ∧
        q.algorithm = p.algorithm ∧ q.roundRobinIndex = p.roundRobinIndex ∧
        q.weightedRoundRobinIndex = p.weightedRoundRobinIndex := by
    intro q hq
    unfold incrementConnections at hq
    simp only [hf, hs] at hq
    subst hq
    exact ⟨_, rfl, rfl, rfl, rfl, rfl, rfl, rfl, rfl, rfl⟩
  exact key _ rfl

theorem connAt_set (l : List Server) (r : Nat) (s1 : Server) (hr : r < l.length) (i : Nat) :
    connAt (l.set r s1) i = if i = r then s1.connections else connAt l i := by
  unfold connAt
  rw [List.getElem?_set]
  by_cases h : r = i
  · subst h
    simp [hr]
  · have h2 : ¬ i = r := fun e => h e.symm
    simp [h, h2]

theorem map_url_set (l : List Server) (r : Nat) (s s1 : Server) (hs : l[r]? = some s)
    (hu : s1.url = s.url) : (l.set r s1).map Server.url = l.map Server.url := by
  apply List.ext_getElem?
  intro i
  rw [List.getElem?_map, List.getElem?_map, List.getElem?_set]
  by_cases h : r = i
  · subst h
    have hlt := (List.getElem?_eq_some.mp hs).1
    simp [hlt, hs, hu]
  · simp [h]

theorem getNextServer_leastConnections (fuel : Nat) (rand : ℚ) (p : Pool)
    (halg : p.algorithm = "LEAST_CONNECTIONS") :
    getNextServer fuel rand p = some (getLeastConnectionsServer p, p) := by
  unfold getNextServer
  rw [halg]
  simp only [show ¬ ("LEAST_CONNECTIONS" = "ROUND_ROBIN") by decide,
    show ¬ ("LEAST_CONNECTIONS" = "WEIGHTED_ROUND_ROBIN") by decide, if_false, if_true]

/-- With counts 1 on the first `j` UP servers and 0 on the others, the scan picks the UP server at
position `j`. -/
theorem getLeastConnectionsServer_next (q : Pool) (j r : Nat)
    (hj : (upRefs q.servers)[j]? = some r)
    (hc : ∀ i x, (upRefs q.servers)[i]? = some x →
      connAt q.servers x = if i < j then 1 else 0) :
    getLeastConnectionsServer q = some r := by
  have hne : upRefs q.servers ≠ [] := by
    intro h
    rw [h] at hj
    simp at hj
  obtain ⟨r1, hloop, hmin, l1, l2, hsplit, hfirst⟩ :=
    leastConnectionsLoop_spec q.servers (upRefs q.servers) (fun r hr => upRefs_lt hr) hne
  have hlen : ¬ (upRefs q.servers).length = 0 := fun h => hne (List.length_eq_zero.mp h)
  have hr0 : connAt q.servers r = 0 := by
    rw [hc j r hj]; simp
  have hr1 : (upRefs q.servers)[l1.length]? = some r1 := by
    rw [hsplit, List.getElem?_append_right (le_refl _), Nat.sub_self, List.getElem?_cons_zero]
  have hmin0 : connAt q.servers r1 = 0 := by
    have := hmin r (List.mem_iff_getElem?.mpr ⟨j, hj⟩)
    omega
  have hge : ¬ l1.length < j := by
    intro hlt
    have := hc l1.length r1 hr1
    rw [if_pos hlt] at this
    omega
  have hle : ¬ j < l1.length := by
    intro hlt
    have hjl : l1[j]? = some r := by
      rw [hsplit, List.getElem?_append_left hlt] at hj
      exact hj
    have := hfirst r (List.mem_iff_getElem?.mpr ⟨j, hjl⟩)
    omega
  have heq : l1.length = j := by omega
  rw [heq, hj] at hr1
  unfold getLeastConnectionsServer
  simp only [hlen, if_false, hloop]
  exact hr1.symm

theorem routeCalls_leastConnections_aux (fuel : Nat) (p0 : Pool)
    (hnd : (p0.servers.map Server.url).Nodup) :
    ∀ (reqs : List (ℚ × Option String)) (j : Nat) (q : Pool),
      q.algorithm = "LEAST_CONNECTIONS" →
      upRefs q.servers = upRefs p0.servers →
      q.servers.map Server.url = p0.servers.map Server.url →
      (∀ i x, (upRefs p0.servers)[i]? = some x →
        connAt q.servers x = if i < j then 1 else 0) →
      reqs.length + j = (upRefs p0.servers).length →
      ∃ q2, routeCalls fuel reqs q =
        some (((upRefs p0.servers).drop j).map (urlAt p0.servers), q2) := by
  intro reqs
  induction reqs with
  | nil =>
    intro j q _ _ _ _ hlen
    simp only [List.length_nil, Nat.zero_add] at hlen
    refine ⟨q, ?_⟩
    rw [hlen, List.drop_length]
    rfl
  | cons req rest ih =>
    intro j q halg hup hurl hc hlen
    simp only [List.length_cons] at hlen
    have hjlt : j < (upRefs p0.servers).length := by omega
    have hj : (upRefs p0.servers)[j]? = some (upRefs p0.servers)[j] :=
      List.getElem?_eq_getElem hjlt
    set r := (upRefs p0.servers)[j] with hr
    have hrmem : r ∈ upRefs q.servers := by
      rw [hup]; exact List.mem_iff_getElem?.mpr ⟨j, hj⟩
    obtain ⟨s, hs, hst⟩ := mem_upRefs.mp hrmem
    have hrlt : r < q.servers.length := upRefs_lt hrmem
    have hnext : getLeastConnectionsServer q = some r :=
      getLeastConnectionsServer_next q j r (by rw [hup]; exact hj) (by rw [hup]; exact hc)
    have hfind : findRef s.url q.servers = some r :=
      findRef_of_nodup q.servers r s (by rw [hurl]; exact hnd) hs
    obtain ⟨s1, hset, hconn, hu1, hst1, _, _, halg1, _, _⟩ :=
      incrementConnections_servers s.url req.2 q r s hfind hs
    have hrouter : dynamicRouter fuel req.1 req.2 q =
        some (some s.url, incrementConnections s.url req.2 q) := by
      unfold dynamicRouter
      rw [getNextServer_leastConnections fuel req.1 q halg, hnext]
      simp only [hs]
    have hurl0 : urlAt p0.servers r = some s.url := by
      unfold urlAt
      rw [← List.getElem?_map, ← hurl, List.getElem?_map, hs]
      rfl
    obtain ⟨q2, hq2⟩ := ih (j + 1) (incrementConnections s.url req.2 q)
      (by rw [halg1]; exact halg)
      (by rw [hset, upRefs_set hs hst1]; exact hup)
      (by rw [hset, map_url_set q.servers r s s1 hs hu1]; exact hurl)
      (by
        intro i x hx
        rw [hset, connAt_set q.servers r s1 hrlt x]
        by_cases hxr : x = r
        · have hij : i = j := nodup_getElem?_inj (upRefs_nodup p0.servers) hx (hxr ▸ hj)
          have h0 := hc j r hj
          rw [connAt_eq hs] at h0
          simp only [lt_irrefl, if_false] at h0
          rw [if_pos hxr, hconn, h0, hij]
          simp
        · have hij : i ≠ j := by
            intro e
            rw [e, hj] at hx
            exact hxr (Option.some.inj hx).symm
          rw [if_neg hxr, hc i x hx]
          by_cases hlt : i < j
          · rw [if_pos hlt, if_pos (by omega)]
          · rw [if_neg hlt, if_neg (by omega)])
      (by omega)
    refine ⟨q2, ?_⟩
    rw [List.drop_eq_getElem_cons hjlt, List.map_cons, ← hr, hurl0]
    simp only [routeCalls, hrouter, hq2]

theorem urlAt_inj_of_nodup (l : List Server) (hnd : (l.map Server.url).Nodup) (x y : Nat)
    (u : String) (hx : urlAt l x = some u) (hy : urlAt l y = some u) : x = y := by
  unfold urlAt at hx hy
  cases hsx : l[x]? with
  | none => rw [hsx] at hx; simp at hx
  | some sx =>
    cases hsy : l[y]? with
    | none => rw [hsy] at hy; simp at hy
    | some sy =>
      rw [hsx] at hx
      rw [hsy] at hy
      simp only [Option.map_some', Option.some.injEq] at hx hy
      have h1 := findRef_of_nodup l x sx hnd hsx
      have h2 := findRef_of_nodup l y sy hnd hsy
      rw [hx] at h1
      rw [hy, h1] at h2
      exact Option.some.inj h2

theorem count_eq_one_of_nodup_mem {α : Type} [BEq α] [LawfulBEq α] :
    ∀ (l : List α) (a : α), l.Nodup → a ∈ l → l.count a = 1 := by
  intro l
  induction l with
  | nil => intro a _ h; simp at h
  | cons b l ih =>
    intro a hnd hm
    rw [List.nodup_cons] at hnd
    rw [List.count_cons]
    by_cases hba : b = a
    · subst hba
      have : List.count b l = 0 := List.count_eq_zero.mpr hnd.1
      simp [this]
    · have hm2 : a ∈ l := by
        rcases List.mem_cons.mp hm with h | h
        · exact absurd h.symm hba
        · exact h
      have hne : ¬ (b == a) = true := by
        intro h
        exact hba (eq_of_beq h)
      simp [ih a hnd.2 hm2, hne]

/-- C8. With algorithm `LEAST_CONNECTIONS`, distinct URLs and `N` UP servers that all have zero
connections, `N` consecutive route operations (`getNextServer`, then `incrementConnections` on the
returned server, as `dynamicRouter` does) with no completion in between target the UP servers in
registry order, so every UP server is returned exactly once. -/
theorem least_connections_each_once (p : Pool) (halg : p.algorithm = "LEAST_CONNECTIONS")
    (hnd : (p.servers.map Server.url).Nodup)
    (hzero : ∀ s ∈ p.servers, s.status = Status.UP → s.connections = 0)
    (reqs : List (ℚ × Option String)) (hlen : reqs.length = (upRefs p.servers).length)
    (fuel : Nat) :
    ∃ targets p2, routeCalls fuel reqs p = some (targets, p2) ∧
      targets = (upRefs p.servers).map (urlAt p.servers) ∧
      targets.length = reqs.length ∧
      ∀ s ∈ p.servers, s.status = Status.UP → targets.count (some s.url) = 1 := by
  obtain ⟨p2, hp2⟩ := routeCalls_leastConnections_aux fuel p hnd reqs 0 p halg rfl rfl
    (by
      intro i x hx
      obtain ⟨s, hs, hst⟩ := mem_upRefs.mp (List.mem_iff_getElem?.mpr ⟨i, hx⟩)
      rw [connAt_eq hs, hzero s (List.mem_iff_getElem?.mpr ⟨x, hs⟩) hst]
      simp)
    (by omega)
  rw [List.drop_zero] at hp2
  refine ⟨_, p2, hp2, rfl, by rw [List.length_map, hlen], ?_⟩
  intro s hs hst
  obtain ⟨r, hr⟩ := List.mem_iff_getElem?.mp hs
  have hrmem : r ∈ upRefs p.servers := mem_upRefs.mpr ⟨s, hr, hst⟩
  have hur : urlAt p.servers r = some s.url := by
    unfold urlAt
    rw [hr]
    rfl
  apply count_eq_one_of_nodup_mem
  · apply List.Nodup.map_on _ (upRefs_nodup p.servers)
    intro x hx y hy hxy
    obtain ⟨sx, hsx, _⟩ := mem_upRefs.mp hx
    have hux : urlAt p.servers x = some sx.url := by
      unfold urlAt
      rw [hsx]
      rfl
    exact urlAt_inj_of_nodup p.servers hnd x y sx.url hux (hxy ▸ hux)
  · exact List.mem_map.mpr ⟨r, hrmem, hur⟩

/-- An instance of C8: three requests on the start-up pool reach each server once. -/
theorem least_connections_each_once_witness :
    ∃ targets p2,
      routeCalls 0 [(0, some "10.0.0.1"), (0, some "10.0.0.2"), (0, none)] startupPool
        = some (targets, p2) ∧
      targets = (upRefs startupPool.servers).map (urlAt startupPool.servers) ∧
      targets.length = [((0 : ℚ), some "10.0.0.1"), (0, some "10.0.0.2"), (0, none)].length ∧
      ∀ s ∈ startupPool.servers, s.status = Status.UP → targets.count (some s.url) = 1 :=
  least_connections_each_once startupPool rfl (by decide) (by decide) _ (by decide) 0

/-! ## Routed and completed requests -/

theorem totalConnections_eq (p : Pool) : totalConnections p = ledgerTotal (ledger p.servers) := by
  unfold totalConnections ledgerTotal ledger
  rw [List.map_map]
  rfl

theorem ledger_set_of_findRef (u : String) (f : Nat → Nat) :
    ∀ (l : List Server) (r : Nat) (s s1 : Server), findRef u l = some r → l[r]? = some s →
      s1.url = s.url → s1.connections = f s.connections →
        ledger (l.set r s1) = ledgerUpdate u f (ledger l) := by
  intro l
  induction l with
  | nil => intro r s s1 h; simp [findRef] at h
  | cons a l ih =>
    intro r s s1 hf hs hu hc
    unfold findRef at hf
    by_cases hau : a.url = u
    · rw [if_pos hau] at hf
      have hr : r = 0 := (Option.some.inj hf).symm
      subst hr
      simp only [List.getElem?_cons_zero, Option.some.injEq] at hs
      subst hs
      simp [ledger, ledgerUpdate, hau, hu, hc]
    · rw [if_neg hau] at hf
      cases hf2 : findRef u l with
      | none => rw [hf2] at hf; simp at hf
      | some r2 =>
        rw [hf2] at hf
        simp only [Option.map_some', Option.some.injEq] at hf
        subst hf
        simp only [List.getElem?_cons_succ] at hs
        have := ih r2 s s1 hf2 hs hu hc
        simp only [ledger] at this
        simp [ledger, ledgerUpdate, hau, this]

theorem ledgerUpdate_of_findRef_none (u : String) (f : Nat → Nat) :
    ∀ (l : List Server), findRef u l = none → ledgerUpdate u f (ledger l) = ledger l := by
  intro l
  induction l with
  | nil => intro _; rfl
  | cons a l ih =>
    intro hf
    unfold findRef at hf
    by_cases hau : a.url = u
    · rw [if_pos hau] at hf; simp at hf
    · rw [if_neg hau] at hf
      have hf2 : findRef u l = none := by
        cases h : findRef u l with
        | none => rfl
        | some r => rw [h] at hf; simp at hf
      have := ih hf2
      simp only [ledger] at this
      simp [ledger, ledgerUpdate, hau, this]

theorem findRef_some_getElem? (u : String) :
    ∀ (l : List Server) (r : Nat), findRef u l = some r → ∃ s, l[r]? = some s ∧ s.url = u := by
  intro l
  induction l with
  | nil => intro r h; simp [findRef] at h
  | cons a l ih =>
    intro r hf
    unfold findRef at hf
    by_cases hau : a.url = u
    · rw [if_pos hau] at hf
      have hr : r = 0 := (Option.some.inj hf).symm
      subst hr
      exact ⟨a, List.getElem?_cons_zero, hau⟩
    · rw [if_neg hau] at hf
      cases hf2 : findRef u l with
      | none => rw [hf2] at hf; simp at hf
      | some r2 =>
        rw [hf2] at hf
        simp only [Option.map_some', Option.some.injEq] at hf
        subst hf
        obtain ⟨s, hs, hu⟩ := ih r2 hf2
        exact ⟨s, by simpa using hs, hu⟩

theorem ledger_incrementConnections (u : String) (c : Option String) (p : Pool) :
    ledger (incrementConnections u c p).servers = ledgerUpdate u (fun n => n + 1) (ledger p.servers) := by
  cases hf : findRef u p.servers with
  | none =>
    rw [ledgerUpdate_of_findRef_none u _ p.servers hf]
    unfold incrementConnections
    simp only [hf]
  | some r =>
    obtain ⟨s, hs, _⟩ := findRef_some_getElem? u p.servers r hf
    obtain ⟨s1, hset, hconn, hu1, _⟩ := incrementConnections_servers u c p r s hf hs
    rw [hset]
    exact ledger_set_of_findRef u _ p.servers r s s1 hf hs hu1 hconn

theorem ledger_decrementConnections (u : String) (c : Option String) (p : Pool) :
    ledger (decrementConnections u c p).servers = ledgerUpdate u (fun n => n - 1) (ledger p.servers) := by
  cases hf : findRef u p.servers with
  | none =>
    rw [ledgerUpdate_of_findRef_none u _ p.servers hf]
    unfold decrementConnections
    simp only [hf]
  | some r =>
    obtain ⟨s, hs, _⟩ := findRef_some_getElem? u p.servers r hf
    by_cases hpos : s.connections > 0
    · have key : ∀ q, q = decrementConnections u c p →
          ∃ s1, q.servers = p.servers.set r s1 ∧ s1.connections = s.connections - 1 ∧
            s1.url = s.url := by
        intro q hq
        unfold decrementConnections at hq
        simp only [hf, hs, hpos, if_true] at hq
        subst hq
        exact ⟨_, rfl, rfl, rfl⟩
      obtain ⟨s1, hset, hconn, hu1⟩ := key _ rfl
      rw [hset]
      exact ledger_set_of_findRef u _ p.servers r s s1 hf hs hu1 hconn
    · have hq : decrementConnections u c p = p := by
        unfold decrementConnections
        simp only [hf, hs, hpos, if_false]
      rw [hq]
      have hset : p.servers.set r s = p.servers := by
        apply List.ext_getElem?
        intro i
        rw [List.getElem?_set]
        by_cases h : r = i
        · subst h
          have hlt := (List.getElem?_eq_some.mp hs).1
          simp [hlt, hs]
        · simp [h]
      have := ledger_set_of_findRef u (fun n => n - 1) p.servers r s s hf hs rfl (by
        beta_reduce; omega)
      rw [hset] at this
      exact this

theorem ledgerUpdate_keys (u : String) (f : Nat → Nat) :
    ∀ (v : List (String × Nat)), (ledgerUpdate u f v).map Prod.fst = v.map Prod.fst := by
  intro v
  induction v with
  | nil => rfl
  | cons e rest ih =>
    unfold ledgerUpdate
    split_ifs
    · rfl
    · rw [List.map_cons, List.map_cons, ih]

theorem ledgerGet_update_other (u u1 : String) (f : Nat → Nat) (hne : u1 ≠ u) :
    ∀ (v : List (String × Nat)), ledgerGet u1 (ledgerUpdate u f v) = ledgerGet u1 v := by
  intro v
  induction v with
  | nil => rfl
  | cons e rest ih =>
    unfold ledgerUpdate
    by_cases h : e.1 = u
    · have h1 : ¬ e.1 = u1 := fun e1 => hne (e1.symm.trans h)
      rw [if_pos h]
      unfold ledgerGet
      rw [if_neg h1, if_neg h1]
    · rw [if_neg h]
      unfold ledgerGet
      by_cases h1 : e.1 = u1
      · rw [if_pos h1, if_pos h1]
      · rw [if_neg h1, if_neg h1, ih]

theorem ledgerGet_update_same (u : String) (f : Nat → Nat) :
    ∀ (v : List (String × Nat)), u ∈ v.map Prod.fst →
      ledgerGet u (ledgerUpdate u f v) = f (ledgerGet u v) ∧
      ledgerTotal (ledgerUpdate u f v) + ledgerGet u v = ledgerTotal v + f (ledgerGet u v) := by
  intro v
  induction v with
  | nil => intro h; simp at h
  | cons e rest ih =>
    intro hmem
    unfold ledgerUpdate
    by_cases h : e.1 = u
    · simp only [h, if_true, ledgerGet, ledgerTotal, List.map_cons, List.sum_cons]
      constructor
      · trivial
      · omega
    · have hmem2 : u ∈ rest.map Prod.fst := by
        rw [List.map_cons, List.mem_cons] at hmem
        rcases hmem with h1 | h1
        · exact absurd h1.symm h
        · exact h1
      obtain ⟨h1, h2⟩ := ih hmem2
      simp only [h, if_false, ledgerGet, ledgerTotal, List.map_cons, List.sum_cons]
      unfold ledgerTotal at h2
      constructor
      · exact h1
      · omega

theorem ledgerGet_pos_mem (u : String) :
    ∀ (v : List (String × Nat)), 0 < ledgerGet u v → u ∈ v.map Prod.fst := by
  intro v
  induction v with
  | nil => intro h; simp [ledgerGet] at h
  | cons e rest ih =>
    intro h
    unfold ledgerGet at h
    rw [List.map_cons, List.mem_cons]
    by_cases h1 : e.1 = u
    · exact Or.inl h1.symm
    · rw [if_neg h1] at h
      exact Or.inr (ih h)

theorem ledger_of_frame {l1 l2 : List Server}
    (h : l1.map clearCurrentWeight = l2.map clearCurrentWeight) : ledger l1 = ledger l2 := by
  have e : ∀ l : List Server,
      ledger l = (l.map clearCurrentWeight).map (fun s => (s.url, s.connections)) := by
    intro l
    unfold ledger
    rw [List.map_map]
    rfl
  rw [e l1, e l2, h]

/-- A selection changes neither URLs nor connection counts. -/
theorem getNextServer_ledger (fuel : Nat) (rand : ℚ) (p p1 : Pool) (res : Option Nat)
    (h : getNextServer fuel rand p = some (res, p1)) : ledger p1.servers = ledger p.servers := by
  unfold getNextServer at h
  split_ifs at h
  · unfold getRoundRobinServer at h
    simp only at h
    split_ifs at h
    all_goals
      simp only [Option.some.injEq, Prod.mk.injEq] at h
      obtain ⟨_, h2⟩ := h
      subst h2
      rfl
  · unfold getWeightedRoundRobinServer at h
    simp only at h
    split_ifs at h
    · simp only [Option.some.injEq, Prod.mk.injEq] at h
      obtain ⟨_, h2⟩ := h
      subst h2
      rfl
    · split at h
      · simp at h
      · rename_i r0 i0 servers0 hloop
        simp only [Option.some.injEq, Prod.mk.injEq] at h
        obtain ⟨_, h2⟩ := h
        subst h2
        exact ledger_of_frame (wrrLoop_frame _ _ _ _ _ _ _ _ _ hloop).2
  all_goals
    simp only [Option.some.injEq, Prod.mk.injEq] at h
    obtain ⟨_, h2⟩ := h
    subst h2
    rfl

/-- What `dynamicRouter` does to URLs and connection counts: nothing when it answers `null`, one
more connection on the first server with the target URL otherwise. -/
theorem dynamicRouter_ledger (fuel : Nat) (rand : ℚ) (c : Option String) (p p2 : Pool)
    (target : Option String) (h : dynamicRouter fuel rand c p = some (target, p2)) :
    (target = none ∧ ledger p2.servers = ledger p.servers) ∨
    (∃ u, target = some u ∧ u ∈ (ledger p.servers).map Prod.fst ∧
      ledger p2.servers = ledgerUpdate u (fun n => n + 1) (ledger p.servers)) := by
  unfold dynamicRouter at h
  cases hg : getNextServer fuel rand p with
  | none => rw [hg] at h; simp at h
  | some res =>
    obtain ⟨sel, p1⟩ := res
    have hl := getNextServer_ledger fuel rand p p1 sel hg
    rw [hg] at h
    cases sel with
    | none =>
      simp only [Option.some.injEq, Prod.mk.injEq] at h
      obtain ⟨h1, h2⟩ := h
      subst h1 h2
      exact Or.inl ⟨rfl, hl⟩
    | some r =>
      simp only at h
      cases hs : p1.servers[r]? with
      | none => rw [hs] at h; simp at h
      | some s =>
        rw [hs] at h
        simp only [Option.some.injEq, Prod.mk.injEq] at h
        obtain ⟨h1, h2⟩ := h
        subst h1 h2
        refine Or.inr ⟨s.url, rfl, ?_, ?_⟩
        · rw [← hl]
          unfold ledger
          rw [List.map_map]
          exact List.mem_map.mpr ⟨s, List.mem_iff_getElem?.mpr ⟨r, hs⟩, rfl⟩
        · rw [ledger_incrementConnections, hl]

theorem pending_append (u u1 : String) (c : Option String)
    (out : List (String × Option String)) :
    pending u (out ++ [(u1, c)]) = pending u out + if u1 = u then 1 else 0 := by
  unfold pending
  rw [List.filter_append, List.length_append]
  by_cases h : u1 = u
  · simp [h]
  · simp [h]

theorem pending_eraseIdx (u : String) :
    ∀ (out : List (String × Option String)) (i : Nat) (req : String × Option String),
      out[i]? = some req →
        pending u (out.eraseIdx i) + (if req.1 = u then 1 else 0) = pending u out ∧
        (out.eraseIdx i).length + 1 = out.length := by
  intro out
  induction out with
  | nil => intro i req h; simp at h
  | cons a out ih =>
    intro i req h
    cases i with
    | zero =>
      simp only [List.getElem?_cons_zero, Option.some.injEq] at h
      subst h
      unfold pending
      simp only [List.eraseIdx_cons_zero, List.filter_cons, List.length_cons]
      split_ifs <;> simp_all
    | succ i =>
      simp only [List.getElem?_cons_succ] at h
      obtain ⟨h1, h2⟩ := ih i req h
      unfold pending at h1 ⊢
      simp only [List.eraseIdx_cons_succ, List.filter_cons, List.length_cons]
      constructor
      · split_ifs <;> simp_all
      · omega

theorem ledger_set_same (l : List Server) (r : Nat) (s s1 : Server) (hs : l[r]? = some s)
    (hu : s1.url = s.url) (hc : s1.connections = s.connections) :
    ledger (l.set r s1) = ledger l := by
  unfold ledger
  apply List.ext_getElem?
  intro i
  rw [List.getElem?_map, List.getElem?_map, List.getElem?_set]
  by_cases h : r = i
  · subst h
    have hlt := (List.getElem?_eq_some.mp hs).1
    simp [hlt, hs, hu, hc]
  · simp [h]

theorem ledger_updateRequestMetrics (u : String) (rt : ℚ) (ok : Bool) (p : Pool) :
    ledger (updateRequestMetrics u rt ok p).servers = ledger p.servers := by
  unfold updateRequestMetrics
  simp only
  cases hf : findRef u p.servers with
  | none => rfl
  | some r =>
    cases hs : p.servers[r]? with
    | none => simp only [hs]
    | some s =>
      simp only [hs]
      cases ok with
      | true =>
        simp only [if_true]
        exact ledger_set_same p.servers r s _ hs rfl rfl
      | false =>
        simp only [Bool.false_eq_true, if_false]
        exact ledger_set_same p.servers r s _ hs rfl rfl

theorem ledger_onProxyRes (host : String) (port : Option Nat) (u : String) (c : Option String)
    (rt : ℚ) (code now : Nat) (p : Pool) :
    ledger (onProxyRes host port u c rt code now p).servers =
      ledgerUpdate (proxyTargetUrl host port) (fun n => n - 1) (ledger p.servers) := by
  unfold onProxyRes
  simp only
  split
  · unfold updateAlgorithmMetrics
    simp only
    rw [ledger_updateRequestMetrics, ledger_decrementConnections]
  · rw [ledger_decrementConnections]

theorem ledger_onError (u : String) (c : Option String) (now : Nat) (p : Pool) (hu : u ≠ "")
    (hc : (truthyClient c).isSome = true) :
    ledger (onError u c now p).servers = ledgerUpdate u (fun n => n - 1) (ledger p.servers) := by
  unfold onError
  simp only [hu, hc, ne_eq, not_false_eq_true, if_true]
  rw [ledger_decrementConnections]
  unfold updateAlgorithmMetrics
  simp only
  rw [ledger_updateRequestMetrics]

/-- Settling a request on its recorded target keeps the invariant of routing. -/
theorem LedgerInv_settle (v : List (String × Nat)) (out : List (String × Option String))
    (i : Nat) (req : String × Option String) (hinv : LedgerInv v out) (hreq : out[i]? = some req) :
    LedgerInv (ledgerUpdate req.1 (fun n => n - 1) v) (out.eraseIdx i) := by
  obtain ⟨htot, hpend⟩ := hinv
  obtain ⟨hp1, hlen⟩ := (pending_eraseIdx req.1 out i req hreq)
  rw [if_pos rfl] at hp1
  have hge := hpend req.1
  have hmem : req.1 ∈ v.map Prod.fst := ledgerGet_pos_mem req.1 _ (by omega)
  obtain ⟨h1, h2⟩ := ledgerGet_update_same req.1 (fun n => n - 1) _ hmem
  constructor
  · omega
  · intro u1
    by_cases hu : req.1 = u1
    · subst hu
      rw [h1]
      omega
    · rw [ledgerGet_update_other req.1 u1 _ (fun e => hu e.symm)]
      have h3 := (pending_eraseIdx u1 out i req hreq).1
      rw [if_neg hu] at h3
      have := hpend u1
      omega

theorem step_inv (fuel : Nat) (op : Op) (st st1 : Pool × List (String × Option String))
    (hinv : LedgerInv (ledger st.1.servers) st.2) (hal : OpAligned st op)
    (h : step fuel op st = some st1) :
    LedgerInv (ledger st1.1.servers) st1.2 := by
  cases op with
  | route rand clientIP =>
    obtain ⟨htot, hpend⟩ := hinv
    unfold step at h
    simp only at h
    cases hd : dynamicRouter fuel rand clientIP st.1 with
    | none => rw [hd] at h; simp at h
    | some res =>
      obtain ⟨target, p1⟩ := res
      rw [hd] at h
      rcases dynamicRouter_ledger fuel rand clientIP st.1 p1 target hd with
        ⟨ht, hl⟩ | ⟨u, ht, hmem, hl⟩
      · subst ht
        simp only [Option.some.injEq] at h
        subst h
        simp only [hl]
        exact ⟨htot, hpend⟩
      · subst ht
        simp only [Option.some.injEq] at h
        subst h
        simp only [hl]
        obtain ⟨h1, h2⟩ := ledgerGet_update_same u (fun n => n + 1) _ hmem
        constructor
        · rw [List.length_append, List.length_singleton]
          omega
        · intro u1
          rw [pending_append]
          by_cases hu : u = u1
          · subst hu
            rw [if_pos rfl, h1]
            have := hpend u
            omega
          · rw [if_neg hu, ledgerGet_update_other u u1 _ (fun e => hu e.symm)]
            have := hpend u1
            omega
  | proxyRes i host port rt code now =>
    unfold step at h
    simp only at h
    cases hreq : st.2[i]? with
    | none =>
      rw [hreq] at h
      simp only [Option.some.injEq] at h
      subst h
      exact hinv
    | some req =>
      rw [hreq] at h
      simp only [Option.some.injEq] at h
      subst h
      simp only [ledger_onProxyRes]
      rw [hal req hreq]
      exact LedgerInv_settle _ _ i req hinv hreq
  | error i now =>
    unfold step at h
    simp only at h
    cases hreq : st.2[i]? with
    | none =>
      rw [hreq] at h
      simp only [Option.some.injEq] at h
      subst h
      exact hinv
    | some req =>
      rw [hreq] at h
      simp only [Option.some.injEq] at h
      subst h
      obtain ⟨hu, hc⟩ := hal req hreq
      simp only [ledger_onError req.1 req.2 now st.1 hu hc]
      exact LedgerInv_settle _ _ i req hinv hreq

theorem run_inv (fuel : Nat) : ∀ (ops : List Op) (st st1 : Pool × List (String × Option String)),
    LedgerInv (ledger st.1.servers) st.2 → RunAligned fuel ops st →
      run fuel ops st = some st1 → LedgerInv (ledger st1.1.servers) st1.2 := by
  intro ops
  induction ops with
  | nil =>
    intro st st1 hinv _ h
    simp only [run, Option.some.injEq] at h
    subst h
    exact hinv
  | cons op ops ih =>
    intro st st1 hinv hal h
    unfold run at h
    cases hs : step fuel op st with
    | none => rw [hs] at h; simp at h
    | some st2 =>
      rw [hs] at h
      exact ih st2 st1 (step_inv fuel op st st2 hinv hal.1 hs) (hal.2 st2 hs) h

/-- Start from a pool whose connection counts are all 0 and no request in flight.  Along every
run in which each response is settled on the recorded target of its request (the URL
`onProxyRes` rebuilds is `req._targetUrl`) and each failure has a truthy target and client, the
sum of the servers' connection counts equals the number of routed but not completed requests. -/
theorem connections_sum_eq_in_flight_of_aligned (p : Pool)
    (hzero : ∀ s ∈ p.servers, s.connections = 0)
    (fuel : Nat) (ops : List Op) (p2 : Pool) (out : List (String × Option String))
    (hal : RunAligned fuel ops (p, []))
    (h : run fuel ops (p, []) = some (p2, out)) :
    totalConnections p2 = out.length := by
  have h0 : ledgerTotal (ledger p.servers) = 0 := by
    unfold ledgerTotal ledger
    rw [List.map_map]
    apply List.sum_eq_zero
    intro x hx
    obtain ⟨s, hs, rfl⟩ := List.mem_map.mp hx
    exact hzero s hs
  have hinit : LedgerInv (ledger (p, ([] : List (String × Option String))).1.servers)
      (p, ([] : List (String × Option String))).2 := by
    refine ⟨h0, ?_⟩
    intro u
    simp [pending]
  have := run_inv fuel ops (p, []) (p2, out) hinit hal h
  rw [totalConnections_eq]
  exact this.1

/-- An instance of the aligned runs: on the start-up pool two requests are routed, the first one
fails, and the response to the second one arrives from `localhost` with the port 5002 of its
target on the outgoing request. -/
theorem connections_sum_eq_in_flight_of_aligned_instance :
    ∃ p2 out,
      run 0 [Op.route 0 (some "10.0.0.1"), Op.route 0 (some "10.0.0.2"), Op.error 0 1,
        Op.proxyRes 0 "localhost" (some 5002) 12 200 2] (startupPool, []) = some (p2, out) ∧
      totalConnections p2 = out.length := by
  refine ⟨_, _, rfl, ?_⟩
  refine connections_sum_eq_in_flight_of_aligned startupPool (by decide) 0
    [Op.route 0 (some "10.0.0.1"), Op.route 0 (some "10.0.0.2"), Op.error 0 1,
      Op.proxyRes 0 "localhost" (some 5002) 12 200 2] _ _ ?_ rfl
  refine ⟨trivial, fun st1 h1 => ?_⟩
  have e1 : step 0 (Op.route 0 (some "10.0.0.1")) (startupPool, []) = some
      (((dynamicRouter 0 0 (some "10.0.0.1") startupPool).getD (none, startupPool)).2,
        [("http://localhost:5001", some "10.0.0.1")]) := rfl
  rw [e1] at h1
  cases h1
  refine ⟨trivial, fun st2 h2 => ?_⟩
  have e2 : step 0 (Op.route 0 (some "10.0.0.2"))
      (((dynamicRouter 0 0 (some "10.0.0.1") startupPool).getD (none, startupPool)).2,
        [("http://localhost:5001", some "10.0.0.1")]) = some
      (((dynamicRouter 0 0 (some "10.0.0.2")
          ((dynamicRouter 0 0 (some "10.0.0.1") startupPool).getD (none, startupPool)).2).getD
            (none, startupPool)).2,
        [("http://localhost:5001", some "10.0.0.1"),
          ("http://localhost:5002", some "10.0.0.2")]) := rfl
  rw [e2] at h2
  cases h2
  refine ⟨?_, fun st3 h3 => ?_⟩
  · intro req hreq
    cases hreq
    exact ⟨by decide, rfl⟩
  have e3 : step 0 (Op.error 0 1)
      (((dynamicRouter 0 0 (some "10.0.0.2")
          ((dynamicRouter 0 0 (some "10.0.0.1") startupPool).getD (none, startupPool)).2).getD
            (none, startupPool)).2,
        [("http://localhost:5001", some "10.0.0.1"),
          ("http://localhost:5002", some "10.0.0.2")]) = some
      (onError "http://localhost:5001" (some "10.0.0.1") 1
        ((dynamicRouter 0 0 (some "10.0.0.2")
          ((dynamicRouter 0 0 (some "10.0.0.1") startupPool).getD (none, startupPool)).2).getD
            (none, startupPool)).2,
        [("http://localhost:5002", some "10.0.0.2")]) := rfl
  rw [e3] at h3
  cases h3
  refine ⟨?_, fun _ _ => trivial⟩
  intro req hreq
  cases hreq
  decide

/-- C9 (failing input): on the start-up pool, whose three servers are UP with no connection, one
request is routed to `http://localhost:5001` and its response arrives.  `onProxyRes` rebuilds the
URL `http://localhost:80` from the outgoing request, which carries no port; this URL names no
server, so no count is decremented: no request is in flight and the connection counts sum
to 1.  The same request ending in `onError`, which decrements on `req._targetUrl`, leaves the
sum at 0. -/
theorem onProxyRes_connections_leak :
    (∀ s ∈ startupPool.servers, s.status = Status.UP ∧ s.connections = 0) ∧
    (∃ p1, step 0 (Op.route 0 (some "10.0.0.1")) (startupPool, []) =
      some (p1, [("http://localhost:5001", some "10.0.0.1")])) ∧
    proxyTargetUrl "localhost" none = "http://localhost:80" ∧
    (∃ p2 out,
      run 0 [Op.route 0 (some "10.0.0.1"), Op.proxyRes 0 "localhost" none 12 200 1]
        (startupPool, []) = some (p2, out) ∧
      out.length = 0 ∧ totalConnections p2 = 1) ∧
    (∃ p3 out3,
      run 0 [Op.route 0 (some "10.0.0.1"), Op.error 0 1] (startupPool, []) = some (p3, out3) ∧
      out3.length = 0 ∧ totalConnections p3 = 0) := by
  refine ⟨by decide, ⟨_, rfl⟩, by decide, ⟨_, _, rfl, rfl, ?_⟩, ⟨_, _, rfl, rfl, ?_⟩⟩
  · decide
  · decide

/-! ## Reset of the metrics -/

/-- C11. After `resetMetrics`, for every pool state: every server has connections, totalRequests,
successfulRequests, failedRequests, totalResponseTime and avgResponseTime equal to 0 and an empty
client list; the global requestCount and totalResponseTime are 0; the client map is empty; and the
URLs (in order), the weights and the health statuses of the registry are unchanged. -/
theorem resetMetrics_zeroes_counters (p : Pool) :
    (∀ s ∈ (resetMetrics p).servers,
      s.connections = 0 ∧ s.totalRequests = 0 ∧ s.successfulRequests = 0 ∧
      s.failedRequests = 0 ∧ s.totalResponseTime = 0 ∧ s.avgResponseTime = 0 ∧
      s.clients = []) ∧
    (resetMetrics p).requestCount = 0 ∧
    (resetMetrics p).totalResponseTime = 0 ∧
    (resetMetrics p).clientConnections = [] ∧
    (resetMetrics p).servers.map Server.url = p.servers.map Server.url ∧
    (resetMetrics p).servers.map Server.weight = p.servers.map Server.weight ∧
    (resetMetrics p).servers.map Server.status = p.servers.map Server.status := by
  refine ⟨?_, rfl, rfl, rfl, ?_, ?_, ?_⟩
  · intro s hs
    unfold resetMetrics at hs
    obtain ⟨s0, _, rfl⟩ := List.mem_map.mp hs
    exact ⟨rfl, rfl, rfl, rfl, rfl, rfl, rfl⟩
  · unfold resetMetrics
    rw [List.map_map]
    rfl
  · unfold resetMetrics
    rw [List.map_map]
    rfl
  · unfold resetMetrics
    rw [List.map_map]
    rfl

/-- C12, as stated, fails: after one recorded outcome under the default algorithm, `resetMetrics`
leaves the record of `LEAST_CONNECTIONS` with one request, one success and a response-time sum
of 10. -/
theorem resetMetrics_algorithmMetrics_counterexample :
    ∃ m, metricsGet "LEAST_CONNECTIONS"
        (resetMetrics (updateAlgorithmMetrics 10 true 0 initialPool)).algorithmMetrics = some m ∧
      m.totalRequests = 1 ∧ m.successfulRequests = 1 ∧ m.totalResponseTime = 10 := by
  refine ⟨recordOutcome 10 true 0 (calculateLoadDistributionScore initialPool) emptyMetrics,
    rfl, rfl, rfl, ?_⟩
  simp [recordOutcome, emptyMetrics]

/-- C12, amended. `resetMetrics` does not touch the Algorithm Metrics: for every pool state the
map of records after the call is the map before it, and so is the active algorithm. -/
theorem resetMetrics_keeps_algorithmMetrics (p : Pool) :
    (resetMetrics p).algorithmMetrics = p.algorithmMetrics ∧
    (resetMetrics p).algorithm = p.algorithm ∧
    ∀ key, metricsGet key (resetMetrics p).algorithmMetrics =
      metricsGet key p.algorithmMetrics :=
  ⟨rfl, rfl, fun _ => rfl⟩

/-! ## Registration and deregistration -/

/-- C14, as stated, fails: register `"A"`, route the client `"c"` to it, deregister `"A"`; the
client map still maps `"c"` to `"A"` although no server has this URL any more. -/
theorem removeServer_map_counterexample :
    (runOps [PoolOp.addServer "A" 1, PoolOp.incrementConnections "A" (some "c"),
        PoolOp.removeServer "A"] initialPool).servers = [] ∧
    mapGet "c" (runOps [PoolOp.addServer "A" 1, PoolOp.incrementConnections "A" (some "c"),
        PoolOp.removeServer "A"] initialPool).clientConnections = some "A" := by
  constructor <;> rfl

/-- C14, amended. After `removeServer(url)`, for every pool state: no server with that URL is in
the registry; the servers with another URL all remain, unchanged and in their relative order; and
the client map, like every other field of the pool, is left as it was. -/
theorem removeServer_keeps_map (url : String) (p : Pool) :
    (∀ s ∈ (removeServer url p).servers, s.url ≠ url) ∧
    (∀ s ∈ p.servers, s.url ≠ url → s ∈ (removeServer url p).servers) ∧
    List.Sublist (removeServer url p).servers p.servers ∧
    (removeServer url p).servers = p.servers.filter (fun s => decide (s.url ≠ url)) ∧
    (removeServer url p).clientConnections = p.clientConnections ∧
    removeServer url p = { p with servers := (removeServer url p).servers } := by
  refine ⟨?_, ?_, ?_, rfl, rfl, rfl⟩
  · intro s hs
    unfold removeServer at hs
    have := (List.mem_filter.mp hs).2
    simpa using this
  · intro s hs hne
    unfold removeServer
    exact List.mem_filter.mpr ⟨hs, by simpa using hne⟩
  · unfold removeServer
    exact List.filter_sublist _

theorem findRef_eq_none_iff (url : String) :
    ∀ (l : List Server), findRef url l = none ↔ ∀ s ∈ l, s.url ≠ url := by
  intro l
  induction l with
  | nil => simp [findRef]
  | cons a l ih =>
    unfold findRef
    by_cases h : a.url = url
    · simp [h]
    · rw [if_neg h]
      constructor
      · intro hf s hs
        have hf2 : findRef url l = none := by
          cases h2 : findRef url l with
          | none => rfl
          | some r => rw [h2] at hf; simp at hf
        rcases List.mem_cons.mp hs with rfl | hs
        · exact h
        · exact ih.mp hf2 s hs
      · intro hall
        have := ih.mpr (fun s hs => hall s (List.mem_cons_of_mem _ hs))
        rw [this]
        rfl

theorem findRef_isSome_iff (url : String) (l : List Server) :
    (∃ r, findRef url l = some r) ↔ ∃ s ∈ l, s.url = url := by
  constructor
  · rintro ⟨r, hr⟩
    obtain ⟨s, hs, hu⟩ := findRef_some_getElem? url l r hr
    exact ⟨s, List.mem_iff_getElem?.mpr ⟨r, hs⟩, hu⟩
  · rintro ⟨s, hs, hu⟩
    cases h : findRef url l with
    | none => exact absurd hu ((findRef_eq_none_iff url l).mp h s hs)
    | some r => exact ⟨r, rfl⟩

theorem addServer_of_registered (url : String) (w : Int) (p : Pool)
    (h : ∃ s ∈ p.servers, s.url = url) : addServer url w p = p := by
  obtain ⟨r, hr⟩ := (findRef_isSome_iff url p.servers).mpr h
  unfold addServer
  rw [hr]

theorem addServer_of_fresh (url : String) (w : Int) (p : Pool)
    (h : ∀ s ∈ p.servers, s.url ≠ url) :
    addServer url w p = { p with servers := p.servers ++ [newServer url w] } := by
  have := (findRef_eq_none_iff url p.servers).mpr h
  unfold addServer
  rw [this]

/-! ## What each operation does to the registry -/

/-- A selection changes current weights and cursors only. -/
theorem getNextServer_frame (fuel : Nat) (rand : ℚ) (p p1 : Pool) (res : Option Nat)
    (h : getNextServer fuel rand p = some (res, p1)) :
    p1.servers.map clearCurrentWeight = p.servers.map clearCurrentWeight ∧
    p1.clientConnections = p.clientConnections ∧
    p1.algorithmMetrics = p.algorithmMetrics ∧
    p1.algorithm = p.algorithm := by
  unfold getNextServer at h
  split_ifs at h
  · unfold getRoundRobinServer at h
    simp only at h
    split_ifs at h
    all_goals
      simp only [Option.some.injEq, Prod.mk.injEq] at h
      obtain ⟨_, h2⟩ := h
      subst h2
      exact ⟨rfl, rfl, rfl, rfl⟩
  · unfold getWeightedRoundRobinServer at h
    simp only at h
    split_ifs at h
    · simp only [Option.some.injEq, Prod.mk.injEq] at h
      obtain ⟨_, h2⟩ := h
      subst h2
      exact ⟨rfl, rfl, rfl, rfl⟩
    · split at h
      · simp at h
      · rename_i r0 i0 servers0 hloop
        simp only [Option.some.injEq, Prod.mk.injEq] at h
        obtain ⟨_, h2⟩ := h
        subst h2
        exact ⟨(wrrLoop_frame _ _ _ _ _ _ _ _ _ hloop).2, rfl, rfl, rfl⟩
  all_goals
    simp only [Option.some.injEq, Prod.mk.injEq] at h
    obtain ⟨_, h2⟩ := h
    subst h2
    exact ⟨rfl, rfl, rfl, rfl⟩

theorem checkServerHealth_shape (r : Nat) (ok : Bool) (p : Pool) :
    checkServerHealth r ok p = p ∨
    ∃ s, p.servers[r]? = some s ∧
      checkServerHealth r ok p =
        { p with
          servers := p.servers.set r { s with status := if ok then Status.UP else Status.DOWN } } := by
  cases h : p.servers[r]? with
  | none =>
    refine Or.inl ?_
    unfold checkServerHealth
    simp only [h]
  | some s =>
    refine Or.inr ⟨s, rfl, ?_⟩
    unfold checkServerHealth
    simp only [h]

theorem patchServerWeight_shape (url : String) (w : Int) (p : Pool) :
    patchServerWeight url w p = p ∨
    ∃ r s, findRef url p.servers = some r ∧ p.servers[r]? = some s ∧
      patchServerWeight url w p =
        { p with servers := p.servers.set r { s with weight := w } } := by
  cases hf : findRef url p.servers with
  | none =>
    refine Or.inl ?_
    unfold patchServerWeight
    simp only [hf]
  | some r =>
    obtain ⟨s, hs, _⟩ := findRef_some_getElem? url p.servers r hf
    refine Or.inr ⟨r, s, rfl, hs, ?_⟩
    unfold patchServerWeight
    simp only [hf, hs]

theorem updateRequestMetrics_shape (url : String) (rt : ℚ) (success : Bool) (p : Pool) :
    (updateRequestMetrics url rt success p).clientConnections = p.clientConnections ∧
    (updateRequestMetrics url rt success p).algorithmMetrics = p.algorithmMetrics ∧
    (updateRequestMetrics url rt success p).algorithm = p.algorithm ∧
    ((updateRequestMetrics url rt success p).servers = p.servers ∨
      ∃ r s, findRef url p.servers = some r ∧ p.servers[r]? = some s ∧
        ((success = true ∧ (updateRequestMetrics url rt success p).servers = p.servers.set r
            { s with
              totalRequests := s.totalRequests + 1
              successfulRequests := s.successfulRequests + 1
              totalResponseTime := s.totalResponseTime + rt
              avgResponseTime :=
                (s.totalResponseTime + rt) / ((s.successfulRequests + 1 : Nat) : ℚ) }) ∨
         (success = false ∧ (updateRequestMetrics url rt success p).servers = p.servers.set r
            { s with
              totalRequests := s.totalRequests + 1
              failedRequests := s.failedRequests + 1 }))) := by
  refine ⟨rfl, rfl, rfl, ?_⟩
  cases hf : findRef url p.servers with
  | none =>
    refine Or.inl ?_
    unfold updateRequestMetrics
    simp only [hf]
  | some r =>
    obtain ⟨s, hs, _⟩ := findRef_some_getElem? url p.servers r hf
    refine Or.inr ⟨r, s, rfl, hs, ?_⟩
    cases success with
    | true =>
      refine Or.inl ⟨rfl, ?_⟩
      unfold updateRequestMetrics
      simp only [hf, hs, if_true]
    | false =>
      refine Or.inr ⟨rfl, ?_⟩
      unfold updateRequestMetrics
      simp only [hf, hs]
      rfl

theorem incrementConnections_shape (url : String) (clientIP : Option String) (p : Pool) :
    (findRef url p.servers = none ∧ incrementConnections url clientIP p = p) ∨
    ∃ r s, findRef url p.servers = some r ∧ p.servers[r]? = some s ∧
      ((truthyClient clientIP = none ∧ incrementConnections url clientIP p =
          { p with
            servers := p.servers.set r { s with connections := s.connections + 1 } }) ∨
       (∃ c, truthyClient clientIP = some c ∧ incrementConnections url clientIP p =
          { p with
            servers := p.servers.set r
              { s with
                connections := s.connections + 1
                clients := if s.clients.contains c then s.clients else s.clients ++ [c] }
            clientConnections := mapSet c url p.clientConnections })) := by
  cases hf : findRef url p.servers with
  | none =>
    refine Or.inl ⟨rfl, ?_⟩
    unfold incrementConnections
    simp only [hf]
  | some r =>
    obtain ⟨s, hs, _⟩ := findRef_some_getElem? url p.servers r hf
    refine Or.inr ⟨r, s, rfl, hs, ?_⟩
    cases ht : truthyClient clientIP with
    | none =>
      refine Or.inl ⟨rfl, ?_⟩
      unfold incrementConnections
      simp only [hf, hs, ht]
    | some c =>
      refine Or.inr ⟨c, rfl, ?_⟩
      unfold incrementConnections
      simp only [hf, hs, ht]

theorem decrementConnections_shape (url : String) (clientIP : Option String) (p : Pool) :
    ((findRef url p.servers = none ∨
        ∃ r s, findRef url p.servers = some r ∧ p.servers[r]? = some s ∧ s.connections = 0) ∧
      decrementConnections url clientIP p = p) ∨
    ∃ r s, findRef url p.servers = some r ∧ p.servers[r]? = some s ∧ 0 < s.connections ∧
      (((truthyClient clientIP = none ∨ s.connections - 1 ≠ 0) ∧
        decrementConnections url clientIP p =
          { p with
            servers := p.servers.set r { s with connections := s.connections - 1 } }) ∨
       (∃ c, truthyClient clientIP = some c ∧ s.connections - 1 = 0 ∧
        decrementConnections url clientIP p =
          { p with
            servers := p.servers.set r
              { s with
                connections := s.connections - 1
                clients := s.clients.filter (fun x => decide (x ≠ c)) }
            clientConnections := mapDelete c p.clientConnections })) := by
  cases hf : findRef url p.servers with
  | none =>
    refine Or.inl ⟨Or.inl rfl, ?_⟩
    unfold decrementConnections
    simp only [hf]
  | some r =>
    obtain ⟨s, hs, _⟩ := findRef_some_getElem? url p.servers r hf
    by_cases hpos : s.connections > 0
    · refine Or.inr ⟨r, s, rfl, hs, hpos, ?_⟩
      cases ht : truthyClient clientIP with
      | none =>
        refine Or.inl ⟨Or.inl rfl, ?_⟩
        unfold decrementConnections
        simp only [hf, hs, hpos, if_true, ht]
      | some c =>
        by_cases hz : s.connections - 1 = 0
        · refine Or.inr ⟨c, rfl, hz, ?_⟩
          unfold decrementConnections
          simp only [hf, hs, hpos, if_true, ht, hz]
        · refine Or.inl ⟨Or.inr hz, ?_⟩
          unfold decrementConnections
          simp only [hf, hs, hpos, if_true, ht, hz, if_false]
    · refine Or.inl ⟨Or.inr ⟨r, s, rfl, hs, by omega⟩, ?_⟩
      unfold decrementConnections
      simp only [hf, hs, hpos, if_false]

theorem ServerStep_url {s s1 : Server} (h : ServerStep s s1) : s1.url = s.url := by
  rcases h with ⟨st, rfl⟩ | ⟨w, rfl⟩ | ⟨cl, rfl⟩ | ⟨_, cl, rfl⟩ | ⟨rt, rfl⟩ | rfl <;> rfl

/-- Every operation leaves the registry as it is up to current weights, or writes one server,
or appends a fresh server, or filters one URL out, or resets every server. -/
theorem applyOp_servers (op : PoolOp) (p : Pool) :
    (applyOp op p).servers.map clearCurrentWeight = p.servers.map clearCurrentWeight ∨
    (∃ r s s1, p.servers[r]? = some s ∧ (applyOp op p).servers = p.servers.set r s1 ∧
      ServerStep s s1) ∨
    (∃ url w, (∀ s ∈ p.servers, s.url ≠ url) ∧
      (applyOp op p).servers = p.servers ++ [newServer url w]) ∨
    (∃ url, (applyOp op p).servers = p.servers.filter (fun s => decide (s.url ≠ url))) ∨
    (applyOp op p).servers = p.servers.map resetServer := by
  cases op with
  | addServer url w =>
    by_cases h : ∃ s ∈ p.servers, s.url = url
    · exact Or.inl (by simp only [applyOp, addServer_of_registered url w p h])
    · refine Or.inr (Or.inr (Or.inl ⟨url, w, ?_, ?_⟩))
      · intro s hs hu
        exact h ⟨s, hs, hu⟩
      · simp only [applyOp]
        rw [addServer_of_fresh url w p (fun s hs hu => h ⟨s, hs, hu⟩)]
  | removeServer url => exact Or.inr (Or.inr (Or.inr (Or.inl ⟨url, rfl⟩)))
  | setAlgorithm a =>
    refine Or.inl ?_
    simp only [applyOp, setAlgorithm]
    split <;> rfl
  | checkServerHealth r ok =>
    rcases checkServerHealth_shape r ok p with h | ⟨s, hs, h⟩
    · exact Or.inl (by simp only [applyOp, h])
    · refine Or.inr (Or.inl ⟨r, s, _, hs, by simp only [applyOp, h]; rfl, Or.inl ⟨_, rfl⟩⟩)
  | getNextServer fuel rand =>
    refine Or.inl ?_
    simp only [applyOp]
    cases h : getNextServer fuel rand p with
    | none => rfl
    | some res => exact (getNextServer_frame fuel rand p res.2 res.1 h).1
  | incrementConnections url c =>
    rcases incrementConnections_shape url c p with ⟨_, h⟩ | ⟨r, s, _, hs, ⟨_, h⟩ | ⟨c1, _, h⟩⟩
    · exact Or.inl (by simp only [applyOp, h])
    · exact Or.inr (Or.inl ⟨r, s, _, hs, by simp only [applyOp, h],
        Or.inr (Or.inr (Or.inl ⟨s.clients, rfl⟩))⟩)
    · exact Or.inr (Or.inl ⟨r, s, _, hs, by simp only [applyOp, h]; rfl,
        Or.inr (Or.inr (Or.inl ⟨_, rfl⟩))⟩)
  | decrementConnections url c =>
    rcases decrementConnections_shape url c p with
      ⟨_, h⟩ | ⟨r, s, _, hs, hpos, ⟨_, h⟩ | ⟨c1, _, _, h⟩⟩
    · exact Or.inl (by simp only [applyOp, h])
    · exact Or.inr (Or.inl ⟨r, s, _, hs, by simp only [applyOp, h],
        Or.inr (Or.inr (Or.inr (Or.inl ⟨hpos, s.clients, rfl⟩)))⟩)
    · exact Or.inr (Or.inl ⟨r, s, _, hs, by simp only [applyOp, h]; rfl,
        Or.inr (Or.inr (Or.inr (Or.inl ⟨hpos, _, rfl⟩)))⟩)
  | updateRequestMetrics url rt success =>
    rcases (updateRequestMetrics_shape url rt success p).2.2.2 with
      h | ⟨r, s, _, hs, ⟨_, h⟩ | ⟨_, h⟩⟩
    · exact Or.inl (by simp only [applyOp, h])
    · exact Or.inr (Or.inl ⟨r, s, _, hs, by simp only [applyOp, h],
        Or.inr (Or.inr (Or.inr (Or.inr (Or.inl ⟨rt, rfl⟩))))⟩)
    · exact Or.inr (Or.inl ⟨r, s, _, hs, by simp only [applyOp, h],
        Or.inr (Or.inr (Or.inr (Or.inr (Or.inr rfl))))⟩)
  | updateAlgorithmMetrics rt success now => exact Or.inl rfl
  | resetMetrics => exact Or.inr (Or.inr (Or.inr (Or.inr rfl)))
  | patchServerWeight url w =>
    rcases patchServerWeight_shape url w p with h | ⟨r, s, _, hs, h⟩
    · exact Or.inl (by simp only [applyOp, h])
    · exact Or.inr (Or.inl ⟨r, s, _, hs, by simp only [applyOp, h]; rfl, Or.inr (Or.inl ⟨_, rfl⟩)⟩)

/-- Induction over the reachable states. -/
theorem reachable_induction (Inv : Pool → Prop) (h0 : Inv initialPool)
    (hstep : ∀ op q, Inv q → Inv (applyOp op q)) : ∀ p, Reachable p → Inv p := by
  have key : ∀ (ops : List PoolOp) (q : Pool), Inv q → Inv (runOps ops q) := by
    intro ops
    induction ops with
    | nil => intro q hq; exact hq
    | cons op ops ih =>
      intro q hq
      exact ih (applyOp op q) (hstep op q hq)
  rintro p ⟨ops, rfl⟩
  exact key ops initialPool h0

theorem mem_set_cases {l : List Server} {r : Nat} {s1 x : Server}
    (hx : x ∈ l.set r s1) : x = s1 ∨ x ∈ l := by
  rcases List.mem_or_eq_of_mem_set hx with h | h
  · exact Or.inr h
  · exact Or.inl h

/-- A property of single servers that no write breaks holds of every server after every
operation. -/
theorem applyOp_forall_servers (P : Server → Prop)
    (hclear : ∀ s s0, clearCurrentWeight s = clearCurrentWeight s0 → P s0 → P s)
    (hstep : ∀ s s1, ServerStep s s1 → P s → P s1)
    (hnew : ∀ url w, P (newServer url w))
    (hreset : ∀ s, P (resetServer s))
    (op : PoolOp) (p : Pool) (h : ∀ s ∈ p.servers, P s) :
    ∀ s ∈ (applyOp op p).servers, P s := by
  intro x hx
  rcases applyOp_servers op p with hf | ⟨r, s, s1, hs, hset, hst⟩ | ⟨url, w, _, happ⟩ |
    ⟨url, hfil⟩ | hres
  · have hm : clearCurrentWeight x ∈ (applyOp op p).servers.map clearCurrentWeight :=
      List.mem_map.mpr ⟨x, hx, rfl⟩
    rw [hf] at hm
    obtain ⟨x0, hx0, he⟩ := List.mem_map.mp hm
    exact hclear x x0 he.symm (h x0 hx0)
  · rw [hset] at hx
    rcases mem_set_cases hx with rfl | hx
    · exact hstep s x hst (h s (List.mem_iff_getElem?.mpr ⟨r, hs⟩))
    · exact h x hx
  · rw [happ] at hx
    rcases List.mem_append.mp hx with hx | hx
    · exact h x hx
    · rw [List.mem_singleton] at hx
      rw [hx]
      exact hnew url w
  · rw [hfil] at hx
    exact h x (List.mem_filter.mp hx).1
  · rw [hres] at hx
    obtain ⟨x0, _, rfl⟩ := List.mem_map.mp hx
    exact hreset x0

theorem reachable_forall_servers (P : Server → Prop)
    (hclear : ∀ s s0, clearCurrentWeight s = clearCurrentWeight s0 → P s0 → P s)
    (hstep : ∀ s s1, ServerStep s s1 → P s → P s1)
    (hnew : ∀ url w, P (newServer url w))
    (hreset : ∀ s, P (resetServer s)) :
    ∀ p, Reachable p → ∀ s ∈ p.servers, P s :=
  reachable_induction (fun p => ∀ s ∈ p.servers, P s)
    (by intro s hs; simp [initialPool] at hs)
    (fun op q hq => applyOp_forall_servers P hclear hstep hnew hreset op q hq)

theorem applyOp_urls_nodup (op : PoolOp) (p : Pool) (h : (p.servers.map Server.url).Nodup) :
    ((applyOp op p).servers.map Server.url).Nodup := by
  rcases applyOp_servers op p with hf | ⟨r, s, s1, hs, hset, hst⟩ | ⟨url, w, hfresh, happ⟩ |
    ⟨url, hfil⟩ | hres
  · have e : ∀ l : List Server, l.map Server.url = (l.map clearCurrentWeight).map Server.url := by
      intro l
      rw [List.map_map]
      rfl
    rw [e, hf, ← e]
    exact h
  · rw [hset, map_url_set p.servers r s s1 hs (ServerStep_url hst)]
    exact h
  · rw [happ, List.map_append, List.nodup_append]
    refine ⟨h, by simp, ?_⟩
    intro a ha hb
    simp only [List.map_cons, List.map_nil, List.mem_singleton] at hb
    obtain ⟨s, hs, hu⟩ := List.mem_map.mp ha
    exact hfresh s hs (hu.trans hb)
  · rw [hfil]
    exact (List.Sublist.map Server.url (List.filter_sublist _)).nodup h
  · rw [hres, List.map_map]
    exact h

theorem reachable_urls_nodup : ∀ p, Reachable p → (p.servers.map Server.url).Nodup :=
  reachable_induction (fun p => (p.servers.map Server.url).Nodup)
    (by simp [initialPool]) applyOp_urls_nodup

/-- C15. `addServer(url, weight)` is idempotent and keeps URLs unique: on a registered URL the
pool is unchanged; otherwise exactly one server is appended at the end, with that URL and weight,
status UNKNOWN and all counters 0; adding twice is adding once; the servers already registered
stay where they were; and in every reachable state the URLs of the registry are pairwise
distinct. -/
theorem addServer_idempotent_unique (url : String) (w : Int) (p : Pool) :
    ((∃ s ∈ p.servers, s.url = url) → addServer url w p = p) ∧
    ((∀ s ∈ p.servers, s.url ≠ url) →
      addServer url w p = { p with servers := p.servers ++ [newServer url w] } ∧
      (newServer url w).url = url ∧ (newServer url w).weight = w ∧
      (newServer url w).status = Status.UNKNOWN ∧ (newServer url w).connections = 0 ∧
      (newServer url w).totalRequests = 0 ∧ (newServer url w).successfulRequests = 0 ∧
      (newServer url w).failedRequests = 0 ∧ (newServer url w).totalResponseTime = 0 ∧
      (newServer url w).avgResponseTime = 0 ∧ (newServer url w).currentWeight = 0 ∧
      (newServer url w).clients = []) ∧
    (∀ w2, addServer url w2 (addServer url w p) = addServer url w p) ∧
    (addServer url w p).servers.take p.servers.length = p.servers ∧
    ((p.servers.map Server.url).Nodup → ((addServer url w p).servers.map Server.url).Nodup) ∧
    (∀ q, Reachable q → (q.servers.map Server.url).Nodup) := by
  refine ⟨addServer_of_registered url w p, ?_, ?_, ?_, ?_, reachable_urls_nodup⟩
  · intro h
    exact ⟨addServer_of_fresh url w p h, rfl, rfl, rfl, rfl, rfl, rfl, rfl, rfl, rfl, rfl, rfl⟩
  · intro w2
    apply addServer_of_registered
    by_cases h : ∃ s ∈ p.servers, s.url = url
    · rw [addServer_of_registered url w p h]
      exact h
    · rw [addServer_of_fresh url w p (fun s hs hu => h ⟨s, hs, hu⟩)]
      exact ⟨newServer url w, by simp, rfl⟩
  · by_cases h : ∃ s ∈ p.servers, s.url = url
    · rw [addServer_of_registered url w p h, List.take_length]
    · rw [addServer_of_fresh url w p (fun s hs hu => h ⟨s, hs, hu⟩)]
      simp
  · intro hnd
    exact applyOp_urls_nodup (PoolOp.addServer url w) p hnd

/-- An instance of C15 on the start-up pool: a registered URL changes nothing, a fresh one is
appended. -/
theorem addServer_idempotent_unique_witness :
    addServer "http://localhost:5001" 7 startupPool = startupPool ∧
    addServer "http://localhost:5004" 3 startupPool =
      { startupPool with
        servers := startupPool.servers ++ [newServer "http://localhost:5004" 3] } :=
  ⟨(addServer_idempotent_unique "http://localhost:5001" 7 startupPool).1
      ⟨{ newServer "http://localhost:5001" 2 with status := Status.UP },
        by rw [startupPool_servers]; exact List.mem_cons_self _ _, rfl⟩,
   ((addServer_idempotent_unique "http://localhost:5004" 3 startupPool).2.1 (by decide)).1⟩

/-- What every operation does to the connection counts, in integer arithmetic: a count is reset
to 0 or created at 0, or kept, or raised by one, or lowered by one from a positive value. -/
theorem applyOp_connections (op : PoolOp) (q : Pool) :
    ∀ s1 ∈ (applyOp op q).servers, s1.connections = 0 ∨
      ∃ s ∈ q.servers, (s1.connections : ℤ) = (s.connections : ℤ) ∨
        (s1.connections : ℤ) = (s.connections : ℤ) + 1 ∨
        (0 < s.connections ∧ (s1.connections : ℤ) = (s.connections : ℤ) - 1) := by
  intro x hx
  rcases applyOp_servers op q with hf | ⟨r, s, s1, hs, hset, hst⟩ | ⟨url, w, _, happ⟩ |
    ⟨url, hfil⟩ | hres
  · have hm : clearCurrentWeight x ∈ (applyOp op q).servers.map clearCurrentWeight :=
      List.mem_map.mpr ⟨x, hx, rfl⟩
    rw [hf] at hm
    obtain ⟨x0, hx0, he⟩ := List.mem_map.mp hm
    have := (clearCurrentWeight_fields he).2.2.1
    exact Or.inr ⟨x0, hx0, Or.inl (by rw [this])⟩
  · rw [hset] at hx
    rcases mem_set_cases hx with rfl | hx
    · refine Or.inr ⟨s, List.mem_iff_getElem?.mpr ⟨r, hs⟩, ?_⟩
      rcases hst with ⟨st, rfl⟩ | ⟨w, rfl⟩ | ⟨cl, rfl⟩ | ⟨hpos, cl, rfl⟩ | ⟨rt, rfl⟩ | rfl
      · exact Or.inl rfl
      · exact Or.inl rfl
      · exact Or.inr (Or.inl (by push_cast; rfl))
      · refine Or.inr (Or.inr ⟨hpos, ?_⟩)
        show ((s.connections - 1 : Nat) : ℤ) = (s.connections : ℤ) - 1
        omega
      · exact Or.inl rfl
      · exact Or.inl rfl
    · exact Or.inr ⟨x, hx, Or.inl rfl⟩
  · rw [happ] at hx
    rcases List.mem_append.mp hx with hx | hx
    · exact Or.inr ⟨x, hx, Or.inl rfl⟩
    · rw [List.mem_singleton] at hx
      rw [hx]
      exact Or.inl rfl
  · rw [hfil] at hx
    exact Or.inr ⟨x, (List.mem_filter.mp hx).1, Or.inl rfl⟩
  · rw [hres] at hx
    obtain ⟨x0, _, rfl⟩ := List.mem_map.mp hx
    exact Or.inl rfl

/-- C16. `decrementConnections` lowers the count of the server found by URL by exactly one when
the count is positive, and leaves the whole pool state unchanged when the count is 0 or when no
server has the URL.  Every operation creates or resets a count at 0, keeps it, raises it by one, or
lowers it by one from a positive value; so the count is never negative in a reachable state. -/
theorem decrementConnections_guarded (url : String) (clientIP : Option String) (p : Pool) :
    (∀ r s, findRef url p.servers = some r → p.servers[r]? = some s → 0 < s.connections →
      ∃ s1, (decrementConnections url clientIP p).servers = p.servers.set r s1 ∧
        (s1.connections : ℤ) = (s.connections : ℤ) - 1 ∧
        s1.url = s.url ∧ s1.status = s.status ∧ s1.weight = s.weight) ∧
    (∀ r s, findRef url p.servers = some r → p.servers[r]? = some s → s.connections = 0 →
      decrementConnections url clientIP p = p) ∧
    (findRef url p.servers = none → decrementConnections url clientIP p = p) ∧
    (∀ op q, ∀ s1 ∈ (applyOp op q).servers, s1.connections = 0 ∨
      ∃ s ∈ q.servers, (s1.connections : ℤ) = (s.connections : ℤ) ∨
        (s1.connections : ℤ) = (s.connections : ℤ) + 1 ∨
        (0 < s.connections ∧ (s1.connections : ℤ) = (s.connections : ℤ) - 1)) ∧
    (∀ q, Reachable q → ∀ s ∈ q.servers, (0 : ℤ) ≤ (s.connections : ℤ)) := by
  refine ⟨?_, ?_, ?_, applyOp_connections, ?_⟩
  · intro r s hf hs hpos
    rcases decrementConnections_shape url clientIP p with
      ⟨hnone | ⟨r1, s0, hf1, hs1, hz⟩, _⟩ | ⟨r1, s0, hf1, hs1, _, ⟨_, h⟩ | ⟨c1, _, _, h⟩⟩
    · rw [hf] at hnone
      exact absurd hnone (by simp)
    · rw [hf] at hf1
      have hr : r = r1 := Option.some.inj hf1
      subst hr
      rw [hs] at hs1
      have hss : s = s0 := Option.some.inj hs1
      subst hss
      omega
    · rw [hf] at hf1
      have hr : r = r1 := Option.some.inj hf1
      subst hr
      rw [hs] at hs1
      have hss : s = s0 := Option.some.inj hs1
      subst hss
      rw [h]
      exact ⟨_, rfl, by show ((s.connections - 1 : Nat) : ℤ) = _; omega, rfl, rfl, rfl⟩
    · rw [hf] at hf1
      have hr : r = r1 := Option.some.inj hf1
      subst hr
      rw [hs] at hs1
      have hss : s = s0 := Option.some.inj hs1
      subst hss
      rw [h]
      exact ⟨_, rfl, by show ((s.connections - 1 : Nat) : ℤ) = _; omega, rfl, rfl, rfl⟩
  · intro r s hf hs hz
    unfold decrementConnections
    simp only [hf, hs, hz, gt_iff_lt, lt_irrefl, if_false]
  · intro hf
    unfold decrementConnections
    simp only [hf]
  · intro q _ s _
    exact Int.ofNat_nonneg _

/-- An instance of C16 on the start-up pool: a completion on a server with no connection, and
one on an unknown URL, change nothing. -/
theorem decrementConnections_guarded_witness :
    decrementConnections "http://localhost:5001" none startupPool = startupPool ∧
    decrementConnections "http://localhost:5009" none startupPool = startupPool :=
  ⟨(decrementConnections_guarded "http://localhost:5001" none startupPool).2.1 0
      { newServer "http://localhost:5001" 2 with status := Status.UP } rfl rfl rfl,
   (decrementConnections_guarded "http://localhost:5009" none startupPool).2.2.1 rfl⟩

/-! ## Request metrics -/

theorem mem_metricsUpdate (key : String) (f : AlgorithmMetrics → AlgorithmMetrics) :
    ∀ (m : List (String × AlgorithmMetrics)) (kv : String × AlgorithmMetrics),
      kv ∈ metricsUpdate key f m → kv ∈ m ∨ ∃ kv0 ∈ m, kv = (kv0.1, f kv0.2) := by
  intro m
  induction m with
  | nil => intro kv h; simp [metricsUpdate] at h
  | cons e rest ih =>
    intro kv h
    unfold metricsUpdate at h
    by_cases he : e.1 = key
    · rw [if_pos he] at h
      rcases List.mem_cons.mp h with h | h
      · exact Or.inr ⟨e, List.mem_cons_self _ _, h⟩
      · exact Or.inl (List.mem_cons_of_mem _ h)
    · rw [if_neg he] at h
      rcases List.mem_cons.mp h with h | h
      · exact Or.inl (h ▸ List.mem_cons_self _ _)
      · rcases ih kv h with h1 | ⟨kv0, h1, h2⟩
        · exact Or.inl (List.mem_cons_of_mem _ h1)
        · exact Or.inr ⟨kv0, List.mem_cons_of_mem _ h1, h2⟩

/-- Only `updateAlgorithmMetrics` writes the Algorithm Metrics. -/
theorem applyOp_algorithmMetrics (op : PoolOp) (p : Pool) :
    (applyOp op p).algorithmMetrics = p.algorithmMetrics ∨
    ∃ rt success now score, (applyOp op p).algorithmMetrics =
      metricsUpdate p.algorithm (recordOutcome rt success now score) p.algorithmMetrics := by
  cases op with
  | addServer url w =>
    refine Or.inl ?_
    by_cases h : ∃ s ∈ p.servers, s.url = url
    · simp only [applyOp, addServer_of_registered url w p h]
    · simp only [applyOp, addServer_of_fresh url w p (fun s hs hu => h ⟨s, hs, hu⟩)]
  | removeServer url => exact Or.inl rfl
  | setAlgorithm a =>
    refine Or.inl ?_
    simp only [applyOp, setAlgorithm]
    split <;> rfl
  | checkServerHealth r ok =>
    refine Or.inl ?_
    rcases checkServerHealth_shape r ok p with h | ⟨s, _, h⟩ <;> simp only [applyOp, h]
  | getNextServer fuel rand =>
    refine Or.inl ?_
    simp only [applyOp]
    cases h : getNextServer fuel rand p with
    | none => rfl
    | some res => exact (getNextServer_frame fuel rand p res.2 res.1 h).2.2.1
  | incrementConnections url c =>
    refine Or.inl ?_
    rcases incrementConnections_shape url c p with ⟨_, h⟩ | ⟨r, s, _, _, ⟨_, h⟩ | ⟨c1, _, h⟩⟩ <;>
      simp only [applyOp, h]
  | decrementConnections url c =>
    refine Or.inl ?_
    rcases decrementConnections_shape url c p with
      ⟨_, h⟩ | ⟨r, s, _, _, _, ⟨_, h⟩ | ⟨c1, _, _, h⟩⟩ <;> simp only [applyOp, h]
  | updateRequestMetrics url rt success => exact Or.inl rfl
  | updateAlgorithmMetrics rt success now => exact Or.inr ⟨rt, success, now, _, rfl⟩
  | resetMetrics => exact Or.inl rfl
  | patchServerWeight url w =>
    refine Or.inl ?_
    rcases patchServerWeight_shape url w p with h | ⟨r, s, _, _, h⟩ <;> simp only [applyOp, h]

/-- C17. In every reachable state every server record and every Algorithm Metrics record
satisfies `successfulRequests + failedRequests = totalRequests`. -/
theorem requests_split_invariant (p : Pool) (h : Reachable p) :
    (∀ s ∈ p.servers, s.successfulRequests + s.failedRequests = s.totalRequests) ∧
    (∀ kv ∈ p.algorithmMetrics,
      kv.2.successfulRequests + kv.2.failedRequests = kv.2.totalRequests) := by
  constructor
  · apply reachable_forall_servers
      (fun s => s.successfulRequests + s.failedRequests = s.totalRequests) _ _ _ _ p h
    · intro s s0 he hs0
      have h1 := congrArg Server.successfulRequests he
      have h2 := congrArg Server.failedRequests he
      have h3 := congrArg Server.totalRequests he
      simp only [clearCurrentWeight] at h1 h2 h3
      omega
    · intro s s1 hst hs
      beta_reduce at hs ⊢
      rcases hst with ⟨st, rfl⟩ | ⟨w, rfl⟩ | ⟨cl, rfl⟩ | ⟨_, cl, rfl⟩ | ⟨rt, rfl⟩ | rfl <;>
        simp only <;> omega
    · intro url w
      rfl
    · intro s
      rfl
  · revert p
    apply reachable_induction
    · intro kv hkv
      simp only [initialPool, initializeAlgorithmMetrics, List.map_cons, List.map_nil,
        List.mem_cons, List.mem_singleton, List.not_mem_nil, or_false] at hkv
      rcases hkv with rfl | rfl | rfl | rfl | rfl <;> rfl
    · intro op q hq kv hkv
      rcases applyOp_algorithmMetrics op q with he | ⟨rt, success, now, score, he⟩
      · rw [he] at hkv
        exact hq kv hkv
      · rw [he] at hkv
        rcases mem_metricsUpdate _ _ _ _ hkv with h1 | ⟨kv0, h1, rfl⟩
        · exact hq kv h1
        · have := hq kv0 h1
          cases success <;> simp only [recordOutcome] <;> simp <;> omega

/-- An instance of C17: a state reached by registering a server and recording one success and
one failure on it and on the active algorithm. -/
theorem requests_split_invariant_witness :
    (∀ s ∈ (runOps [PoolOp.addServer "A" 1, PoolOp.updateRequestMetrics "A" 12 true,
        PoolOp.updateAlgorithmMetrics 12 true 1, PoolOp.updateRequestMetrics "A" 0 false,
        PoolOp.updateAlgorithmMetrics 0 false 2] initialPool).servers,
      s.successfulRequests + s.failedRequests = s.totalRequests) ∧
    (∀ kv ∈ (runOps [PoolOp.addServer "A" 1, PoolOp.updateRequestMetrics "A" 12 true,
        PoolOp.updateAlgorithmMetrics 12 true 1, PoolOp.updateRequestMetrics "A" 0 false,
        PoolOp.updateAlgorithmMetrics 0 false 2] initialPool).algorithmMetrics,
      kv.2.successfulRequests + kv.2.failedRequests = kv.2.totalRequests) :=
  requests_split_invariant _ ⟨_, rfl⟩

/-- C18. `updateRequestMetrics` on a registered server adds one to its totalRequests; on success
it also adds one to successfulRequests, adds the latency to totalResponseTime and sets
avgResponseTime to totalResponseTime / successfulRequests; on failure it adds one to
failedRequests only and leaves the sum and the average as they were.  Hence in every reachable
state a server's avgResponseTime is totalResponseTime / successfulRequests when
successfulRequests is positive and 0 when it is 0 (latencies are exact rationals). -/
theorem updateRequestMetrics_average (url : String) (rt : ℚ) (success : Bool) (p : Pool)
    (r : Nat) (s : Server) (hf : findRef url p.servers = some r) (hs : p.servers[r]? = some s) :
    (∃ s1, (updateRequestMetrics url rt success p).servers = p.servers.set r s1 ∧
      s1.totalRequests = s.totalRequests + 1 ∧
      s1.url = s.url ∧ s1.status = s.status ∧ s1.weight = s.weight ∧
      s1.connections = s.connections ∧ s1.clients = s.clients ∧
      (success = true →
        s1.successfulRequests = s.successfulRequests + 1 ∧
        s1.failedRequests = s.failedRequests ∧
        s1.totalResponseTime = s.totalResponseTime + rt ∧
        s1.avgResponseTime = s1.totalResponseTime / (s1.successfulRequests : ℚ)) ∧
      (success = false →
        s1.failedRequests = s.failedRequests + 1 ∧
        s1.successfulRequests = s.successfulRequests ∧
        s1.totalResponseTime = s.totalResponseTime ∧
        s1.avgResponseTime = s.avgResponseTime)) ∧
    (∀ q, Reachable q → ∀ x ∈ q.servers,
      (0 < x.successfulRequests →
        x.avgResponseTime = x.totalResponseTime / (x.successfulRequests : ℚ)) ∧
      (x.successfulRequests = 0 → x.avgResponseTime = 0)) := by
  constructor
  · rcases (updateRequestMetrics_shape url rt success p).2.2.2 with
      h | ⟨r1, s0, hf1, hs1, ⟨hsucc, h⟩ | ⟨hsucc, h⟩⟩
    · exfalso
      have hl := congrArg (fun l => (l[r]?).map Server.totalRequests) h
      have key : ∀ q, q = updateRequestMetrics url rt success p →
          (q.servers[r]?).map Server.totalRequests = some (s.totalRequests + 1) := by
        intro q hq
        have hlt := (List.getElem?_eq_some.mp hs).1
        unfold updateRequestMetrics at hq
        simp only [hf, hs] at hq
        subst hq
        cases success <;> simp [hlt]
      have := key _ rfl
      beta_reduce at hl
      rw [this, hs] at hl
      simp at hl
    · rw [hf] at hf1
      have hr : r = r1 := Option.some.inj hf1
      subst hr
      rw [hs] at hs1
      have hss : s = s0 := Option.some.inj hs1
      subst hss
      rw [h]
      refine ⟨_, rfl, rfl, rfl, rfl, rfl, rfl, rfl, ?_, ?_⟩
      · intro _
        exact ⟨rfl, rfl, rfl, rfl⟩
      · intro hfalse
        rw [hsucc] at hfalse
        exact absurd hfalse (by simp)
    · rw [hf] at hf1
      have hr : r = r1 := Option.some.inj hf1
      subst hr
      rw [hs] at hs1
      have hss : s = s0 := Option.some.inj hs1
      subst hss
      rw [h]
      refine ⟨_, rfl, rfl, rfl, rfl, rfl, rfl, rfl, ?_, ?_⟩
      · intro htrue
        rw [hsucc] at htrue
        exact absurd htrue (by simp)
      · intro _
        exact ⟨rfl, rfl, rfl, rfl⟩
  · apply reachable_forall_servers
      (fun x => (0 < x.successfulRequests →
        x.avgResponseTime = x.totalResponseTime / (x.successfulRequests : ℚ)) ∧
        (x.successfulRequests = 0 → x.avgResponseTime = 0))
    · intro x x0 he hx0
      have h1 := congrArg Server.successfulRequests he
      have h2 := congrArg Server.avgResponseTime he
      have h3 := congrArg Server.totalResponseTime he
      simp only [clearCurrentWeight] at h1 h2 h3
      rw [h1, h2, h3]
      exact hx0
    · intro x x1 hst hx
      rcases hst with ⟨st, rfl⟩ | ⟨w, rfl⟩ | ⟨cl, rfl⟩ | ⟨_, cl, rfl⟩ | ⟨rt1, rfl⟩ | rfl
      · exact hx
      · exact hx
      · exact hx
      · exact hx
      · exact ⟨fun _ => rfl, fun h0 => absurd h0 (Nat.succ_ne_zero _)⟩
      · exact hx
    · intro url w
      exact ⟨fun h0 => absurd h0 (lt_irrefl 0), fun _ => rfl⟩
    · intro x
      exact ⟨fun h0 => absurd h0 (lt_irrefl 0), fun _ => rfl⟩

/-- An instance of C18: a success with latency 12 recorded on the first server of the start-up
pool. -/
theorem updateRequestMetrics_average_witness :
    ∃ s1, (updateRequestMetrics "http://localhost:5001" 12 true startupPool).servers =
        startupPool.servers.set 0 s1 ∧
      s1.totalRequests = 0 + 1 ∧
      (true = true →
        s1.successfulRequests = 0 + 1 ∧ s1.failedRequests = 0 ∧
        s1.totalResponseTime = 0 + 12 ∧
        s1.avgResponseTime = s1.totalResponseTime / (s1.successfulRequests : ℚ)) := by
  obtain ⟨s1, h1, h2, _, _, _, _, _, h3, _⟩ :=
    (updateRequestMetrics_average "http://localhost:5001" 12 true startupPool 0
      { newServer "http://localhost:5001" 2 with status := Status.UP } rfl rfl).1
  exact ⟨s1, h1, h2, h3⟩

/-! ## Algorithm metrics -/

theorem metricsGet_update_same (key : String) (f : AlgorithmMetrics → AlgorithmMetrics) :
    ∀ (m : List (String × AlgorithmMetrics)),
      metricsGet key (metricsUpdate key f m) = (metricsGet key m).map f := by
  intro m
  induction m with
  | nil => rfl
  | cons e rest ih =>
    unfold metricsUpdate
    by_cases he : e.1 = key
    · rw [if_pos he]
      unfold metricsGet
      rw [if_pos he, if_pos he]
      rfl
    · rw [if_neg he]
      unfold metricsGet
      rw [if_neg he, if_neg he, ih]

theorem metricsGet_update_other (key key1 : String) (f : AlgorithmMetrics → AlgorithmMetrics)
    (hne : key1 ≠ key) :
    ∀ (m : List (String × AlgorithmMetrics)),
      metricsGet key1 (metricsUpdate key f m) = metricsGet key1 m := by
  intro m
  induction m with
  | nil => rfl
  | cons e rest ih =>
    unfold metricsUpdate
    by_cases he : e.1 = key
    · have h1 : ¬ e.1 = key1 := fun e1 => hne (e1.symm.trans he)
      rw [if_pos he]
      unfold metricsGet
      rw [if_neg h1, if_neg h1]
    · rw [if_neg he]
      unfold metricsGet
      by_cases h1 : e.1 = key1
      · rw [if_pos h1, if_pos h1]
      · rw [if_neg h1, if_neg h1, ih]

/-- C19, as stated, fails: on the fresh pool a failed outcome with latency 5 raises the
response-time sum of the active algorithm's record from 0 to 5 and its average from 0 to 5. -/
theorem updateAlgorithmMetrics_failure_counterexample :
    ∃ m0 m1, metricsGet "LEAST_CONNECTIONS" initialPool.algorithmMetrics = some m0 ∧
      metricsGet "LEAST_CONNECTIONS"
        (updateAlgorithmMetrics 5 false 0 initialPool).algorithmMetrics = some m1 ∧
      m0.totalResponseTime = 0 ∧ m1.totalResponseTime = 5 ∧
      m0.avgResponseTime = 0 ∧ m1.avgResponseTime = 5 ∧
      m1.totalResponseTime ≠ m0.totalResponseTime ∧ m1.avgResponseTime ≠ m0.avgResponseTime := by
  refine ⟨emptyMetrics,
    recordOutcome 5 false 0 (calculateLoadDistributionScore initialPool) emptyMetrics,
    rfl, rfl, rfl, ?_, rfl, ?_, ?_, ?_⟩ <;>
  simp [recordOutcome, emptyMetrics]

/-- C19, amended. `updateAlgorithmMetrics` updates the record of the active algorithm like this,
for every latency and either outcome: totalRequests grows by one, the latency is added to the
response-time sum, the average becomes sum / totalRequests, the fairness score is recomputed;
a success adds one to the success count only and a failure adds one to the failure count only.
The other records and the rest of the pool are unchanged. -/
theorem updateAlgorithmMetrics_record (rt : ℚ) (success : Bool) (now : Nat) (p : Pool)
    (m : AlgorithmMetrics) (hm : metricsGet p.algorithm p.algorithmMetrics = some m) :
    (∃ m1, metricsGet p.algorithm
        (updateAlgorithmMetrics rt success now p).algorithmMetrics = some m1 ∧
      m1.totalRequests = m.totalRequests + 1 ∧
      m1.totalResponseTime = m.totalResponseTime + rt ∧
      m1.avgResponseTime = m1.totalResponseTime / (m1.totalRequests : ℚ) ∧
      m1.loadDistributionScore = calculateLoadDistributionScore p ∧
      (success = true →
        m1.successfulRequests = m.successfulRequests + 1 ∧
        m1.failedRequests = m.failedRequests) ∧
      (success = false →
        m1.failedRequests = m.failedRequests + 1 ∧
        m1.successfulRequests = m.successfulRequests)) ∧
    (∀ key, key ≠ p.algorithm →
      metricsGet key (updateAlgorithmMetrics rt success now p).algorithmMetrics =
        metricsGet key p.algorithmMetrics) ∧
    updateAlgorithmMetrics rt success now p =
      { p with algorithmMetrics := (updateAlgorithmMetrics rt success now p).algorithmMetrics } := by
  refine ⟨⟨recordOutcome rt success now (calculateLoadDistributionScore p) m, ?_, rfl, rfl, rfl,
    rfl, ?_, ?_⟩, ?_, rfl⟩
  · unfold updateAlgorithmMetrics
    simp only []
    rw [metricsGet_update_same, hm]
    rfl
  · intro h
    subst h
    exact ⟨rfl, rfl⟩
  · intro h
    subst h
    exact ⟨rfl, rfl⟩
  · intro key hne
    unfold updateAlgorithmMetrics
    simp only []
    exact metricsGet_update_other _ _ _ hne _

/-- An instance of C19 (amended): a failure with latency 5 on the fresh pool. -/
theorem updateAlgorithmMetrics_record_witness :
    ∃ m1, metricsGet initialPool.algorithm
        (updateAlgorithmMetrics 5 false 0 initialPool).algorithmMetrics = some m1 ∧
      m1.totalRequests = emptyMetrics.totalRequests + 1 ∧
      m1.totalResponseTime = emptyMetrics.totalResponseTime + 5 ∧
      m1.avgResponseTime = m1.totalResponseTime / (m1.totalRequests : ℚ) := by
  obtain ⟨m1, h1, h2, h3, h4, _⟩ :=
    (updateAlgorithmMetrics_record 5 false 0 initialPool emptyMetrics rfl).1
  exact ⟨m1, h1, h2, h3, h4⟩

/-! ## The fairness score -/

theorem foldl_add_map_nat (f : Server → Nat) : ∀ (l : List Server) (a : Nat),
    l.foldl (fun sum s => sum + f s) a = a + (l.map f).sum := by
  intro l
  induction l with
  | nil => intro a; simp
  | cons x l ih =>
    intro a
    rw [List.foldl_cons, ih, List.map_cons, List.sum_cons]
    omega

theorem foldl_add_map_rat (f : Server → ℚ) : ∀ (l : List Server) (a : ℚ),
    l.foldl (fun sum s => sum + f s) a = a + (l.map f).sum := by
  intro l
  induction l with
  | nil => intro a; simp
  | cons x l ih =>
    intro a
    rw [List.foldl_cons, ih, List.map_cons, List.sum_cons]
    ring

theorem activeRequestCounts_sum (p : Pool) :
    (activeRequestCounts p).sum =
      (((p.servers.filter (fun s => decide (s.status = Status.UP))).map
        Server.totalRequests).sum : ℚ) := by
  unfold activeRequestCounts
  rw [Nat.cast_list_sum, List.map_map]
  rfl

/-- Evaluation of `double` with the result given in lowest terms. -/
theorem double_eval (x y : ℚ) (k : ℕ) (m : ℤ) (hlo : (2 : ℚ) ^ 52 ≤ x * 2 ^ k)
    (hhi : x * 2 ^ k < (2 : ℚ) ^ 53) (hm : |x * 2 ^ k - (m : ℚ)| < 1 / 2)
    (hy : (m : ℚ) / 2 ^ k = y) : double x = y := by
  rw [double_eq_of_nat x k m hlo hhi hm, hy]

theorem double_eval_neg (x y : ℚ) (k : ℕ) (m : ℤ) (hlo : (2 : ℚ) ^ 52 ≤ x * 2 ^ k)
    (hhi : x * 2 ^ k < (2 : ℚ) ^ 53) (hm : |x * 2 ^ k - (m : ℚ)| < 1 / 2)
    (hy : (m : ℚ) / 2 ^ k = y) : double (-x) = -y := by
  rw [double_neg, double_eq_of_nat x k m hlo hhi hm, hy]

theorem mathRound_eq_of (x : ℚ) (z : ℤ) (h1 : (z : ℚ) ≤ x + 1 / 2) (h2 : x + 1 / 2 < (z : ℚ) + 1) :
    mathRound x = (z : ℚ) := by
  unfold mathRound
  rw [Int.floor_eq_iff.mpr ⟨h1, h2⟩]

theorem calculateLoadDistributionScore_unevenPool :
    calculateLoadDistributionScore unevenPool = 89 := by
  have e1 : double (3 / 2) = 3 / 2 :=
    double_eval _ _ 52 6755399441055744 (by norm_num) (by norm_num)
      (by rw [abs_lt]; constructor <;> norm_num) (by norm_num)
  have e2 : double (1 / 2) = 1 / 2 :=
    double_eval _ _ 53 4503599627370496 (by norm_num) (by norm_num)
      (by rw [abs_lt]; constructor <;> norm_num) (by norm_num)
  have e2n : double (-(1 / 2)) = -(1 / 2) :=
    double_eval_neg _ _ 53 4503599627370496 (by norm_num) (by norm_num)
      (by rw [abs_lt]; constructor <;> norm_num) (by norm_num)
  have e3 : double (1 / 4) = 1 / 4 :=
    double_eval _ _ 54 4503599627370496 (by norm_num) (by norm_num)
      (by rw [abs_lt]; constructor <;> norm_num) (by norm_num)
  have e4 : double (9 / 4) = 9 / 4 :=
    double_eval _ _ 51 5066549580791808 (by norm_num) (by norm_num)
      (by rw [abs_lt]; constructor <;> norm_num) (by norm_num)
  have e5 : double (1 / 9) = 2001599834386887 / 18014398509481984 :=
    double_eval _ _ 56 8006399337547548 (by norm_num) (by norm_num)
      (by rw [abs_lt]; constructor <;> norm_num) (by norm_num)
  have e6 : double (50039995859672175 / 4503599627370496) =
      3127499741229511 / 281474976710656 :=
    double_eval _ _ 49 6254999482459022 (by norm_num) (by norm_num)
      (by rw [abs_lt]; constructor <;> norm_num) (by norm_num)
  have e7 : double (25019997929836089 / 281474976710656) =
      3127499741229511 / 35184372088832 :=
    double_eval _ _ 46 6254999482459022 (by norm_num) (by norm_num)
      (by rw [abs_lt]; constructor <;> norm_num) (by norm_num)
  unfold calculateLoadDistributionScore calculateLoadDistributionScoreWith
  norm_num [unevenPool, newServer, initialPool, e1, e2, e2n, e3, e4, e5, e6, e7]
  have h := mathRound_eq_of (3127499741229511 / 35184372088832) 89 (by norm_num) (by norm_num)
  rw [h]
  norm_num

/-- With a UP server and a positive total load, the body of the method evaluated without any
rounding of the operations returns the fairness formula rounded by `Math.round`. -/
theorem calculateLoadDistributionScoreWith_id (p : Pool)
    (hup : ∃ s ∈ p.servers, s.status = Status.UP)
    (hload : 0 < ((p.servers.filter (fun s => decide (s.status = Status.UP))).map
      Server.totalRequests).sum) :
    calculateLoadDistributionScoreWith id p = mathRound (fairnessFormula p) := by
  obtain ⟨s0, hs0, hst0⟩ := hup
  have hmem : s0 ∈ p.servers.filter (fun s => decide (s.status = Status.UP)) :=
    List.mem_filter.mpr ⟨hs0, by simpa using hst0⟩
  have hlen1 : ¬ p.servers.length = 0 := by
    intro h
    rw [List.length_eq_zero] at h
    rw [h] at hs0
    simp at hs0
  have hlen2 : ¬ (p.servers.filter (fun s => decide (s.status = Status.UP))).length = 0 := by
    intro h
    rw [List.length_eq_zero] at h
    rw [h] at hmem
    simp at hmem
  have htot : (p.servers.filter (fun s => decide (s.status = Status.UP))).foldl
      (fun sum s => sum + s.totalRequests) 0 =
      ((p.servers.filter (fun s => decide (s.status = Status.UP))).map
        Server.totalRequests).sum := by
    rw [foldl_add_map_nat Server.totalRequests, Nat.zero_add]
  have hne : ¬ ((p.servers.filter (fun s => decide (s.status = Status.UP))).map
      Server.totalRequests).sum = 0 := by omega
  have hideal : idealLoad p =
      ((((p.servers.filter (fun s => decide (s.status = Status.UP))).map
        Server.totalRequests).sum : Nat) : ℚ) /
      ((p.servers.filter (fun s => decide (s.status = Status.UP))).length : ℚ) := by
    unfold idealLoad
    rw [activeRequestCounts_sum]
    unfold activeRequestCounts
    rw [List.length_map]
  unfold calculateLoadDistributionScoreWith
  simp only [hlen1, hlen2, if_false, htot, hne, id]
  congr 1
  unfold fairnessFormula populationVariance
  rw [mul_max_of_nonneg _ _ (by norm_num : (0 : ℚ) ≤ 100), mul_zero]
  congr 1
  rw [foldl_add_map_rat, zero_add, ← hideal]
  have hmap : (activeRequestCounts p).map (fun x => (x - idealLoad p) ^ 2) =
      (p.servers.filter (fun s => decide (s.status = Status.UP))).map
        (fun s => ((s.totalRequests : ℚ) - idealLoad p) * ((s.totalRequests : ℚ) - idealLoad p)) := by
    unfold activeRequestCounts
    rw [List.map_map]
    apply List.map_congr_left
    intro s _
    simp only [Function.comp]
    ring
  have hlen : ((activeRequestCounts p).length : ℚ) =
      ((p.servers.filter (fun s => decide (s.status = Status.UP))).length : ℚ) := by
    unfold activeRequestCounts
    rw [List.length_map]
  rw [hmap, hlen]
  ring

theorem fairnessFormula_unevenPool : fairnessFormula unevenPool = 800 / 9 := by
  have hc : activeRequestCounts unevenPool = [1, 2] := by
    simp [activeRequestCounts, unevenPool, newServer, initialPool]
  have hi : idealLoad unevenPool = 3 / 2 := by
    rw [idealLoad, hc]
    norm_num
  have hv : populationVariance unevenPool = 1 / 4 := by
    rw [populationVariance, hc, hi]
    norm_num
  rw [fairnessFormula, hv, hi]
  norm_num

theorem foldl_double_nonneg (f : Server → ℚ) : ∀ (l : List Server) (a : ℚ), 0 ≤ a →
    0 ≤ l.foldl (fun sum s => double (sum + double (f s * f s))) a := by
  intro l
  induction l with
  | nil => intro a ha; exact ha
  | cons x l ih =>
    intro a ha
    rw [List.foldl_cons]
    exact ih _ (double_nonneg (add_nonneg ha (double_nonneg (mul_self_nonneg _))))

theorem mathRound_clamped_range (r : ℚ) (hr : 0 ≤ r) :
    ∃ z : ℤ, mathRound (max 0 (double (100 - r))) = (z : ℚ) ∧ 0 ≤ z ∧ z ≤ 100 := by
  have hs : double (100 - r) ≤ ((100 : ℕ) : ℚ) :=
    double_le_natCast (by norm_num) (by push_cast; linarith)
  have hmax : max 0 (double (100 - r)) ≤ (100 : ℚ) :=
    max_le (by norm_num) (by exact_mod_cast hs)
  have hmin : (0 : ℚ) ≤ max 0 (double (100 - r)) := le_max_left 0 _
  refine ⟨⌊max 0 (double (100 - r)) + 1 / 2⌋, rfl, ?_, ?_⟩
  · exact Int.floor_nonneg.mpr (by linarith)
  · rw [Int.floor_le_iff]
    push_cast
    linarith

/-- The code returns an integer from 0 to 100, whatever the pool. -/
theorem calculateLoadDistributionScore_range (p : Pool) :
    ∃ z : ℤ, calculateLoadDistributionScore p = (z : ℚ) ∧ 0 ≤ z ∧ z ≤ 100 := by
  unfold calculateLoadDistributionScore calculateLoadDistributionScoreWith
  simp only
  split_ifs
  · exact ⟨0, by simp, le_refl _, by norm_num⟩
  · exact ⟨0, by simp, le_refl _, by norm_num⟩
  · exact ⟨100, by simp, by norm_num, le_refl _⟩
  · exact mathRound_clamped_range _
      (double_nonneg (mul_nonneg (double_nonneg (div_nonneg
        (double_nonneg (div_nonneg (foldl_double_nonneg _ _ 0 (le_refl _))
          (Nat.cast_nonneg _)))
        (double_nonneg (mul_self_nonneg _)))) (by norm_num)))

theorem fairnessFormula_skewedPool : fairnessFormula skewedPool = 25 / 2 := by
  have hc : activeRequestCounts skewedPool = [0, 1, 3] := by
    simp [activeRequestCounts, skewedPool, newServer, initialPool]
  have hi : idealLoad skewedPool = 4 / 3 := by
    rw [idealLoad, hc]
    norm_num
  have hv : populationVariance skewedPool = 14 / 9 := by
    rw [populationVariance, hc, hi]
    norm_num
  rw [fairnessFormula, hv, hi]
  norm_num

theorem calculateLoadDistributionScore_skewedPool :
    calculateLoadDistributionScore skewedPool = 12 := by
  have f1 : double (4 / 3) = 6004799503160661 / 4503599627370496 :=
    double_eval _ _ 52 6004799503160661 (by norm_num) (by norm_num)
      (by rw [abs_lt]; constructor <;> norm_num) (by norm_num)
  have f2 : double (-(6004799503160661 / 4503599627370496)) = -(6004799503160661 / 4503599627370496) :=
    double_eval_neg _ _ 52 6004799503160661 (by norm_num) (by norm_num)
      (by rw [abs_lt]; constructor <;> norm_num) (by norm_num)
  have f3 : double (36057617073158521194928777956921 / 20282409603651670423947251286016) = 2001599834386887 / 1125899906842624 :=
    double_eval _ _ 52 8006399337547548 (by norm_num) (by norm_num)
      (by rw [abs_lt]; constructor <;> norm_num) (by norm_num)
  have f4 : double (2001599834386887 / 1125899906842624) = 2001599834386887 / 1125899906842624 :=
    double_eval _ _ 52 8006399337547548 (by norm_num) (by norm_num)
      (by rw [abs_lt]; constructor <;> norm_num) (by norm_num)
  have f5 : double (-(1501199875790165 / 4503599627370496)) = -(1501199875790165 / 4503599627370496) :=
    double_eval_neg _ _ 54 6004799503160660 (by norm_num) (by norm_num)
      (by rw [abs_lt]; constructor <;> norm_num) (by norm_num)
  have f6 : double (2253601067072406824083110727225 / 20282409603651670423947251286016) = 8006399337547545 / 72057594037927936 :=
    double_eval _ _ 56 8006399337547545 (by norm_num) (by norm_num)
      (by rw [abs_lt]; constructor <;> norm_num) (by norm_num)
  have f7 : double (136108788738308313 / 72057594037927936) = 4253399648072135 / 2251799813685248 :=
    double_eval _ _ 52 8506799296144270 (by norm_num) (by norm_num)
      (by rw [abs_lt]; constructor <;> norm_num) (by norm_num)
  have f8 : double (7505999378950827 / 4503599627370496) = 7505999378950827 / 4503599627370496 :=
    double_eval _ _ 52 7505999378950827 (by norm_num) (by norm_num)
      (by rw [abs_lt]; constructor <;> norm_num) (by norm_num)
  have f9 : double (56340026676810200626075283983929 / 20282409603651670423947251286016) = 6254999482459023 / 2251799813685248 :=
    double_eval _ _ 51 6254999482459023 (by norm_num) (by norm_num)
      (by rw [abs_lt]; constructor <;> norm_num) (by norm_num)
  have f10 : double (5254199565265579 / 1125899906842624) = 5254199565265579 / 1125899906842624 :=
    double_eval _ _ 50 5254199565265579 (by norm_num) (by norm_num)
      (by rw [abs_lt]; constructor <;> norm_num) (by norm_num)
  have f11 : double (5254199565265579 / 3377699720527872) = 7005599420354105 / 4503599627370496 :=
    double_eval _ _ 52 7005599420354105 (by norm_num) (by norm_num)
      (by rw [abs_lt]; constructor <;> norm_num) (by norm_num)
  have f12 : double (7005599420354105 / 8006399337547548) = 7881299347898369 / 9007199254740992 :=
    double_eval _ _ 53 7881299347898369 (by norm_num) (by norm_num)
      (by rw [abs_lt]; constructor <;> norm_num) (by norm_num)
  have f13 : double (197032483697459225 / 2251799813685248) = 6157265115545601 / 70368744177664 :=
    double_eval _ _ 46 6157265115545601 (by norm_num) (by norm_num)
      (by rw [abs_lt]; constructor <;> norm_num) (by norm_num)
  have f14 : double (879609302220799 / 70368744177664) = 879609302220799 / 70368744177664 :=
    double_eval _ _ 49 7036874417766392 (by norm_num) (by norm_num)
      (by rw [abs_lt]; constructor <;> norm_num) (by norm_num)
  unfold calculateLoadDistributionScore calculateLoadDistributionScoreWith
  norm_num [skewedPool, newServer, initialPool, f1, f2, f3, f4, f5, f6, f7, f8, f9, f10, f11, f12, f13, f14]
  have h := mathRound_eq_of (879609302220799 / 70368744177664) 12 (by norm_num) (by norm_num)
  rw [h]
  norm_num

/-- C20 (counterexample): with two UP servers that served 1 and 2 requests the formula gives
`800/9`, while the code returns `89`; with three UP servers that served 0, 1 and 3 requests the
formula gives `25/2`, while the code returns `12`. -/
theorem calculateLoadDistributionScore_round_counterexample :
    (∃ s ∈ unevenPool.servers, s.status = Status.UP) ∧
    0 < ((unevenPool.servers.filter (fun s => decide (s.status = Status.UP))).map
      Server.totalRequests).sum ∧
    fairnessFormula unevenPool = 800 / 9 ∧
    calculateLoadDistributionScore unevenPool = 89 ∧
    calculateLoadDistributionScore unevenPool ≠ fairnessFormula unevenPool ∧
    (∃ s ∈ skewedPool.servers, s.status = Status.UP) ∧
    0 < ((skewedPool.servers.filter (fun s => decide (s.status = Status.UP))).map
      Server.totalRequests).sum ∧
    fairnessFormula skewedPool = 25 / 2 ∧
    calculateLoadDistributionScore skewedPool = 12 ∧
    calculateLoadDistributionScore skewedPool ≠ fairnessFormula skewedPool := by
  refine ⟨⟨{ newServer "a" 1 with
        status := Status.UP, totalRequests := 1, successfulRequests := 1 },
      by simp [unevenPool], rfl⟩, by decide, fairnessFormula_unevenPool,
    calculateLoadDistributionScore_unevenPool, ?_,
    ⟨{ newServer "a" 1 with status := Status.UP }, by simp [skewedPool], rfl⟩, by decide,
    fairnessFormula_skewedPool, calculateLoadDistributionScore_skewedPool, ?_⟩
  · rw [calculateLoadDistributionScore_unevenPool, fairnessFormula_unevenPool]
    norm_num
  · rw [calculateLoadDistributionScore_skewedPool, fairnessFormula_skewedPool]
    norm_num

/-- The double evaluation and the exact evaluation of the method can differ by one: with UP
counts 0, 1 and 3 the exact value of the expression is `12.5`, rounded to 13, and the double value
is below `12.5`, rounded to 12. -/
theorem calculateLoadDistributionScore_skewedPool_exact :
    calculateLoadDistributionScoreWith id skewedPool = 13 ∧
    calculateLoadDistributionScore skewedPool = 12 := by
  refine ⟨?_, calculateLoadDistributionScore_skewedPool⟩
  rw [calculateLoadDistributionScoreWith_id skewedPool
    ⟨{ newServer "a" 1 with status := Status.UP }, by simp [skewedPool], rfl⟩ (by decide),
    fairnessFormula_skewedPool]
  have h := mathRound_eq_of (25 / 2) 13 (by norm_num) (by norm_num)
  rw [h]
  norm_num

/-- C20 (amended): for every pool with at least one UP server and a positive total request count
over the UP servers, `calculateLoadDistributionScore` is `Math.round` of
`max(0, 100 - (variance / idealLoad²) * 100)` with every arithmetic operation rounded to the
nearest double, and it is an integer from 0 to 100.  Evaluated in exact rational arithmetic the
same expression gives `⌊F + 1/2⌋` for the formula `F = 100 * max(0, 1 - variance / idealLoad²)`,
within one half of `F`. -/
theorem calculateLoadDistributionScore_rounded_formula (p : Pool)
    (hup : ∃ s ∈ p.servers, s.status = Status.UP)
    (hload : 0 < ((p.servers.filter (fun s => decide (s.status = Status.UP))).map
      Server.totalRequests).sum) :
    calculateLoadDistributionScore p = calculateLoadDistributionScoreWith double p ∧
    (∃ z : ℤ, calculateLoadDistributionScore p = (z : ℚ) ∧ 0 ≤ z ∧ z ≤ 100) ∧
    calculateLoadDistributionScoreWith id p = ((⌊fairnessFormula p + 1 / 2⌋ : ℤ) : ℚ) ∧
    |calculateLoadDistributionScoreWith id p - fairnessFormula p| ≤ 1 / 2 := by
  have h := calculateLoadDistributionScoreWith_id p hup hload
  rw [mathRound] at h
  refine ⟨rfl, calculateLoadDistributionScore_range p, h, ?_⟩
  rw [h, abs_le]
  have h1 := Int.floor_le (fairnessFormula p + 1 / 2)
  have h2 := Int.lt_floor_add_one (fairnessFormula p + 1 / 2)
  constructor <;> linarith

theorem calculateLoadDistributionScore_rounded_formula_witness :
    (∃ s ∈ unevenPool.servers, s.status = Status.UP) ∧
    0 < ((unevenPool.servers.filter (fun s => decide (s.status = Status.UP))).map
      Server.totalRequests).sum ∧
    calculateLoadDistributionScore unevenPool =
      calculateLoadDistributionScoreWith double unevenPool ∧
    (∃ z : ℤ, calculateLoadDistributionScore unevenPool = (z : ℚ) ∧ 0 ≤ z ∧ z ≤ 100) ∧
    calculateLoadDistributionScoreWith id unevenPool =
      ((⌊fairnessFormula unevenPool + 1 / 2⌋ : ℤ) : ℚ) ∧
    |calculateLoadDistributionScoreWith id unevenPool - fairnessFormula unevenPool| ≤ 1 / 2 :=
  ⟨⟨{ newServer "a" 1 with status := Status.UP, totalRequests := 1, successfulRequests := 1 },
      by simp [unevenPool], rfl⟩,
    by decide,
    calculateLoadDistributionScore_rounded_formula unevenPool
      ⟨{ newServer "a" 1 with status := Status.UP, totalRequests := 1, successfulRequests := 1 },
        by simp [unevenPool], rfl⟩
      (by decide)⟩

/-! ## The client map and the client lists -/

theorem mapGet_mapSet_same (c u : String) : ∀ m, mapGet c (mapSet c u m) = some u := by
  intro m
  induction m with
  | nil => simp [mapSet, mapGet]
  | cons e m ih =>
    obtain ⟨k, v⟩ := e
    unfold mapSet
    by_cases h : k = c
    · simp [h, mapGet]
    · simp [h, mapGet, ih]

theorem mapGet_mapSet_other (c u c1 : String) (hne : c1 ≠ c) :
    ∀ m, mapGet c1 (mapSet c u m) = mapGet c1 m := by
  intro m
  induction m with
  | nil =>
    have : ¬ c = c1 := fun h => hne h.symm
    simp [mapSet, mapGet, this]
  | cons e m ih =>
    obtain ⟨k, v⟩ := e
    unfold mapSet
    by_cases h : k = c
    · subst h
      have h1 : ¬ k = c1 := fun h2 => hne h2.symm
      simp [mapGet, h1]
    · by_cases h1 : k = c1
      · subst h1
        simp [h, mapGet]
      · simp [h, mapGet, h1, ih]

theorem mapGet_mapDelete (c c1 : String) :
    ∀ m, mapGet c1 (mapDelete c m) = if c1 = c then none else mapGet c1 m := by
  intro m
  induction m with
  | nil => simp [mapDelete, mapGet]
  | cons e m ih =>
    obtain ⟨k, v⟩ := e
    unfold mapDelete at ih ⊢
    by_cases h : k = c
    · simp only [List.filter_cons, h, ne_eq, not_true_eq_false, decide_False, Bool.false_eq_true,
        if_false, ih, mapGet]
      by_cases h1 : c1 = c
      · simp [h1]
      · have : ¬ c = c1 := fun h2 => h1 h2.symm
        simp [h1, this]
    · simp only [List.filter_cons, h, ne_eq, not_false_eq_true, decide_True, if_true, mapGet]
      by_cases h1 : k = c1
      · have : ¬ c1 = c := fun h2 => h (h1.trans h2)
        simp [h1, this]
      · simp only [h1, if_false, ih]

theorem mem_set_or_eq {l : List Server} {r : Nat} {s x : Server} (s1 : Server)
    (hs : l[r]? = some s) (hx : x ∈ l) : x ∈ l.set r s1 ∨ x = s := by
  obtain ⟨i, hi⟩ := List.mem_iff_getElem?.mp hx
  by_cases h : i = r
  · subst h
    rw [hs] at hi
    exact Or.inr (Option.some.inj hi).symm
  · refine Or.inl (List.mem_iff_getElem?.mpr ⟨i, ?_⟩)
    rw [List.getElem?_set_ne (fun h2 => h h2.symm)]
    exact hi

theorem mem_set_self {l : List Server} {r : Nat} {s s1 : Server}
    (hs : l[r]? = some s) : s1 ∈ l.set r s1 := by
  have hr : r < l.length := by
    by_contra hcon
    rw [List.getElem?_eq_none (by omega)] at hs
    simp at hs
  exact List.mem_iff_getElem?.mpr ⟨r, by rw [List.getElem?_set_self hr]⟩

/-- A server that keeps its URL and the client asked for is still found after the write. -/
theorem exists_server_set {l : List Server} {r : Nat} {s s1 : Server} {c u : String}
    (hs : l[r]? = some s) (hu : s1.url = s.url) (hc : c ∈ s.clients → c ∈ s1.clients)
    (h : ∃ x ∈ l, x.url = u ∧ c ∈ x.clients) :
    ∃ x ∈ l.set r s1, x.url = u ∧ c ∈ x.clients := by
  obtain ⟨x, hx, hxu, hxc⟩ := h
  rcases mem_set_or_eq s1 hs hx with hm | rfl
  · exact ⟨x, hm, hxu, hxc⟩
  · exact ⟨s1, mem_set_self hs, hu.trans hxu, hc hxc⟩

theorem applyOp_mapBacked (op : PoolOp) (hop : isRemoveServer op = false) (p : Pool)
    (h : MapBacked p) : MapBacked (applyOp op p) := by
  intro c u hget
  cases op with
  | removeServer url => simp [isRemoveServer] at hop
  | addServer url w =>
    simp only [applyOp] at hget ⊢
    by_cases hreg : ∃ s ∈ p.servers, s.url = url
    · rw [addServer_of_registered url w p hreg] at hget ⊢
      exact h c u hget
    · have hfresh : ∀ s ∈ p.servers, s.url ≠ url := fun s hs hu => hreg ⟨s, hs, hu⟩
      rw [addServer_of_fresh url w p hfresh] at hget ⊢
      obtain ⟨s, hs, hsu, hsc⟩ := h c u hget
      exact ⟨s, List.mem_append_left _ hs, hsu, hsc⟩
  | setAlgorithm a =>
    simp only [applyOp] at hget ⊢
    unfold setAlgorithm at hget ⊢
    split_ifs at hget ⊢
    · exact h c u hget
    · exact h c u hget
  | checkServerHealth r ok =>
    simp only [applyOp] at hget ⊢
    rcases checkServerHealth_shape r ok p with he | ⟨s, hs, he⟩
    · rw [he] at hget ⊢
      exact h c u hget
    · rw [he] at hget ⊢
      exact exists_server_set hs rfl (fun hc => hc) (h c u hget)
  | getNextServer fuel rand =>
    simp only [applyOp] at hget ⊢
    cases hg : getNextServer fuel rand p with
    | none =>
      simp only [hg] at hget ⊢
      exact h c u hget
    | some res =>
      obtain ⟨res1, p1⟩ := res
      simp only [hg] at hget ⊢
      obtain ⟨hf, hm, _, _⟩ := getNextServer_frame fuel rand p p1 res1 hg
      rw [hm] at hget
      obtain ⟨s, hs, hsu, hsc⟩ := h c u hget
      have hmem : clearCurrentWeight s ∈ p1.servers.map clearCurrentWeight := by
        rw [hf]
        exact List.mem_map.mpr ⟨s, hs, rfl⟩
      obtain ⟨s1, hs1, he⟩ := List.mem_map.mp hmem
      have hu1 : s1.url = s.url := by
        have := congrArg Server.url he
        exact this
      have hc1 : s1.clients = s.clients := by
        have := congrArg Server.clients he
        exact this
      exact ⟨s1, hs1, hu1.trans hsu, by rw [hc1]; exact hsc⟩
  | incrementConnections url clientIP =>
    simp only [applyOp] at hget ⊢
    rcases incrementConnections_shape url clientIP p with ⟨_, he⟩ | ⟨r, s, hf, hs, hcase⟩
    · rw [he] at hget ⊢
      exact h c u hget
    · obtain ⟨s0, hs0, hurl⟩ := findRef_some_getElem? url p.servers r hf
      rw [hs] at hs0
      have hs0e : s = s0 := Option.some.inj hs0
      subst hs0e
      rcases hcase with ⟨_, he⟩ | ⟨c0, _, he⟩
      · rw [he] at hget ⊢
        exact exists_server_set hs rfl (fun hc => hc) (h c u hget)
      · rw [he] at hget ⊢
        simp only at hget ⊢
        by_cases hcc : c = c0
        · subst hcc
          rw [mapGet_mapSet_same] at hget
          have hue : url = u := Option.some.inj hget
          refine ⟨_, mem_set_self hs, hurl.trans hue, ?_⟩
          simp only
          by_cases hcon : s.clients.contains c = true
          · rw [if_pos hcon]
            simpa using hcon
          · rw [if_neg hcon]
            simp
        · rw [mapGet_mapSet_other c0 url c hcc] at hget
          refine exists_server_set hs rfl ?_ (h c u hget)
          intro hc
          simp only
          split_ifs
          · exact hc
          · exact List.mem_append_left _ hc
  | decrementConnections url clientIP =>
    simp only [applyOp] at hget ⊢
    rcases decrementConnections_shape url clientIP p with ⟨_, he⟩ | ⟨r, s, hf, hs, _, hcase⟩
    · rw [he] at hget ⊢
      exact h c u hget
    · rcases hcase with ⟨_, he⟩ | ⟨c0, _, _, he⟩
      · rw [he] at hget ⊢
        exact exists_server_set hs rfl (fun hc => hc) (h c u hget)
      · rw [he] at hget ⊢
        simp only at hget ⊢
        rw [mapGet_mapDelete] at hget
        by_cases hcc : c = c0
        · rw [if_pos hcc] at hget
          simp at hget
        · rw [if_neg hcc] at hget
          refine exists_server_set hs rfl ?_ (h c u hget)
          intro hc
          exact List.mem_filter.mpr ⟨hc, by simpa using hcc⟩
  | updateRequestMetrics url rt success =>
    simp only [applyOp] at hget ⊢
    obtain ⟨hm, _, _, hsv⟩ := updateRequestMetrics_shape url rt success p
    rw [hm] at hget
    rcases hsv with he | ⟨r, s, _, hs, he⟩
    · rw [he]
      exact h c u hget
    · rcases he with he | he
      all_goals
        rw [he.2]
        exact exists_server_set hs rfl (fun hc => hc) (h c u hget)
  | updateAlgorithmMetrics rt success now =>
    exact h c u hget
  | resetMetrics =>
    simp [applyOp, resetMetrics, mapGet] at hget
  | patchServerWeight url w =>
    simp only [applyOp] at hget ⊢
    rcases patchServerWeight_shape url w p with he | ⟨r, s, _, hs, he⟩
    · rw [he] at hget ⊢
      exact h c u hget
    · rw [he] at hget ⊢
      exact exists_server_set hs rfl (fun hc => hc) (h c u hget)

theorem runOps_mapBacked : ∀ (ops : List PoolOp) (p : Pool),
    (∀ op ∈ ops, isRemoveServer op = false) → MapBacked p → MapBacked (runOps ops p) := by
  intro ops
  induction ops with
  | nil => intro p _ h; exact h
  | cons op ops ih =>
    intro p hops h
    exact ih (applyOp op p) (fun o ho => hops o (List.mem_cons_of_mem _ ho))
      (applyOp_mapBacked op (hops op (List.mem_cons_self _ _)) p h)

/-- C13 (counterexample): after registering `A` and `B` and counting a connection of client `c`
on `A` and then on `B`, the client is in the client list of both servers while the map points it
to `B` only, so the client list of `A` and the map disagree. -/
theorem clientMap_consistency_counterexample :
    (runOps sharedClientOps initialPool).servers.map (fun s => (s.url, s.clients)) =
      [("A", ["c"]), ("B", ["c"])] ∧
    mapGet "c" (runOps sharedClientOps initialPool).clientConnections = some "B" ∧
    ¬ ClientConsistent (runOps sharedClientOps initialPool) := by
  have h1 : (runOps sharedClientOps initialPool).servers.map (fun s => (s.url, s.clients)) =
      [("A", ["c"]), ("B", ["c"])] := by decide
  have h2 : mapGet "c" (runOps sharedClientOps initialPool).clientConnections = some "B" := by
    decide
  refine ⟨h1, h2, ?_⟩
  intro hcons
  have hmem : (runOps sharedClientOps initialPool).servers[0]? ≠ none := by decide
  cases hs : (runOps sharedClientOps initialPool).servers[0]? with
  | none => exact hmem hs
  | some s =>
    have hin : s ∈ (runOps sharedClientOps initialPool).servers :=
      List.mem_iff_getElem?.mpr ⟨0, hs⟩
    have hurl : ((runOps sharedClientOps initialPool).servers.map
        (fun s => (s.url, s.clients)))[0]? = some (s.url, s.clients) := by
      rw [List.getElem?_map, hs]
      rfl
    rw [h1] at hurl
    simp only [List.getElem?_cons_zero, Option.some.injEq, Prod.mk.injEq] at hurl
    have hc : "c" ∈ s.clients := by
      rw [← hurl.2]
      simp
    have := (hcons s hin "c").mp hc
    rw [h2, ← hurl.1] at this
    exact absurd this (by decide)

/-- Deregistering a server while a client is connected to it and registering it again leaves a
map entry that names a registered server whose client list is empty. -/
theorem removeServer_readd_map :
    (runOps readdOps initialPool).servers.map (fun s => (s.url, s.clients)) = [("A", [])] ∧
    mapGet "c" (runOps readdOps initialPool).clientConnections = some "A" := by
  constructor <;> decide

/-- C13 (amended): in every state reached from the initial state by operations other than
`removeServer` (among them `addServer`, `incrementConnections`, `decrementConnections` and
`resetMetrics`), whenever the client map points a client to a URL, a server with that URL is
registered and the client is in its client list.  The converse does not hold. -/
theorem clientMap_entries_backed (ops : List PoolOp)
    (hops : ∀ op ∈ ops, isRemoveServer op = false) (c u : String)
    (h : mapGet c (runOps ops initialPool).clientConnections = some u) :
    ∃ s ∈ (runOps ops initialPool).servers, s.url = u ∧ c ∈ s.clients :=
  runOps_mapBacked ops initialPool hops
    (by intro c0 u0 h0; simp [initialPool, mapGet] at h0) c u h

theorem clientMap_entries_backed_witness :
    (∀ op ∈ sharedClientOps, isRemoveServer op = false) ∧
    mapGet "c" (runOps sharedClientOps initialPool).clientConnections = some "B" ∧
    ∃ s ∈ (runOps sharedClientOps initialPool).servers, s.url = "B" ∧ "c" ∈ s.clients :=
  ⟨by decide, by decide,
    clientMap_entries_backed sharedClientOps (by decide) "c" "B" (by decide)⟩

/-! ## The fairness score of an empty or idle pool -/

/-- The total of the request counts of the UP servers is what the code sums. -/
theorem calculateLoadDistributionScore_idle (p : Pool)
    (hup : ∃ s ∈ p.servers, s.status = Status.UP)
    (hload : ((p.servers.filter (fun s => decide (s.status = Status.UP))).map
      Server.totalRequests).sum = 0) :
    calculateLoadDistributionScore p = 100 := by
  obtain ⟨s0, hs0, hst0⟩ := hup
  have hmem : s0 ∈ p.servers.filter (fun s => decide (s.status = Status.UP)) :=
    List.mem_filter.mpr ⟨hs0, by simpa using hst0⟩
  have hlen1 : ¬ p.servers.length = 0 := by
    intro h
    rw [List.length_eq_zero] at h
    rw [h] at hs0
    simp at hs0
  have hlen2 : ¬ (p.servers.filter (fun s => decide (s.status = Status.UP))).length = 0 := by
    intro h
    rw [List.length_eq_zero] at h
    rw [h] at hmem
    simp at hmem
  have htot : (p.servers.filter (fun s => decide (s.status = Status.UP))).foldl
      (fun sum s => sum + s.totalRequests) 0 = 0 := by
    rw [foldl_add_map_nat Server.totalRequests, Nat.zero_add]
    exact hload
  unfold calculateLoadDistributionScore calculateLoadDistributionScoreWith
  simp only [hlen1, hlen2, if_false, htot, if_true]

theorem calculateLoadDistributionScore_no_up (p : Pool)
    (h : ∀ s ∈ p.servers, s.status ≠ Status.UP) : calculateLoadDistributionScore p = 0 := by
  have hfil : p.servers.filter (fun s => decide (s.status = Status.UP)) = [] := by
    rw [List.filter_eq_nil_iff]
    intro s hs
    simpa using h s hs
  unfold calculateLoadDistributionScore calculateLoadDistributionScoreWith
  simp only [hfil, List.length_nil, if_true]
  split_ifs <;> rfl

/-- C21 (counterexample): the fresh pool, with no registered server, scores 0 and not 100, and so
does a pool whose only server has not been probed yet. -/
theorem calculateLoadDistributionScore_empty_counterexample :
    initialPool.servers = [] ∧
    calculateLoadDistributionScore initialPool = 0 ∧
    calculateLoadDistributionScore initialPool ≠ 100 ∧
    (∀ s ∈ (addServer "A" 1 initialPool).servers, s.status ≠ Status.UP) ∧
    calculateLoadDistributionScore (addServer "A" 1 initialPool) = 0 := by
  have h0 : calculateLoadDistributionScore initialPool = 0 :=
    calculateLoadDistributionScore_no_up initialPool (by simp [initialPool])
  have h1 : ∀ s ∈ (addServer "A" 1 initialPool).servers, s.status ≠ Status.UP := by decide
  refine ⟨rfl, h0, ?_, h1, calculateLoadDistributionScore_no_up _ h1⟩
  rw [h0]
  norm_num

/-- C21 (amended): `calculateLoadDistributionScore` returns 0 for a pool with no registered server
and for a pool with no UP server, and 100 for a pool with at least one UP server whose UP servers
have recorded zero requests in total. -/
theorem calculateLoadDistributionScore_degenerate (p : Pool) :
    (p.servers = [] → calculateLoadDistributionScore p = 0) ∧
    ((∀ s ∈ p.servers, s.status ≠ Status.UP) → calculateLoadDistributionScore p = 0) ∧
    ((∃ s ∈ p.servers, s.status = Status.UP) →
      ((p.servers.filter (fun s => decide (s.status = Status.UP))).map
        Server.totalRequests).sum = 0 →
      calculateLoadDistributionScore p = 100) := by
  refine ⟨?_, calculateLoadDistributionScore_no_up p, calculateLoadDistributionScore_idle p⟩
  intro h
  exact calculateLoadDistributionScore_no_up p (by rw [h]; simp)

theorem calculateLoadDistributionScore_degenerate_witness :
    calculateLoadDistributionScore initialPool = 0 ∧
    calculateLoadDistributionScore (addServer "A" 1 initialPool) = 0 ∧
    calculateLoadDistributionScore (checkServerHealth 0 true (addServer "A" 1 initialPool)) = 100 :=
  ⟨(calculateLoadDistributionScore_degenerate initialPool).1 rfl,
    (calculateLoadDistributionScore_degenerate (addServer "A" 1 initialPool)).2.1 (by decide),
    (calculateLoadDistributionScore_degenerate
      (checkServerHealth 0 true (addServer "A" 1 initialPool))).2.2
      ⟨{ newServer "A" 1 with status := Status.UP }, by decide, rfl⟩ (by decide)⟩

/-! ## The active algorithm -/

theorem applyOp_algorithm (op : PoolOp) (p : Pool) :
    (applyOp op p).algorithm = p.algorithm ∨ (applyOp op p).algorithm ∈ availableAlgorithms := by
  cases op with
  | addServer url w =>
    refine Or.inl ?_
    by_cases h : ∃ s ∈ p.servers, s.url = url
    · simp only [applyOp, addServer_of_registered url w p h]
    · simp only [applyOp, addServer_of_fresh url w p (fun s hs hu => h ⟨s, hs, hu⟩)]
  | removeServer url => exact Or.inl rfl
  | setAlgorithm a =>
    by_cases h : a ∈ availableAlgorithms
    · refine Or.inr ?_
      have : availableAlgorithms.contains a = true := by simpa using h
      simp only [applyOp]
      unfold setAlgorithm
      rw [if_pos this]
      exact h
    · refine Or.inl ?_
      have : ¬ availableAlgorithms.contains a = true := by simpa using h
      simp only [applyOp]
      unfold setAlgorithm
      rw [if_neg this]
  | checkServerHealth r ok =>
    refine Or.inl ?_
    rcases checkServerHealth_shape r ok p with h | ⟨s, _, h⟩ <;> simp only [applyOp, h]
  | getNextServer fuel rand =>
    refine Or.inl ?_
    simp only [applyOp]
    cases h : getNextServer fuel rand p with
    | none => rfl
    | some res => exact (getNextServer_frame fuel rand p res.2 res.1 h).2.2.2
  | incrementConnections url c =>
    refine Or.inl ?_
    rcases incrementConnections_shape url c p with ⟨_, h⟩ | ⟨r, s, _, _, ⟨_, h⟩ | ⟨c0, _, h⟩⟩ <;>
      simp only [applyOp, h]
  | decrementConnections url c =>
    refine Or.inl ?_
    rcases decrementConnections_shape url c p with
      ⟨_, h⟩ | ⟨r, s, _, _, _, ⟨_, h⟩ | ⟨c0, _, _, h⟩⟩ <;> simp only [applyOp, h]
  | updateRequestMetrics url rt success =>
    exact Or.inl (updateRequestMetrics_shape url rt success p).2.2.1
  | updateAlgorithmMetrics rt success now => exact Or.inl rfl
  | resetMetrics => exact Or.inl rfl
  | patchServerWeight url w =>
    refine Or.inl ?_
    rcases patchServerWeight_shape url w p with h | ⟨r, s, _, _, h⟩ <;> simp only [applyOp, h]

theorem runOps_append (ops1 ops2 : List PoolOp) (p : Pool) :
    runOps (ops1 ++ ops2) p = runOps ops2 (runOps ops1 p) := by
  unfold runOps
  rw [List.foldl_append]

theorem reachable_algorithm : ∀ p, Reachable p → p.algorithm ∈ availableAlgorithms :=
  reachable_induction (fun p => p.algorithm ∈ availableAlgorithms) (by decide)
    (fun op q hq => by
      rcases applyOp_algorithm op q with h | h
      · rw [h]; exact hq
      · exact h)

/-- C24. In every reachable state (the fresh pool and every state after any sequence of
`setAlgorithm` calls with arbitrary arguments and other pool operations) the active algorithm is
one of the five names, so the `switch` of `getNextServer` always takes one of its five `case`
branches and never the `default` branch. -/
theorem algorithm_always_known (p : Pool) (h : Reachable p) :
    p.algorithm ∈ availableAlgorithms ∧
    (p.algorithm = "ROUND_ROBIN" ∨ p.algorithm = "WEIGHTED_ROUND_ROBIN" ∨
      p.algorithm = "LEAST_CONNECTIONS" ∨ p.algorithm = "RANDOM" ∨
      p.algorithm = "LEAST_RESPONSE_TIME") ∧
    (∀ name, Reachable (setAlgorithm name p).2 ∧
      (setAlgorithm name p).2.algorithm ∈ availableAlgorithms) ∧
    ∀ fuel rand, getNextServer fuel rand p =
      if p.algorithm = "ROUND_ROBIN" then some (getRoundRobinServer p)
      else if p.algorithm = "WEIGHTED_ROUND_ROBIN" then getWeightedRoundRobinServer fuel p
      else if p.algorithm = "LEAST_CONNECTIONS" then some (getLeastConnectionsServer p, p)
      else if p.algorithm = "RANDOM" then some (getRandomServer rand p, p)
      else some (getLeastResponseTimeServer p, p) := by
  have hmem := reachable_algorithm p h
  have hcases : p.algorithm = "ROUND_ROBIN" ∨ p.algorithm = "WEIGHTED_ROUND_ROBIN" ∨
      p.algorithm = "LEAST_CONNECTIONS" ∨ p.algorithm = "RANDOM" ∨
      p.algorithm = "LEAST_RESPONSE_TIME" := by
    simpa [availableAlgorithms] using hmem
  have hreach : ∀ name, Reachable (setAlgorithm name p).2 := by
    intro name
    obtain ⟨ops, hops⟩ := h
    refine ⟨ops ++ [PoolOp.setAlgorithm name], ?_⟩
    rw [runOps_append, hops]
    rfl
  refine ⟨hmem, hcases, fun name => ⟨hreach name, reachable_algorithm _ (hreach name)⟩, ?_⟩
  intro fuel rand
  unfold getNextServer
  rcases hcases with h1 | h1 | h1 | h1 | h1 <;> simp [h1]

theorem algorithm_always_known_witness :
    (setAlgorithm "FASTEST" initialPool).2.algorithm ∈ availableAlgorithms :=
  (algorithm_always_known (setAlgorithm "FASTEST" initialPool).2
    ⟨[PoolOp.setAlgorithm "FASTEST"], rfl⟩).1

/-! ## Health probes -/

theorem downAt_of_set {u : String} {p : Pool} (r : Nat) {s1 : Server} (h : DownAt u p)
    (h1 : s1.url = u → s1.status ≠ Status.UP) :
    ∀ x ∈ p.servers.set r s1, x.url = u → x.status ≠ Status.UP := by
  intro x hx hu
  rcases mem_set_cases hx with rfl | hx
  · exact h1 hu
  · exact h x hx hu

theorem applyOp_downAt (u : String) (op : PoolOp) (p : Pool) (hop : revives u op p = false)
    (h : DownAt u p) : DownAt u (applyOp op p) := by
  have hkeep : ∀ {r : Nat} {s s1 : Server}, p.servers[r]? = some s → s1.url = s.url →
      s1.status = s.status → ∀ x ∈ p.servers.set r s1, x.url = u → x.status ≠ Status.UP := by
    intro r s s1 hs hu hst
    refine downAt_of_set r h ?_
    intro h1
    rw [hst]
    exact h s (List.mem_iff_getElem?.mpr ⟨r, hs⟩) (hu.symm.trans h1)
  cases op with
  | addServer url w =>
    simp only [applyOp]
    by_cases hreg : ∃ s ∈ p.servers, s.url = url
    · rw [addServer_of_registered url w p hreg]
      exact h
    · rw [addServer_of_fresh url w p (fun s hs hu => hreg ⟨s, hs, hu⟩)]
      intro x hx hu
      rcases List.mem_append.mp hx with hx | hx
      · exact h x hx hu
      · rw [List.mem_singleton] at hx
        rw [hx]
        simp [newServer]
  | removeServer url =>
    intro x hx hu
    simp only [applyOp, removeServer] at hx
    exact h x (List.mem_filter.mp hx).1 hu
  | setAlgorithm a =>
    simp only [applyOp]
    unfold setAlgorithm
    split_ifs
    · exact h
    · exact h
  | checkServerHealth r ok =>
    simp only [applyOp]
    rcases checkServerHealth_shape r ok p with he | ⟨s, hs, he⟩
    · rw [he]
      exact h
    · rw [he]
      refine downAt_of_set r h ?_
      intro hu
      cases ok with
      | false => simp
      | true =>
        exfalso
        have hurl : urlAt p.servers r = some u := by
          unfold urlAt
          rw [hs]
          exact congrArg some hu
        simp [revives, hurl] at hop
  | getNextServer fuel rand =>
    simp only [applyOp]
    cases hg : getNextServer fuel rand p with
    | none => exact h
    | some res =>
      obtain ⟨res1, p1⟩ := res
      obtain ⟨hf, _, _, _⟩ := getNextServer_frame fuel rand p p1 res1 hg
      intro x hx hu
      have hmem : clearCurrentWeight x ∈ p.servers.map clearCurrentWeight := by
        rw [← hf]
        exact List.mem_map.mpr ⟨x, hx, rfl⟩
      obtain ⟨x0, hx0, he⟩ := List.mem_map.mp hmem
      have hu1 : x0.url = x.url := by
        have := congrArg Server.url he
        exact this
      have hc1 : x0.status = x.status := by
        have := congrArg Server.status he
        exact this
      rw [← hc1]
      exact h x0 hx0 (hu1.trans hu)
  | incrementConnections url c =>
    simp only [applyOp]
    rcases incrementConnections_shape url c p with ⟨_, he⟩ | ⟨r, s, _, hs, ⟨_, he⟩ | ⟨c0, _, he⟩⟩
    · rw [he]; exact h
    · rw [he]; exact hkeep hs rfl rfl
    · rw [he]; exact hkeep hs rfl rfl
  | decrementConnections url c =>
    simp only [applyOp]
    rcases decrementConnections_shape url c p with
      ⟨_, he⟩ | ⟨r, s, _, hs, _, ⟨_, he⟩ | ⟨c0, _, _, he⟩⟩
    · rw [he]; exact h
    · rw [he]; exact hkeep hs rfl rfl
    · rw [he]; exact hkeep hs rfl rfl
  | updateRequestMetrics url rt success =>
    simp only [applyOp]
    obtain ⟨_, _, _, hsv⟩ := updateRequestMetrics_shape url rt success p
    unfold DownAt
    rcases hsv with he | ⟨r, s, _, hs, ⟨_, he⟩ | ⟨_, he⟩⟩
    · rw [he]; exact h
    · rw [he]; exact hkeep hs rfl rfl
    · rw [he]; exact hkeep hs rfl rfl
  | updateAlgorithmMetrics rt success now => exact h
  | resetMetrics =>
    intro x hx hu
    simp only [applyOp, resetMetrics] at hx
    obtain ⟨x0, hx0, rfl⟩ := List.mem_map.mp hx
    exact h x0 hx0 hu
  | patchServerWeight url w =>
    simp only [applyOp]
    rcases patchServerWeight_shape url w p with he | ⟨r, s, _, hs, he⟩
    · rw [he]; exact h
    · rw [he]; exact hkeep hs rfl rfl

theorem runOps_downAt (u : String) : ∀ (ops : List PoolOp) (p : Pool),
    noRevival u ops p = true → DownAt u p → DownAt u (runOps ops p) := by
  intro ops
  induction ops with
  | nil => intro p _ h; exact h
  | cons op ops ih =>
    intro p hno h
    simp only [noRevival, Bool.and_eq_true, Bool.not_eq_true'] at hno
    exact ih (applyOp op p) hno.2 (applyOp_downAt u op p hno.1 h)

theorem downAt_after_failed_probe (p : Pool) (hnd : (p.servers.map Server.url).Nodup)
    (r : Nat) (s : Server) (hs : p.servers[r]? = some s) :
    DownAt s.url (checkServerHealth r false p) := by
  have he : checkServerHealth r false p =
      { p with servers := p.servers.set r { s with status := Status.DOWN } } := by
    unfold checkServerHealth
    simp only [hs]
    rfl
  rw [he]
  intro x hx hu
  obtain ⟨i, hi⟩ := List.mem_iff_getElem?.mp hx
  simp only at hi
  by_cases hir : i = r
  · subst hir
    have hlt : i < p.servers.length := (List.getElem?_eq_some.mp hs).1
    rw [List.getElem?_set_self hlt] at hi
    rw [← Option.some.inj hi]
    simp
  · exfalso
    rw [List.getElem?_set_ne (fun h2 => hir h2.symm)] at hi
    have h1 : (p.servers.map Server.url)[i]? = some s.url := by
      rw [List.getElem?_map, hi]
      exact congrArg some hu
    have h2 : (p.servers.map Server.url)[r]? = some s.url := by
      rw [List.getElem?_map, hs]
      rfl
    obtain ⟨hil, hia⟩ := List.getElem?_eq_some.mp h1
    obtain ⟨hjl, hja⟩ := List.getElem?_eq_some.mp h2
    exact hir ((hnd.getElem_inj_iff).mp (hia.trans hja.symm))

theorem startupPool_reachable : Reachable startupPool :=
  ⟨[PoolOp.addServer "http://localhost:5001" 2, PoolOp.addServer "http://localhost:5002" 1,
    PoolOp.addServer "http://localhost:5003" 1, PoolOp.checkServerHealth 0 true,
    PoolOp.checkServerHealth 1 true, PoolOp.checkServerHealth 2 true], rfl⟩

/-- C27. In every reachable state a probe event writes the status of the probed server only: UP
when it succeeded, DOWN when it failed or timed out; every other server and every other field is
unchanged.  After a failed probe of a server `s`, in every state reached by operations none of
which is a successful probe of the server registered under the URL of `s`, no call of
`getNextServer` (whatever the active algorithm, the fuel and the draw) returns a server with that
URL. -/
theorem failed_probe_excludes (p : Pool) (hp : Reachable p)
    (r : Nat) (s : Server) (hs : p.servers[r]? = some s) :
    (∀ ok, checkServerHealth r ok p =
      { p with
        servers := p.servers.set r { s with status := if ok then Status.UP else Status.DOWN } }) ∧
    (∀ ok, (checkServerHealth r ok p).servers[r]? =
      some { s with status := if ok then Status.UP else Status.DOWN }) ∧
    (∀ ok i, i ≠ r → (checkServerHealth r ok p).servers[i]? = p.servers[i]?) ∧
    (∀ ops, noRevival s.url ops (checkServerHealth r false p) = true →
      ∀ fuel rand r1 p1,
        getNextServer fuel rand (runOps ops (checkServerHealth r false p)) = some (some r1, p1) →
        urlAt (runOps ops (checkServerHealth r false p)).servers r1 ≠ some s.url) := by
  have he : ∀ ok, checkServerHealth r ok p =
      { p with
        servers := p.servers.set r { s with status := if ok then Status.UP else Status.DOWN } } := by
    intro ok
    unfold checkServerHealth
    simp only [hs]
  have hlt : r < p.servers.length := (List.getElem?_eq_some.mp hs).1
  refine ⟨he, ?_, ?_, ?_⟩
  · intro ok
    rw [he ok]
    exact List.getElem?_set_self hlt
  · intro ok i hi
    rw [he ok]
    exact List.getElem?_set_ne (fun h2 => hi h2.symm)
  · intro ops hno fuel rand r1 p1 hget hurl
    have hdown := runOps_downAt s.url ops _ hno
      (downAt_after_failed_probe p (reachable_urls_nodup p hp) r s hs)
    obtain ⟨x, hx, hup⟩ :=
      mem_upRefs.mp (getNextServer_some_mem_upRefs fuel rand _ p1 r1 hget).1
    unfold urlAt at hurl
    rw [hx] at hurl
    exact hdown x (List.mem_iff_getElem?.mpr ⟨r1, hx⟩) (Option.some.inj hurl) hup

theorem failed_probe_excludes_witness :
    Reachable startupPool ∧
    startupPool.servers[0]? = some { newServer "http://localhost:5001" 2 with status := Status.UP } ∧
    noRevival "http://localhost:5001"
      [PoolOp.checkServerHealth 1 true, PoolOp.setAlgorithm "ROUND_ROBIN"]
      (checkServerHealth 0 false startupPool) = true ∧
    getNextServer 0 0 (runOps [PoolOp.checkServerHealth 1 true, PoolOp.setAlgorithm "ROUND_ROBIN"]
      (checkServerHealth 0 false startupPool)) =
      some (some 1, { runOps [PoolOp.checkServerHealth 1 true,
        PoolOp.setAlgorithm "ROUND_ROBIN"] (checkServerHealth 0 false startupPool) with
        roundRobinIndex := 1 }) ∧
    urlAt (runOps [PoolOp.checkServerHealth 1 true, PoolOp.setAlgorithm "ROUND_ROBIN"]
      (checkServerHealth 0 false startupPool)).servers 1 ≠ some "http://localhost:5001" :=
  ⟨startupPool_reachable, by decide, by decide, by decide,
    (failed_probe_excludes startupPool startupPool_reachable 0
      { newServer "http://localhost:5001" 2 with status := Status.UP } (by decide)).2.2.2
      [PoolOp.checkServerHealth 1 true, PoolOp.setAlgorithm "ROUND_ROBIN"] (by decide)
      0 0 1
      { runOps [PoolOp.checkServerHealth 1 true, PoolOp.setAlgorithm "ROUND_ROBIN"]
        (checkServerHealth 0 false startupPool) with roundRobinIndex := 1 } (by decide)⟩

/-! ## The scan of `getLeastResponseTimeServer` -/

theorem adjustedTimeAt_eq {servers : List Server} {r : Nat} {s : Server}
    (h : servers[r]? = some s) :
    adjustedTimeAt servers r =
      double (double s.avgResponseTime * ((s.connections : ℚ) + 1)) := by
  simp [adjustedTimeAt, h]

/-- The scan started from a finite minimum `m` held by `r0` ends either unchanged or at the first
reference whose adjusted time is the strict minimum. -/
theorem lrtStep_foldl_spec (servers : List Server) :
    ∀ (refs : List Nat), (∀ r ∈ refs, r < servers.length) → ∀ (m : ℚ) (r0 : Nat),
      ∃ m1 r1, refs.foldl (lrtStep servers) (some m, some r0) = (some m1, some r1) ∧
        (∀ r ∈ refs, m1 ≤ adjustedTimeAt servers r) ∧
        ((m1 = m ∧ r1 = r0) ∨
          (m1 < m ∧ adjustedTimeAt servers r1 = m1 ∧
            ∃ l1 l2, refs = l1 ++ r1 :: l2 ∧ ∀ x ∈ l1, m1 < adjustedTimeAt servers x)) := by
  intro refs
  induction refs with
  | nil => intro _ m r0; exact ⟨m, r0, rfl, by simp, Or.inl ⟨rfl, rfl⟩⟩
  | cons r rest ih =>
    intro hv m r0
    have hr : r < servers.length := hv r (List.mem_cons_self _ _)
    have hrest : ∀ x ∈ rest, x < servers.length := fun x hx => hv x (List.mem_cons_of_mem _ hx)
    have hget : servers[r]? = some servers[r] := List.getElem?_eq_getElem hr
    have hsc := adjustedTimeAt_eq hget
    by_cases hlt : adjustedTimeAt servers r < m
    · have hstep : lrtStep servers (some m, some r0) r = (some (adjustedTimeAt servers r), some r) := by
        rw [hsc] at hlt ⊢
        simp [lrtStep, hget, hlt]
      obtain ⟨m1, r1, hf, hall, hcase⟩ := ih hrest (adjustedTimeAt servers r) r
      refine ⟨m1, r1, by rw [List.foldl_cons, hstep, hf], ?_, Or.inr ?_⟩
      · intro x hx
        rcases List.mem_cons.mp hx with rfl | hx
        · rcases hcase with ⟨h1, _⟩ | ⟨h1, _⟩ <;> linarith
        · exact hall x hx
      · rcases hcase with ⟨h1, h2⟩ | ⟨h1, h2, l1, l2, h3, h4⟩
        · subst h2
          exact ⟨by linarith, by linarith, [], rest, rfl, by simp⟩
        · refine ⟨by linarith, h2, r :: l1, l2, by rw [h3]; rfl, ?_⟩
          intro x hx
          rcases List.mem_cons.mp hx with rfl | hx
          · linarith
          · exact h4 x hx
    · have hstep : lrtStep servers (some m, some r0) r = (some m, some r0) := by
        rw [hsc] at hlt
        simp [lrtStep, hget, hlt]
      obtain ⟨m1, r1, hf, hall, hcase⟩ := ih hrest m r0
      refine ⟨m1, r1, by rw [List.foldl_cons, hstep, hf], ?_, ?_⟩
      · intro x hx
        rcases List.mem_cons.mp hx with rfl | hx
        · rcases hcase with ⟨h1, _⟩ | ⟨h1, _⟩ <;> linarith
        · exact hall x hx
      · rcases hcase with ⟨h1, h2⟩ | ⟨h1, h2, l1, l2, h3, h4⟩
        · exact Or.inl ⟨h1, h2⟩
        · refine Or.inr ⟨h1, h2, r :: l1, l2, by rw [h3]; rfl, ?_⟩
          intro x hx
          rcases List.mem_cons.mp hx with rfl | hx
          · linarith
          · exact h4 x hx

/-- The whole scan over a non-empty list of valid references ends at the first reference with
the minimal adjusted time. -/
theorem leastResponseTimeLoop_spec (servers : List Server) (refs : List Nat)
    (hv : ∀ r ∈ refs, r < servers.length) (hne : refs ≠ []) :
    ∃ r1, leastResponseTimeLoop servers refs = (some (adjustedTimeAt servers r1), some r1) ∧
      (∀ r ∈ refs, adjustedTimeAt servers r1 ≤ adjustedTimeAt servers r) ∧
      ∃ l1 l2, refs = l1 ++ r1 :: l2 ∧
        ∀ x ∈ l1, adjustedTimeAt servers r1 < adjustedTimeAt servers x := by
  cases refs with
  | nil => exact absurd rfl hne
  | cons r rest =>
    have hr : r < servers.length := hv r (List.mem_cons_self _ _)
    have hrest : ∀ x ∈ rest, x < servers.length := fun x hx => hv x (List.mem_cons_of_mem _ hx)
    have hget : servers[r]? = some servers[r] := List.getElem?_eq_getElem hr
    have hsc := adjustedTimeAt_eq hget
    have hstep : lrtStep servers (none, none) r = (some (adjustedTimeAt servers r), some r) := by
      rw [hsc]
      simp [lrtStep, hget]
    obtain ⟨m1, r1, hf, hall, hcase⟩ :=
      lrtStep_foldl_spec servers rest hrest (adjustedTimeAt servers r) r
    rw [leastResponseTimeLoop_eq, List.foldl_cons, hstep, hf]
    rcases hcase with ⟨h1, h2⟩ | ⟨h1, h2, l1, l2, h3, h4⟩
    · subst h2
      refine ⟨r1, by rw [h1], ?_, [], rest, rfl, by simp⟩
      intro x hx
      rcases List.mem_cons.mp hx with rfl | hx
      · exact le_refl _
      · have := hall x hx
        linarith
    · refine ⟨r1, by rw [h2], ?_, r :: l1, l2, by rw [h3]; rfl, ?_⟩
      · intro x hx
        rcases List.mem_cons.mp hx with rfl | hx
        · linarith
        · have := hall x hx
          linarith
      · intro x hx
        rcases List.mem_cons.mp hx with rfl | hx
        · linarith
        · have := h4 x hx
          linarith

theorem tiePool_servers :
    tiePool.servers =
      [{ newServer "a" 1 with
          status := Status.UP, totalRequests := 3, successfulRequests := 3,
          totalResponseTime := 5, avgResponseTime := 5 / 3 },
       { newServer "b" 1 with
          status := Status.UP, connections := 4, totalRequests := 3, successfulRequests := 3,
          totalResponseTime := 1, avgResponseTime := 1 / 3, clients := ["c"] }] := by
  simp [tiePool, tieOps, runOps, applyOp, addServer, findRef, checkServerHealth,
    updateRequestMetrics, incrementConnections, truthyClient, newServer, initialPool]
  norm_num

theorem double_five_thirds :
    double (5 / 3) = 7505999378950827 / 4503599627370496 := by
  rw [double_eq_of_nat (5 / 3) 52 7505999378950827 (by norm_num) (by norm_num)
    (by rw [abs_lt]; constructor <;> norm_num)]
  norm_num

theorem double_one_third :
    double (1 / 3) = 6004799503160661 / 18014398509481984 := by
  rw [double_eq_of_nat (1 / 3) 54 6004799503160661 (by norm_num) (by norm_num)
    (by rw [abs_lt]; constructor <;> norm_num)]
  norm_num

theorem double_five_thirds_fixed :
    double (7505999378950827 / 4503599627370496) = 7505999378950827 / 4503599627370496 := by
  rw [double_eq_of_nat (7505999378950827 / 4503599627370496) 52 7505999378950827 (by norm_num)
    (by norm_num) (by rw [abs_lt]; constructor <;> norm_num)]
  norm_num

theorem double_five_times_third :
    double (30023997515803305 / 18014398509481984) = 7505999378950826 / 4503599627370496 := by
  rw [double_eq_of_nat (30023997515803305 / 18014398509481984) 52 7505999378950826
    (by norm_num) (by norm_num) (by rw [abs_lt]; constructor <;> norm_num)]
  norm_num

theorem tiePool_upRefs : upRefs tiePool.servers = [0, 1] := by
  rw [tiePool_servers]
  decide

theorem getLeastResponseTimeServer_tiePool : getLeastResponseTimeServer tiePool = some 1 := by
  unfold getLeastResponseTimeServer
  simp only [tiePool_upRefs]
  rw [leastResponseTimeLoop_eq]
  simp only [List.foldl_cons, List.foldl_nil, lrtStep, tiePool_servers]
  norm_num [newServer, double_five_thirds, double_one_third, double_five_thirds_fixed,
    double_five_times_third]
  intro h
  exact absurd h (by simp)

/-- C26 (counterexample): `a` has answered three requests in 5 ms in total and holds no
connection, `b` has answered three requests in 1 ms in total and holds four connections.  The
products `5/3 * 1` and `1/3 * 5` are equal, so the first UP server of minimal score is `a`
(position 0), yet `getLeastResponseTimeServer` returns `b` (position 1): in doubles the second
product is smaller. -/
theorem getLeastResponseTimeServer_tie_counterexample :
    Reachable tiePool ∧
    tiePool.servers.map (fun s => (s.url, s.status, s.avgResponseTime, s.connections)) =
      [("a", Status.UP, 5 / 3, 0), ("b", Status.UP, 1 / 3, 4)] ∧
    (5 / 3 : ℚ) * (((0 : Nat) : ℚ) + 1) = 1 / 3 * (((4 : Nat) : ℚ) + 1) ∧
    getLeastResponseTimeServer tiePool = some 1 ∧
    getLeastResponseTimeServer tiePool ≠ some 0 := by
  refine ⟨⟨tieOps, rfl⟩, ?_, by norm_num, getLeastResponseTimeServer_tiePool, ?_⟩
  · rw [tiePool_servers]
    simp [newServer]
  · rw [getLeastResponseTimeServer_tiePool]
    simp

/-- C26 (amended): with at least one UP server, let the score of an UP server be the double
`adjustedTime` the code computes, the product `avgResponseTime * (connections + 1)` rounded to
the nearest double.  There is a first UP server in registry order whose score is minimal; if that
minimal score is 0, `getLeastResponseTimeServer` returns exactly what `getLeastConnectionsServer`
returns, otherwise it returns that server. -/
theorem getLeastResponseTimeServer_min_or_fallback (p : Pool)
    (hup : ∃ s ∈ p.servers, s.status = Status.UP) :
    ∃ r s, p.servers[r]? = some s ∧ s.status = Status.UP ∧
      (∀ r1 s1, p.servers[r1]? = some s1 → s1.status = Status.UP →
        adjustedTime s ≤ adjustedTime s1 ∧ (adjustedTime s1 = adjustedTime s → r ≤ r1)) ∧
      (adjustedTime s = 0 → getLeastResponseTimeServer p = getLeastConnectionsServer p) ∧
      (adjustedTime s ≠ 0 → getLeastResponseTimeServer p = some r) := by
  obtain ⟨r, hloop, hmin, l1, l2, hsplit, hfirst⟩ :=
    leastResponseTimeLoop_spec p.servers (upRefs p.servers) (fun r hr => upRefs_lt hr)
      (upRefs_ne_nil hup)
  have hrmem : r ∈ upRefs p.servers := by rw [hsplit]; simp
  obtain ⟨s, hs, hst⟩ := mem_upRefs.mp hrmem
  have hat : ∀ {r0 : Nat} {s0 : Server}, p.servers[r0]? = some s0 →
      adjustedTimeAt p.servers r0 = adjustedTime s0 := fun h0 => adjustedTimeAt_eq h0
  rw [hat hs] at hloop
  refine ⟨r, s, hs, hst, ?_, ?_, ?_⟩
  · intro r1 s1 hs1 hst1
    have hmem1 : r1 ∈ upRefs p.servers := mem_upRefs.mpr ⟨s1, hs1, hst1⟩
    have hle := hmin r1 hmem1
    rw [hat hs, hat hs1] at hle
    refine ⟨hle, fun heq => ?_⟩
    have hsorted := upRefs_sorted p.servers
    rw [hsplit] at hsorted hmem1
    rcases List.mem_append.mp hmem1 with h1 | h1
    · have := hfirst r1 h1
      rw [hat hs, hat hs1] at this
      exact absurd this (by rw [heq]; exact lt_irrefl _)
    · rcases List.mem_cons.mp h1 with h2 | h2
      · exact le_of_eq h2.symm
      · have h3 := (List.pairwise_append.mp hsorted).2.1
        exact le_of_lt ((List.pairwise_cons.mp h3).1 r1 h2)
  · intro hz
    unfold getLeastResponseTimeServer
    simp only [upRefs_length_ne_zero hup, if_false, hloop, hz]
    simp
  · intro hnz
    unfold getLeastResponseTimeServer
    simp only [upRefs_length_ne_zero hup, if_false, hloop]
    simp [hnz]

theorem getLeastResponseTimeServer_min_or_fallback_witness :
    ∃ r s, tiePool.servers[r]? = some s ∧ s.status = Status.UP ∧
      (∀ r1 s1, tiePool.servers[r1]? = some s1 → s1.status = Status.UP →
        adjustedTime s ≤ adjustedTime s1 ∧ (adjustedTime s1 = adjustedTime s → r ≤ r1)) ∧
      (adjustedTime s = 0 →
        getLeastResponseTimeServer tiePool = getLeastConnectionsServer tiePool) ∧
      (adjustedTime s ≠ 0 → getLeastResponseTimeServer tiePool = some r) :=
  getLeastResponseTimeServer_min_or_fallback tiePool
    ⟨{ newServer "a" 1 with
        status := Status.UP, totalRequests := 3, successfulRequests := 3,
        totalResponseTime := 5, avgResponseTime := 5 / 3 },
      by rw [tiePool_servers]; simp, rfl⟩

/-! ## The analysis of the algorithms -/

theorem analyze_comparison_eq (p : Pool) :
    (analyzeAlgorithmPerformance p).algorithmComparison = sortScores (collectScores p) := by
  unfold analyzeAlgorithmPerformance
  simp only
  by_cases h : (sortScores (collectScores p)).length > 1
  · rw [if_pos h]
    split <;> rfl
  · rw [if_neg h]

theorem sortScores_perm (l : List AlgorithmScore) : (sortScores l).Perm l :=
  List.perm_insertionSort _ l

theorem sortScores_sorted (l : List AlgorithmScore) :
    (sortScores l).Pairwise (fun a b => b.compositeScore ≤ a.compositeScore) := by
  haveI : IsTotal AlgorithmScore (fun a b => b.compositeScore ≤ a.compositeScore) :=
    ⟨fun a b => le_total _ _⟩
  haveI : IsTrans AlgorithmScore (fun a b => b.compositeScore ≤ a.compositeScore) :=
    ⟨fun a b c hab hbc => le_trans hbc hab⟩
  exact List.sorted_insertionSort _ l

theorem mem_collectScores (p : Pool) (e : AlgorithmScore) :
    e ∈ collectScores p ↔
      ∃ kv ∈ p.algorithmMetrics, ¬ (kv.2.totalRequests = 0 ∧ kv.1 ≠ p.algorithm) ∧
        e = scoreAlgorithm kv.1 kv.2 := by
  unfold collectScores
  rw [List.mem_filterMap]
  constructor
  · rintro ⟨kv, hkv, h⟩
    by_cases hc : kv.2.totalRequests = 0 ∧ kv.1 ≠ p.algorithm
    · rw [if_pos hc] at h
      simp at h
    · rw [if_neg hc] at h
      exact ⟨kv, hkv, hc, (Option.some.inj h).symm⟩
  · rintro ⟨kv, hkv, hc, h⟩
    exact ⟨kv, hkv, by rw [if_neg hc, h]⟩

theorem scoreAlgorithm_compositeScore (a : String) (m : AlgorithmMetrics) :
    (scoreAlgorithm a m).compositeScore =
      4 / 10 * (if 0 < m.avgResponseTime then max 0 (100 - m.avgResponseTime / 10) else 50) +
      3 / 10 * (if 0 < m.totalRequests then
        100 * (m.successfulRequests : ℚ) / (m.totalRequests : ℚ) else 50) +
      3 / 10 * m.loadDistributionScore := by
  unfold scoreAlgorithm
  simp only [gt_iff_lt]
  split_ifs <;> ring

theorem instantPool_metrics :
    instantPool.algorithmMetrics =
      [("ROUND_ROBIN", emptyMetrics), ("WEIGHTED_ROUND_ROBIN", emptyMetrics),
       ("LEAST_CONNECTIONS",
         recordOutcome 0 true 0 (calculateLoadDistributionScore initialPool) emptyMetrics),
       ("RANDOM", emptyMetrics), ("LEAST_RESPONSE_TIME", emptyMetrics)] := rfl

theorem instantPool_entry :
    scoreAlgorithm "LEAST_CONNECTIONS"
        (recordOutcome 0 true 0 (calculateLoadDistributionScore initialPool) emptyMetrics) ∈
      (analyzeAlgorithmPerformance instantPool).algorithmComparison := by
  rw [analyze_comparison_eq]
  refine (sortScores_perm _).mem_iff.mpr ((mem_collectScores _ _).mpr
    ⟨("LEAST_CONNECTIONS",
      recordOutcome 0 true 0 (calculateLoadDistributionScore initialPool) emptyMetrics),
      ?_, ?_, rfl⟩)
  · rw [instantPool_metrics]
    simp
  · intro h
    exact h.2 rfl

/-- C22 (amended): every entry of the comparison is the score of a record of the Algorithm
Metrics with `compositeScore = 0.4*responseScore + 0.3*reliabilityScore + 0.3*distributionScore`,
where responseScore is `max(0, 100 - avgResponseTime/10)` if `avgResponseTime > 0` and 50
otherwise, reliabilityScore is `100 * successfulRequests / totalRequests` if `totalRequests > 0`
and 50 otherwise, and distributionScore is the stored fairness score. -/
theorem analyze_compositeScore (p : Pool) :
    ∀ e ∈ (analyzeAlgorithmPerformance p).algorithmComparison,
      ∃ m, (e.algorithm, m) ∈ p.algorithmMetrics ∧
        (0 < m.totalRequests ∨ e.algorithm = p.algorithm) ∧
        e.distributionScore = m.loadDistributionScore ∧
        e.compositeScore =
          4 / 10 * (if 0 < m.avgResponseTime then max 0 (100 - m.avgResponseTime / 10)
            else 50) +
          3 / 10 * (if 0 < m.totalRequests then
            100 * (m.successfulRequests : ℚ) / (m.totalRequests : ℚ) else 50) +
          3 / 10 * m.loadDistributionScore := by
  intro e he
  rw [analyze_comparison_eq] at he
  have he2 := (sortScores_perm _).mem_iff.mp he
  obtain ⟨kv, hkv, hc, rfl⟩ := (mem_collectScores p e).mp he2
  refine ⟨kv.2, hkv, ?_, rfl, scoreAlgorithm_compositeScore kv.1 kv.2⟩
  by_cases h0 : kv.2.totalRequests = 0
  · right
    by_contra hne
    exact hc ⟨h0, hne⟩
  · left
    exact Nat.pos_of_ne_zero h0

theorem analyze_compositeScore_witness :
    scoreAlgorithm "LEAST_CONNECTIONS"
        (recordOutcome 0 true 0 (calculateLoadDistributionScore initialPool) emptyMetrics) ∈
      (analyzeAlgorithmPerformance instantPool).algorithmComparison ∧
    ∃ m, ("LEAST_CONNECTIONS", m) ∈ instantPool.algorithmMetrics ∧
      (0 < m.totalRequests ∨ "LEAST_CONNECTIONS" = instantPool.algorithm) ∧
      (scoreAlgorithm "LEAST_CONNECTIONS"
        (recordOutcome 0 true 0 (calculateLoadDistributionScore initialPool)
          emptyMetrics)).distributionScore = m.loadDistributionScore ∧
      (scoreAlgorithm "LEAST_CONNECTIONS"
        (recordOutcome 0 true 0 (calculateLoadDistributionScore initialPool)
          emptyMetrics)).compositeScore =
        4 / 10 * (if 0 < m.avgResponseTime then max 0 (100 - m.avgResponseTime / 10)
          else 50) +
        3 / 10 * (if 0 < m.totalRequests then
          100 * (m.successfulRequests : ℚ) / (m.totalRequests : ℚ) else 50) +
        3 / 10 * m.loadDistributionScore :=
  ⟨instantPool_entry, analyze_compositeScore instantPool _ instantPool_entry⟩

/-- C22 (counterexample): after one successful request that took 0 ms on the fresh pool, the
record of the active algorithm has one sample and average 0; the code scores its response time
50 and its composite 50, where the claim's formula gives 100 and 70. -/
theorem analyze_compositeScore_counterexample :
    ∃ e m, e ∈ (analyzeAlgorithmPerformance instantPool).algorithmComparison ∧
      metricsGet e.algorithm instantPool.algorithmMetrics = some m ∧
      0 < m.totalRequests ∧ m.avgResponseTime = 0 ∧
      e.compositeScore = 50 ∧ specCompositeScore m = 70 ∧
      e.compositeScore ≠ specCompositeScore m := by
  have hscore : calculateLoadDistributionScore initialPool = 0 :=
    calculateLoadDistributionScore_no_up initialPool (by simp [initialPool])
  have hc : (scoreAlgorithm "LEAST_CONNECTIONS"
      (recordOutcome 0 true 0 (calculateLoadDistributionScore initialPool)
        emptyMetrics)).compositeScore = 50 := by
    rw [scoreAlgorithm_compositeScore, hscore]
    simp [recordOutcome, emptyMetrics]
    norm_num
  have hs : specCompositeScore
      (recordOutcome 0 true 0 (calculateLoadDistributionScore initialPool) emptyMetrics) = 70 := by
    rw [hscore]
    simp [specCompositeScore, recordOutcome, emptyMetrics]
    norm_num
  refine ⟨scoreAlgorithm "LEAST_CONNECTIONS"
      (recordOutcome 0 true 0 (calculateLoadDistributionScore initialPool) emptyMetrics),
    recordOutcome 0 true 0 (calculateLoadDistributionScore initialPool) emptyMetrics,
    ?_, rfl, ?_, ?_, hc, hs, ?_⟩
  · exact instantPool_entry
  · simp [recordOutcome, emptyMetrics]
  · simp [recordOutcome, emptyMetrics]
  · rw [hc, hs]
    norm_num

theorem metricsUpdate_keys (key : String) (f : AlgorithmMetrics → AlgorithmMetrics) :
    ∀ (m : List (String × AlgorithmMetrics)),
      (metricsUpdate key f m).map Prod.fst = m.map Prod.fst := by
  intro m
  induction m with
  | nil => rfl
  | cons e rest ih =>
    unfold metricsUpdate
    by_cases he : e.1 = key
    · rw [if_pos he]
      rfl
    · rw [if_neg he, List.map_cons, List.map_cons, ih]

theorem reachable_metrics_keys :
    ∀ p, Reachable p → p.algorithmMetrics.map Prod.fst = availableAlgorithms :=
  reachable_induction (fun p => p.algorithmMetrics.map Prod.fst = availableAlgorithms) rfl
    (fun op q hq => by
      rcases applyOp_algorithmMetrics op q with h | ⟨rt, success, now, score, h⟩
      · rw [h]; exact hq
      · rw [h, metricsUpdate_keys]; exact hq)

theorem metricsGet_some_mem (a : String) (x : AlgorithmMetrics) :
    ∀ (m : List (String × AlgorithmMetrics)), metricsGet a m = some x → (a, x) ∈ m := by
  intro m
  induction m with
  | nil => intro h; simp [metricsGet] at h
  | cons e rest ih =>
    intro h
    unfold metricsGet at h
    by_cases he : e.1 = a
    · rw [if_pos he] at h
      have h2 : e = (a, x) := Prod.ext he (Option.some.inj h)
      rw [h2]
      exact List.mem_cons_self _ _
    · rw [if_neg he] at h
      exact List.mem_cons_of_mem _ (ih h)

theorem metricsGet_of_mem_nodup (a : String) (x : AlgorithmMetrics) :
    ∀ (m : List (String × AlgorithmMetrics)), (m.map Prod.fst).Nodup → (a, x) ∈ m →
      metricsGet a m = some x := by
  intro m
  induction m with
  | nil => intro _ h; simp at h
  | cons e rest ih =>
    intro hnd h
    rw [List.map_cons, List.nodup_cons] at hnd
    unfold metricsGet
    rcases List.mem_cons.mp h with h | h
    · rw [← h]
      simp
    · have hne : ¬ e.1 = a := by
        intro he
        apply hnd.1
        rw [he]
        exact List.mem_map.mpr ⟨(a, x), h, rfl⟩
      rw [if_neg hne]
      exact ih hnd.2 h

theorem availableAlgorithms_nodup : availableAlgorithms.Nodup := by decide

theorem collectScores_names_sublist (algorithm : String) :
    ∀ (m : List (String × AlgorithmMetrics)),
      ((m.filterMap (fun kv =>
        if kv.2.totalRequests = 0 ∧ kv.1 ≠ algorithm then none
        else some (scoreAlgorithm kv.1 kv.2))).map AlgorithmScore.algorithm).Sublist
        (m.map Prod.fst) := by
  intro m
  induction m with
  | nil => simp
  | cons e rest ih =>
    by_cases hc : e.2.totalRequests = 0 ∧ e.1 ≠ algorithm
    · rw [List.filterMap_cons_none (by rw [if_pos hc]), List.map_cons]
      exact List.Sublist.cons _ ih
    · rw [List.filterMap_cons_some (by rw [if_neg hc]), List.map_cons, List.map_cons]
      exact List.Sublist.cons₂ _ ih

/-- C23. In every reachable state the comparison returned by `analyzeAlgorithmPerformance` holds
exactly one entry for each algorithm that has recorded usage (`totalRequests > 0`) or is the
active algorithm, no other entry, and its entries are in order of non-increasing composite
score. -/
theorem analyze_comparison_entries (p : Pool) (h : Reachable p) :
    ((analyzeAlgorithmPerformance p).algorithmComparison.map AlgorithmScore.algorithm).Nodup ∧
    (∀ a, a ∈ (analyzeAlgorithmPerformance p).algorithmComparison.map AlgorithmScore.algorithm ↔
      (a = p.algorithm ∨ ∃ m, metricsGet a p.algorithmMetrics = some m ∧ 0 < m.totalRequests)) ∧
    (analyzeAlgorithmPerformance p).algorithmComparison.Pairwise
      (fun x y => y.compositeScore ≤ x.compositeScore) := by
  have hkeys := reachable_metrics_keys p h
  have halg := reachable_algorithm p h
  have hnd : (p.algorithmMetrics.map Prod.fst).Nodup := by
    rw [hkeys]
    exact availableAlgorithms_nodup
  rw [analyze_comparison_eq]
  refine ⟨?_, ?_, sortScores_sorted _⟩
  · refine ((sortScores_perm (collectScores p)).map AlgorithmScore.algorithm).nodup_iff.mpr ?_
    exact (collectScores_names_sublist p.algorithm p.algorithmMetrics).nodup hnd
  · intro a
    rw [List.mem_map]
    constructor
    · rintro ⟨e, he, rfl⟩
      obtain ⟨kv, hkv, hc, rfl⟩ :=
        (mem_collectScores p e).mp ((sortScores_perm _).mem_iff.mp he)
      by_cases h0 : kv.2.totalRequests = 0
      · left
        by_contra hne
        exact hc ⟨h0, hne⟩
      · right
        exact ⟨kv.2, metricsGet_of_mem_nodup kv.1 kv.2 _ hnd hkv, Nat.pos_of_ne_zero h0⟩
    · intro hcase
      have hex : ∃ kv ∈ p.algorithmMetrics,
          ¬ (kv.2.totalRequests = 0 ∧ kv.1 ≠ p.algorithm) ∧ kv.1 = a := by
        rcases hcase with rfl | ⟨m, hm, hpos⟩
        · rw [← hkeys] at halg
          obtain ⟨kv, hkv, hk⟩ := List.mem_map.mp halg
          exact ⟨kv, hkv, fun hc => hc.2 hk, hk⟩
        · exact ⟨(a, m), metricsGet_some_mem a m _ hm, fun hc => by
            have := hc.1
            simp only at this
            omega, rfl⟩
      obtain ⟨kv, hkv, hc, hk⟩ := hex
      exact ⟨scoreAlgorithm kv.1 kv.2,
        (sortScores_perm _).mem_iff.mpr ((mem_collectScores p _).mpr ⟨kv, hkv, hc, rfl⟩), hk⟩

theorem analyze_comparison_entries_witness :
    ((analyzeAlgorithmPerformance comparedPool).algorithmComparison.map
      AlgorithmScore.algorithm).Nodup ∧
    (∀ a, a ∈ (analyzeAlgorithmPerformance comparedPool).algorithmComparison.map
        AlgorithmScore.algorithm ↔
      (a = comparedPool.algorithm ∨
        ∃ m, metricsGet a comparedPool.algorithmMetrics = some m ∧ 0 < m.totalRequests)) ∧
    (analyzeAlgorithmPerformance comparedPool).algorithmComparison.Pairwise
      (fun x y => y.compositeScore ≤ x.compositeScore) :=
  analyze_comparison_entries comparedPool
    ⟨[PoolOp.addServer "A" 2, PoolOp.updateAlgorithmMetrics 10 true 0,
      PoolOp.setAlgorithm "ROUND_ROBIN"], rfl⟩

theorem sortScores_length (l : List AlgorithmScore) : (sortScores l).length = l.length :=
  (sortScores_perm l).length_eq

/-- With at most one scored algorithm the analysis recommends only to try other algorithms. -/
theorem analyze_recommendations_single (p : Pool)
    (h : ¬ 1 < (analyzeAlgorithmPerformance p).algorithmComparison.length) :
    (analyzeAlgorithmPerformance p).recommendations =
      [Recommendation.useDifferentAlgorithms] := by
  rw [analyze_comparison_eq] at h
  unfold analyzeAlgorithmPerformance
  simp only
  rw [if_neg h]

/-- With more than one scored algorithm the recommendation of the weighted round robin is pushed
exactly when some registered server has a weight other than 1. -/
theorem analyze_recommendations_weighted (p : Pool)
    (h : 1 < (analyzeAlgorithmPerformance p).algorithmComparison.length) :
    Recommendation.weightedServers ∈ (analyzeAlgorithmPerformance p).recommendations ↔
      ∃ s ∈ p.servers, s.weight ≠ 1 := by
  rw [analyze_comparison_eq] at h
  have hany : (p.servers.any (fun s => decide (s.weight ≠ 1)) = true) ↔
      ∃ s ∈ p.servers, s.weight ≠ 1 := by
    simp
  have hne : sortScores (collectScores p) ≠ [] := by
    intro h0
    rw [h0] at h
    simp at h
  obtain ⟨best, hbest⟩ : ∃ best, (sortScores (collectScores p)).head? = some best := by
    cases hl : sortScores (collectScores p) with
    | nil => exact absurd hl hne
    | cons a l => exact ⟨a, rfl⟩
  obtain ⟨worst, hworst⟩ : ∃ worst, (sortScores (collectScores p)).getLast? = some worst :=
    ⟨_, List.getLast?_eq_getLast _ hne⟩
  rw [← hany]
  unfold analyzeAlgorithmPerformance
  simp only
  rw [if_pos h, hbest, hworst]
  simp only [List.mem_append]
  constructor
  · rintro ((((h1 | h1) | h1) | h1) | h1)
    · split_ifs at h1 <;> simp at h1
    · split_ifs at h1 <;> simp at h1
    · split at h1
      · split_ifs at h1 <;> simp at h1
      · simp at h1
    · by_contra hno
      rw [if_neg hno] at h1
      simp at h1
    · split_ifs at h1 <;> simp at h1
  · intro hw
    refine Or.inl (Or.inr ?_)
    rw [if_pos hw]
    simp

/-- C25 (counterexample): on the fresh pool with one server of weight 2 only the active algorithm
is scored, and the only recommendation is to try other algorithms. -/
theorem analyze_weighted_counterexample :
    (∃ s ∈ weightedPool.servers, s.weight ≠ 1) ∧
    (analyzeAlgorithmPerformance weightedPool).recommendations =
      [Recommendation.useDifferentAlgorithms] ∧
    Recommendation.weightedServers ∉ (analyzeAlgorithmPerformance weightedPool).recommendations := by
  have hlen : ¬ 1 < (analyzeAlgorithmPerformance weightedPool).algorithmComparison.length := by
    rw [analyze_comparison_eq, sortScores_length]
    decide
  have hrec := analyze_recommendations_single weightedPool hlen
  refine ⟨⟨newServer "A" 2, by decide, by decide⟩, hrec, ?_⟩
  rw [hrec]
  decide

/-- C25 (amended): for every pool state in which more than one algorithm is scored (the
comparison has more than one entry) and some registered server has a weight other than 1, the
recommendations returned by `analyzeAlgorithmPerformance` include the one suggesting
WEIGHTED_ROUND_ROBIN; when at most one algorithm is scored, the only recommendation is to try
other algorithms. -/
theorem analyze_recommends_weighted (p : Pool) :
    (1 < (analyzeAlgorithmPerformance p).algorithmComparison.length →
      (∃ s ∈ p.servers, s.weight ≠ 1) →
      Recommendation.weightedServers ∈ (analyzeAlgorithmPerformance p).recommendations) ∧
    (¬ 1 < (analyzeAlgorithmPerformance p).algorithmComparison.length →
      (analyzeAlgorithmPerformance p).recommendations =
        [Recommendation.useDifferentAlgorithms]) :=
  ⟨fun h hw => (analyze_recommendations_weighted p h).mpr hw,
    analyze_recommendations_single p⟩

theorem analyze_recommends_weighted_witness :
    1 < (analyzeAlgorithmPerformance comparedPool).algorithmComparison.length ∧
    (∃ s ∈ comparedPool.servers, s.weight ≠ 1) ∧
    Recommendation.weightedServers ∈ (analyzeAlgorithmPerformance comparedPool).recommendations :=
  ⟨by rw [analyze_comparison_eq, sortScores_length]; decide,
    ⟨newServer "A" 2, by decide, by decide⟩,
    (analyze_recommends_weighted comparedPool).1
      (by rw [analyze_comparison_eq, sortScores_length]; decide)
      ⟨newServer "A" 2, by decide, by decide⟩⟩

/-! ## Weighted round robin: the iterations of one call -/

theorem wrrLoop_succ (avail : List Nat) (T M : Int) (fuel index : Nat) (servers : List Server)
    (r : Nat) (server : Server) (hr : avail[(index + 1) % avail.length]? = some r)
    (hs : servers[r]? = some server) :
    wrrLoop avail T M (fuel + 1) index servers =
      if server.currentWeight + server.weight ≥ M then
        some (r, (index + 1) % avail.length,
          servers.set r { server with
            currentWeight := server.currentWeight + server.weight - T })
      else
        wrrLoop avail T M fuel ((index + 1) % avail.length)
          (servers.set r { server with
            currentWeight := server.currentWeight + server.weight }) := by
  rw [wrrLoop]
  simp only [hr, hs]

theorem wrrLoop_some_visit (avail : List Nat) (T M : Int) (fuel index : Nat)
    (servers : List Server) (res : Nat × Nat × List Server)
    (h : wrrLoop avail T M (fuel + 1) index servers = some res) :
    ∃ r server, avail[(index + 1) % avail.length]? = some r ∧ servers[r]? = some server := by
  rw [wrrLoop] at h
  simp only at h
  cases hr : avail[(index + 1) % avail.length]? with
  | none => rw [hr] at h; simp at h
  | some r =>
    cases hs : servers[r]? with
    | none => rw [hr] at h; simp only at h; rw [hs] at h; simp at h
    | some server => exact ⟨r, server, rfl, hs⟩

theorem wrrVisit_eq (avail : List Nat) (index : Nat) (servers : List Server)
    (r : Nat) (server : Server) (hr : avail[(index + 1) % avail.length]? = some r)
    (hs : servers[r]? = some server) :
    wrrVisit avail (index, servers) =
      ((index + 1) % avail.length,
        servers.set r { server with currentWeight := server.currentWeight + server.weight }) := by
  unfold wrrVisit
  simp only [hr, hs]

theorem wrrLoop_fuel_mono (avail : List Nat) (T M : Int) :
    ∀ (fuel index : Nat) (servers : List Server) (res : Nat × Nat × List Server),
      wrrLoop avail T M fuel index servers = some res →
        ∀ extra, wrrLoop avail T M (fuel + extra) index servers = some res := by
  intro fuel
  induction fuel with
  | zero => intro index servers res h; simp [wrrLoop] at h
  | succ fuel ih =>
    intro index servers res h extra
    obtain ⟨r, server, hr, hs⟩ := wrrLoop_some_visit avail T M fuel index servers res h
    rw [show fuel + 1 + extra = (fuel + extra) + 1 by omega]
    rw [wrrLoop_succ avail T M _ index servers r server hr hs] at h ⊢
    by_cases hge : server.currentWeight + server.weight ≥ M
    · rw [if_pos hge] at h ⊢
      exact h
    · rw [if_neg hge] at h ⊢
      exact ih _ _ _ h extra

/-- A returning run of the loop returns at the first iteration whose visited server reaches
`maxWeight`: it makes exactly `k + 1` iterations, each of which writes what `wrrVisit` writes, and
`totalWeight` is taken from the server returned. -/
theorem wrrLoop_first_reaching (avail : List Nat) (T M : Int) :
    ∀ (fuel index : Nat) (servers : List Server) (res : Nat × Nat × List Server),
      wrrLoop avail T M fuel index servers = some res →
      ∃ k r server, k < fuel ∧
        avail[((wrrVisit avail)^[k + 1] (index, servers)).1]? = some r ∧
        ((wrrVisit avail)^[k + 1] (index, servers)).2[r]? = some server ∧
        M ≤ server.currentWeight ∧
        (∀ j, j < k → ∀ r1 s1,
          avail[((wrrVisit avail)^[j + 1] (index, servers)).1]? = some r1 →
          ((wrrVisit avail)^[j + 1] (index, servers)).2[r1]? = some s1 →
          s1.currentWeight < M) ∧
        res = (r, ((wrrVisit avail)^[k + 1] (index, servers)).1,
          ((wrrVisit avail)^[k + 1] (index, servers)).2.set r
            { server with currentWeight := server.currentWeight - T }) ∧
        wrrLoop avail T M (k + 1) index servers = some res ∧
        wrrLoop avail T M k index servers = none := by
  intro fuel
  induction fuel with
  | zero => intro index servers res h; simp [wrrLoop] at h
  | succ fuel ih =>
    intro index servers res h
    obtain ⟨r, server, hr, hs⟩ := wrrLoop_some_visit avail T M fuel index servers res h
    have hlt : r < servers.length := (List.getElem?_eq_some.mp hs).1
    have hv := wrrVisit_eq avail index servers r server hr hs
    rw [wrrLoop_succ avail T M _ index servers r server hr hs] at h
    by_cases hge : server.currentWeight + server.weight ≥ M
    · rw [if_pos hge] at h
      refine ⟨0, r, { server with currentWeight := server.currentWeight + server.weight },
        Nat.succ_pos _, ?_, ?_, hge, ?_, ?_, ?_, rfl⟩
      · rw [Function.iterate_one, hv]
        exact hr
      · rw [Function.iterate_one, hv]
        exact List.getElem?_set_self hlt
      · intro j hj
        exact absurd hj (Nat.not_lt_zero _)
      · rw [Function.iterate_one, hv, List.set_set]
        exact (Option.some.inj h).symm
      · rw [wrrLoop_succ avail T M _ index servers r server hr hs, if_pos hge]
        exact h
    · rw [if_neg hge] at h
      obtain ⟨k, r2, server2, hk, h1, h2, h3, h4, h5, h6, h7⟩ := ih _ _ _ h
      refine ⟨k + 1, r2, server2, Nat.succ_lt_succ hk, ?_, ?_, h3, ?_, ?_, ?_, ?_⟩
      · rw [Function.iterate_succ_apply, hv]
        exact h1
      · rw [Function.iterate_succ_apply, hv]
        exact h2
      · intro j hj r1 s1 hr1 hs1
        cases j with
        | zero =>
          rw [Function.iterate_one, hv] at hr1 hs1
          simp only at hr1 hs1
          rw [hr] at hr1
          have hrr : r = r1 := Option.some.inj hr1
          subst hrr
          rw [List.getElem?_set_self hlt] at hs1
          rw [← Option.some.inj hs1]
          simp only
          exact lt_of_not_ge hge
        | succ j =>
          rw [Function.iterate_succ_apply, hv] at hr1 hs1
          exact h4 j (Nat.lt_of_succ_lt_succ hj) r1 s1 hr1 hs1
      · rw [Function.iterate_succ_apply, hv]
        exact h5
      · rw [wrrLoop_succ avail T M _ index servers r server hr hs, if_neg hge]
        exact h6
      · rw [wrrLoop_succ avail T M _ index servers r server hr hs, if_neg hge]
        exact h7

theorem wrrLoop_none_of_le (avail : List Nat) (T M : Int) (k index : Nat)
    (servers : List Server) (h : wrrLoop avail T M k index servers = none) (fuel : Nat)
    (hle : fuel ≤ k) : wrrLoop avail T M fuel index servers = none := by
  cases hf : wrrLoop avail T M fuel index servers with
  | none => rfl
  | some res =>
    have := wrrLoop_fuel_mono avail T M fuel index servers res hf (k - fuel)
    rw [show fuel + (k - fuel) = k by omega, h] at this
    simp at this

theorem getWeightedRoundRobinServer_eq_loop (fuel : Nat) (p : Pool)
    (hne : ¬ (upRefs p.servers).length = 0) :
    getWeightedRoundRobinServer fuel p =
      (wrrLoop (upRefs p.servers) (weightsOf p).sum (maxWeightOf (weightsOf p)) fuel
        p.weightedRoundRobinIndex p.servers).map
        (fun x => (some x.1, { p with servers := x.2.2, weightedRoundRobinIndex := x.2.1 })) := by
  unfold getWeightedRoundRobinServer
  simp only [hne, if_false]
  rw [weightTotals_eq p.servers (upRefs p.servers) (fun r hr => upRefs_lt hr)]
  simp only
  unfold weightsOf
  cases wrrLoop (upRefs p.servers) (List.map (weightAt p.servers) (upRefs p.servers)).sum
    (maxWeightOf (List.map (weightAt p.servers) (upRefs p.servers))) fuel
    p.weightedRoundRobinIndex p.servers <;> rfl

theorem wrrVisits_cursor (p : Pool) (j : Nat) :
    (wrrVisits p (j + 1)).1 = ((wrrVisits p j).1 + 1) % (upRefs p.servers).length := by
  unfold wrrVisits
  rw [Function.iterate_succ_apply']
  generalize (wrrVisit (upRefs p.servers))^[j] (p.weightedRoundRobinIndex, p.servers) = st
  unfold wrrVisit
  simp only
  split
  · rfl
  · split <;> rfl

theorem wrrVisits_write (p : Pool) (j r : Nat) (server : Server)
    (hr : (upRefs p.servers)[((wrrVisits p j).1 + 1) % (upRefs p.servers).length]? = some r)
    (hs : (wrrVisits p j).2[r]? = some server) :
    (wrrVisits p (j + 1)).2 =
      (wrrVisits p j).2.set r
        { server with currentWeight := server.currentWeight + server.weight } := by
  unfold wrrVisits at hr hs ⊢
  rw [Function.iterate_succ_apply']
  generalize (wrrVisit (upRefs p.servers))^[j] (p.weightedRoundRobinIndex, p.servers) = st at hr hs
  obtain ⟨index, servers⟩ := st
  rw [wrrVisit_eq (upRefs p.servers) index servers r server hr hs]

/-- One call on a pool with a UP server and positive weights on the UP servers: the number of
iterations `k + 1`, within the potential, and the server returned. -/
theorem getWeightedRoundRobinServer_exact (p : Pool)
    (hup : ∃ s ∈ p.servers, s.status = Status.UP)
    (hpos : ∀ s ∈ p.servers, s.status = Status.UP → 0 < s.weight) :
    ∃ k r server,
      k ≤ wrrPotential (maxWeightOf (weightsOf p)) (currentWeightsOf p) ∧
      r ∈ upRefs p.servers ∧
      (upRefs p.servers)[(wrrVisits p (k + 1)).1]? = some r ∧
      (wrrVisits p (k + 1)).2[r]? = some server ∧
      maxWeightOf (weightsOf p) ≤ server.currentWeight ∧
      (∀ j, j < k → ∀ r1 s1,
        (upRefs p.servers)[(wrrVisits p (j + 1)).1]? = some r1 →
        (wrrVisits p (j + 1)).2[r1]? = some s1 →
        s1.currentWeight < maxWeightOf (weightsOf p)) ∧
      (∀ fuel, k < fuel → getWeightedRoundRobinServer fuel p =
        some (some r,
          { p with
            servers := (wrrVisits p (k + 1)).2.set r
              { server with currentWeight := server.currentWeight - (weightsOf p).sum }
            weightedRoundRobinIndex := (wrrVisits p (k + 1)).1 })) ∧
      (∀ fuel, fuel ≤ k → getWeightedRoundRobinServer fuel p = none) := by
  have hne := upRefs_length_ne_zero hup
  obtain ⟨r0, p1, hret, hmem, _, _⟩ := getWeightedRoundRobinServer_returns p hup hpos
    (wrrPotential (maxWeightOf (weightsOf p)) (currentWeightsOf p) + 1) (Nat.lt_succ_self _)
  rw [getWeightedRoundRobinServer_eq_loop _ p hne] at hret
  cases hloop : wrrLoop (upRefs p.servers) (weightsOf p).sum (maxWeightOf (weightsOf p))
      (wrrPotential (maxWeightOf (weightsOf p)) (currentWeightsOf p) + 1)
      p.weightedRoundRobinIndex p.servers with
  | none => rw [hloop] at hret; simp at hret
  | some res =>
    rw [hloop] at hret
    simp only [Option.map_some', Option.some.injEq, Prod.mk.injEq] at hret
    obtain ⟨k, r, server, hk, h1, h2, h3, h4, h5, h6, h7⟩ :=
      wrrLoop_first_reaching _ _ _ _ _ _ _ hloop
    have hr0 : r = r0 := by
      rw [h5] at hret
      exact hret.1
    refine ⟨k, r, server, Nat.le_of_lt_succ hk, by rw [hr0]; exact hmem, h1, h2, h3, h4, ?_, ?_⟩
    · intro fuel hfuel
      have := wrrLoop_fuel_mono _ _ _ _ _ _ _ h6 (fuel - (k + 1))
      rw [show k + 1 + (fuel - (k + 1)) = fuel by omega] at this
      rw [getWeightedRoundRobinServer_eq_loop _ p hne, this, h5]
      rfl
    · intro fuel hfuel
      rw [getWeightedRoundRobinServer_eq_loop _ p hne,
        wrrLoop_none_of_le _ _ _ _ _ _ h7 fuel hfuel]
      rfl

/-- C29. For every pool state with at least one UP server in which every UP server has a positive
weight (whatever the current weights and the cursor are), the loop of
`getWeightedRoundRobinServer` terminates: there is a number `k + 1` of iterations after which
every call with more than `k` units of fuel returns, and it returns an UP server.  Each iteration
moves the cursor to the next position among the UP servers (wrapping) and adds the weight of the
server there to its `currentWeight`; the first `k` visited servers stay below `maxWeight`, the
server visited last reaches it and is returned after `totalWeight` is subtracted from its
`currentWeight`. -/
theorem getWeightedRoundRobinServer_terminates (p : Pool)
    (hup : ∃ s ∈ p.servers, s.status = Status.UP)
    (hpos : ∀ s ∈ p.servers, s.status = Status.UP → 0 < s.weight) :
    (∀ j, (wrrVisits p (j + 1)).1 = ((wrrVisits p j).1 + 1) % (upRefs p.servers).length) ∧
    (∀ j r server,
      (upRefs p.servers)[((wrrVisits p j).1 + 1) % (upRefs p.servers).length]? = some r →
      (wrrVisits p j).2[r]? = some server →
      (wrrVisits p (j + 1)).2 =
        (wrrVisits p j).2.set r
          { server with currentWeight := server.currentWeight + server.weight }) ∧
    ∃ k r server,
      (∃ s, p.servers[r]? = some s ∧ s.status = Status.UP) ∧
      (upRefs p.servers)[(wrrVisits p (k + 1)).1]? = some r ∧
      (wrrVisits p (k + 1)).2[r]? = some server ∧
      maxWeightOf (weightsOf p) ≤ server.currentWeight ∧
      (∀ j, j < k → ∀ r1 s1,
        (upRefs p.servers)[(wrrVisits p (j + 1)).1]? = some r1 →
        (wrrVisits p (j + 1)).2[r1]? = some s1 →
        s1.currentWeight < maxWeightOf (weightsOf p)) ∧
      (∀ fuel, k < fuel → getWeightedRoundRobinServer fuel p =
        some (some r,
          { p with
            servers := (wrrVisits p (k + 1)).2.set r
              { server with currentWeight := server.currentWeight - (weightsOf p).sum }
            weightedRoundRobinIndex := (wrrVisits p (k + 1)).1 })) ∧
      (∀ fuel, fuel ≤ k → getWeightedRoundRobinServer fuel p = none) := by
  obtain ⟨k, r, server, _, hmem, h1, h2, h3, h4, h5, h6⟩ :=
    getWeightedRoundRobinServer_exact p hup hpos
  exact ⟨wrrVisits_cursor p, wrrVisits_write p,
    k, r, server, mem_upRefs.mp hmem, h1, h2, h3, h4, h5, h6⟩

theorem getWeightedRoundRobinServer_terminates_witness :
    ∃ k r server,
      (∃ s, startupPool.servers[r]? = some s ∧ s.status = Status.UP) ∧
      (upRefs startupPool.servers)[(wrrVisits startupPool (k + 1)).1]? = some r ∧
      (wrrVisits startupPool (k + 1)).2[r]? = some server ∧
      maxWeightOf (weightsOf startupPool) ≤ server.currentWeight ∧
      (∀ j, j < k → ∀ r1 s1,
        (upRefs startupPool.servers)[(wrrVisits startupPool (j + 1)).1]? = some r1 →
        (wrrVisits startupPool (j + 1)).2[r1]? = some s1 →
        s1.currentWeight < maxWeightOf (weightsOf startupPool)) ∧
      (∀ fuel, k < fuel → getWeightedRoundRobinServer fuel startupPool =
        some (some r,
          { startupPool with
            servers := (wrrVisits startupPool (k + 1)).2.set r
              { server with
                currentWeight := server.currentWeight - (weightsOf startupPool).sum }
            weightedRoundRobinIndex := (wrrVisits startupPool (k + 1)).1 })) ∧
      (∀ fuel, fuel ≤ k → getWeightedRoundRobinServer fuel startupPool = none) :=
  (getWeightedRoundRobinServer_terminates startupPool startupPool_up
    (fun s hs _ => startupPool_pos s hs)).2.2

/-- C28 (counterexample): in the state reached by a start-up with weights 2, 1, 1 and three
selections of the weighted round robin, three servers are UP and the fourth call does not return
within three iterations; it returns in the fourth. -/
theorem wrr_iterations_counterexample :
    Reachable (runOps fourthCallOps initialPool) ∧
    (upRefs (runOps fourthCallOps initialPool).servers).length = 3 ∧
    (∀ s ∈ (runOps fourthCallOps initialPool).servers, s.status = Status.UP ∧ 0 < s.weight) ∧
    (runOps fourthCallOps initialPool).servers.map Server.currentWeight = [-2, -2, -2] ∧
    getWeightedRoundRobinServer 3 (runOps fourthCallOps initialPool) = none ∧
    (getWeightedRoundRobinServer 4 (runOps fourthCallOps initialPool)).map Prod.fst =
      some (some 0) := by
  refine ⟨⟨fourthCallOps, rfl⟩, ?_, ?_, ?_, ?_, ?_⟩ <;> decide

/-- C28 (amended): the loop of one call is bounded, but not by the number of UP servers: for every
pool with a UP server and positive weights on the UP servers, a call makes exactly `k + 1`
iterations for some `k` that is at most the sum over the UP servers of
`max(0, maxWeight - currentWeight)`; and from cursor 0 and current weights 0, with the UP servers
and their weights fixed, every call of any run of calls returns within `n * totalWeight + 1`
iterations. -/
theorem wrr_iterations_bounded (p : Pool)
    (hup : ∃ s ∈ p.servers, s.status = Status.UP)
    (hpos : ∀ s ∈ p.servers, s.status = Status.UP → 0 < s.weight) :
    (∃ k r p1, k ≤ wrrPotential (maxWeightOf (weightsOf p)) (currentWeightsOf p) ∧
      getWeightedRoundRobinServer (k + 1) p = some (some r, p1) ∧
      ∀ fuel, fuel ≤ k → getWeightedRoundRobinServer fuel p = none) ∧
    (p.weightedRoundRobinIndex = 0 →
      (∀ s ∈ p.servers, s.status = Status.UP → s.currentWeight = 0) →
      ∀ calls, ∃ trace p2,
        wrrCalls ((weightsOf p).length * (weightsOf p).sum.toNat + 1) calls p =
          some (trace, p2) ∧ trace.length = calls) := by
  constructor
  · obtain ⟨k, r, server, hk, _, _, _, _, _, h5, h6⟩ :=
      getWeightedRoundRobinServer_exact p hup hpos
    exact ⟨k, r, _, hk, h5 (k + 1) (Nat.lt_succ_self k), h6⟩
  · intro hidx hcw calls
    have hne := upRefs_ne_nil hup
    have hwne : weightsOf p ≠ [] := by
      unfold weightsOf
      simpa using hne
    have hwpos := weightsOf_pos hpos
    have hinit : WrrInv (weightsOf p) [] 0 (currentWeightsOf p) := by
      apply WrrInv_initial _ _ hwpos hwne (by simp [weightsOf, currentWeightsOf])
      intro c hc
      obtain ⟨r, hr, rfl⟩ := List.mem_map.mp hc
      obtain ⟨s, hs, hst⟩ := mem_upRefs.mp hr
      rw [currentWeightAt_eq hs]
      exact hcw s (List.mem_iff_getElem?.mpr ⟨r, hs⟩) hst
    obtain ⟨trace, i2, cws2, hcalls, hlen, _⟩ :=
      cwCalls_inv (weightsOf p) hwpos hwne _ (Nat.lt_succ_self _) calls [] 0
        (currentWeightsOf p) hinit
    rw [← hidx] at hcalls
    obtain ⟨p2, hp2, _⟩ := wrrCalls_of_cwCalls _ calls p hne trace i2 cws2 hcalls
    exact ⟨_, p2, hp2, by simp [hlen]⟩

theorem wrr_iterations_bounded_witness :
    (∃ k r p1,
      k ≤ wrrPotential (maxWeightOf (weightsOf startupPool)) (currentWeightsOf startupPool) ∧
      getWeightedRoundRobinServer (k + 1) startupPool = some (some r, p1) ∧
      ∀ fuel, fuel ≤ k → getWeightedRoundRobinServer fuel startupPool = none) ∧
    ∃ trace p2,
      wrrCalls ((weightsOf startupPool).length * (weightsOf startupPool).sum.toNat + 1) 4
        startupPool = some (trace, p2) ∧ trace.length = 4 :=
  ⟨(wrr_iterations_bounded startupPool startupPool_up (fun s hs _ => startupPool_pos s hs)).1,
    (wrr_iterations_bounded startupPool startupPool_up (fun s hs _ => startupPool_pos s hs)).2
      rfl (fun s hs _ => startupPool_zero s hs) 4⟩

/-- C30. For a pool with a UP server, positive weights on the UP servers, the cursor at 0 and the
current weights of the UP servers at 0: after any number of calls of
`getWeightedRoundRobinServer` (each given fuel above `n * T`, so that it returns), the UP servers
and their weights are the same and the `currentWeight` `c` of every UP server satisfies
`M - T ≤ c < M`, with `M` the maximum and `T` the sum of the weights of the UP servers. -/
theorem wrr_currentWeight_bounds (p : Pool)
    (hup : ∃ s ∈ p.servers, s.status = Status.UP)
    (hpos : ∀ s ∈ p.servers, s.status = Status.UP → 0 < s.weight)
    (hidx : p.weightedRoundRobinIndex = 0)
    (hcw : ∀ s ∈ p.servers, s.status = Status.UP → s.currentWeight = 0)
    (fuel : Nat) (hfuel : (weightsOf p).length * (weightsOf p).sum.toNat < fuel) (calls : Nat) :
    ∃ (trace : List (Option Nat)) (p2 : Pool),
      wrrCalls fuel calls p = some (trace, p2) ∧ trace.length = calls ∧
      upRefs p2.servers = upRefs p.servers ∧ weightsOf p2 = weightsOf p ∧
      ∀ (r : Nat) (s2 : Server), p2.servers[r]? = some s2 → s2.status = Status.UP →
        maxWeightOf (weightsOf p) - (weightsOf p).sum ≤ s2.currentWeight ∧
        s2.currentWeight < maxWeightOf (weightsOf p) := by
  have hne := upRefs_ne_nil hup
  have hwne : weightsOf p ≠ [] := by
    unfold weightsOf
    simpa using hne
  have hwpos := weightsOf_pos hpos
  have hinit : WrrInv (weightsOf p) [] 0 (currentWeightsOf p) := by
    apply WrrInv_initial _ _ hwpos hwne (by simp [weightsOf, currentWeightsOf])
    intro c hc
    obtain ⟨r, hr, rfl⟩ := List.mem_map.mp hc
    obtain ⟨s, hs, hst⟩ := mem_upRefs.mp hr
    rw [currentWeightAt_eq hs]
    exact hcw s (List.mem_iff_getElem?.mpr ⟨r, hs⟩) hst
  obtain ⟨trace, i2, cws2, hcalls, hlen, hinv⟩ :=
    cwCalls_inv (weightsOf p) hwpos hwne fuel hfuel calls [] 0 (currentWeightsOf p) hinit
  rw [← hidx] at hcalls
  obtain ⟨p2, hp2, _, hcws, hupr, hws, _⟩ :=
    wrrCalls_of_cwCalls fuel calls p hne trace i2 cws2 hcalls
  refine ⟨_, p2, hp2, by simp [hlen], hupr, hws, ?_⟩
  intro r s2 hs2 hst2
  have hmem : r ∈ upRefs p2.servers := mem_upRefs.mpr ⟨s2, hs2, hst2⟩
  have hc : s2.currentWeight ∈ cws2 := by
    rw [← hcws]
    unfold currentWeightsOf
    exact List.mem_map.mpr ⟨r, hmem, currentWeightAt_eq hs2⟩
  exact hinv.2 _ hc

theorem wrr_currentWeight_bounds_witness :
    ∃ (trace : List (Option Nat)) (p2 : Pool),
      wrrCalls 13 5 startupPool = some (trace, p2) ∧ trace.length = 5 ∧
      upRefs p2.servers = upRefs startupPool.servers ∧
      weightsOf p2 = weightsOf startupPool ∧
      ∀ (r : Nat) (s2 : Server), p2.servers[r]? = some s2 → s2.status = Status.UP →
        maxWeightOf (weightsOf startupPool) - (weightsOf startupPool).sum ≤ s2.currentWeight ∧
        s2.currentWeight < maxWeightOf (weightsOf startupPool) :=
  wrr_currentWeight_bounds startupPool startupPool_up (fun s hs _ => startupPool_pos s hs) rfl
    (fun s hs _ => startupPool_zero s hs) 13 (by decide) 5

end LoadBalancer
